import Mathlib

/-!
# rwd_edit: a shallow embedding of `src/rwd_edit.cpp`

The program reads, lists, unpacks and repacks RWD/TGCK archives.  The
embedding keeps the source's names.  Conventions:

* a byte is a `Fin 256`; a file or stream content is a `List Byte`;
* `uint16_t`/`uint64_t` fields are `Nat`s decoded little-endian (the source
  asserts a little-endian host and reads the fields by `reinterpret_cast`),
  and unsigned arithmetic is written with an explicit `% 2^64`;
* a `u16string` is a `List Nat` of 16-bit code units;
* `char[n]` arrays are `List Byte`s (of length `n` whenever they were read
  from a stream);
* the input stream has `exceptions(badbit | failbit | eofbit)` set, so a
  short read or a failed seek throws: functions return `Except Err _`;
* every read of the source is preceded by an explicit seek, so the stream
  position is passed explicitly instead of being kept in a stream object;
* stream positions are `streamoff`s (signed, 64 bits), so a file is shorter
  than `2^63` bytes: the theorems that need this of the output of pack take
  it as the hypothesis `hfit`;
* `ranges::sort` is not stable: the pack block is defined for a given result
  of the sort, and the theorems hold for every result the sort may give
  (`IsOffsetOrder`).
-/

namespace RwdEdit

/-! ## Bytes, integers, strings -/

abbrev Byte := Fin 256

/-- The exceptions that reach the `catch` of `main`. -/
inductive Err where
  /-- `ios_base::failure`: a stream with an exception mask hit a short read,
  a failed seek, a failed open or a failed write. -/
  | ios
  /-- `runtime_error("invalid RWD file: \"TGCK\" signature missing")`. -/
  | signature
  /-- `runtime_error("invalid RWD file: mismatched 'Header' lengths")`. -/
  | headerLengths
  /-- `runtime_error("invalid RWD file: mismatched 'Files' lengths")`. -/
  | filesLengths
  /-- `runtime_error("invalid RWD file: mismatched 'Footer' lengths")`. -/
  | footerLengths
  /-- `runtime_error(tmpPath + " may have been left in place ...")`. -/
  | tmpLeftInPlace
  /-- A `filesystem_error` or conversion error raised while a path is built
  from a file name. -/
  | path
  /-- The `filesystem_error` of a failed `fs::create_directories`. -/
  | filesystem
  /-- The C++ standard gives the operation no meaning (an end-of-stream
  `istreambuf_iterator` is dereferenced); the model says nothing more. -/
  | undefinedBehaviour
  /-- The loop counter of the model ran out; `forFile_fuel` shows that this
  never happens. -/
  | fuel
  deriving DecidableEq, Repr

/-- Value of a little-endian byte string. -/
def leToNat : List Byte → Nat
  | [] => 0
  | b :: bs => b.val + 256 * leToNat bs

/-- The `w` low bytes of `n`, little-endian. -/
def natToLE : Nat → Nat → List Byte
  | 0, _ => []
  | w + 1, n => ⟨n % 256, Nat.mod_lt n (by decide)⟩ :: natToLE w (n / 256)

/-- The bytes `off .. off + len` of `b`. -/
def slice (b : List Byte) (off len : Nat) : List Byte := (b.drop off).take len

/-- A `u16string` read from raw memory: consecutive little-endian pairs. -/
def decodeU16 : List Byte → List Nat
  | lo :: hi :: rest => (lo.val + 256 * hi.val) :: decodeU16 rest
  | _ => []

/-- The raw memory of a `u16string`: two little-endian bytes per code unit. -/
def encodeU16 : List Nat → List Byte
  | [] => []
  | c :: cs => natToLE 2 c ++ encodeU16 cs

/-! ## Streams -/

/-- `rwdFile.seekg(pos)` for a `uint64_t pos`: the position is converted to a
signed `streamoff`, so a value of `2^63` or more is a negative offset and the
seek fails (failbit, hence an exception). -/
def seekg (pos : Nat) : Except Err Nat :=
  if pos < 2 ^ 63 then .ok pos else .error .ios

/-- `rwdFile.read(buf, n)` at position `pos`: all `n` bytes or an exception
(eofbit and failbit are in the exception mask). -/
def read (rwdFile : List Byte) (pos n : Nat) : Except Err (List Byte) :=
  if pos + n ≤ rwdFile.length then .ok (slice rwdFile pos n) else .error .ios

/-- `strncmp(a, b, n)`: the difference at the first position where the
strings differ, `0` when none is found before `n` characters or before a NUL
common to both. -/
def strncmp : List Byte → List Byte → Nat → Int
  | a :: as, b :: bs, n + 1 =>
    if a ≠ b then (a.val : Int) - (b.val : Int)
    else if a = 0 then 0
    else strncmp as bs n
  | _, _, _ => 0

/-- The string literal `"TGCK"` with its terminating NUL. -/
def TGCK : List Byte := [84, 71, 67, 75, 0]

/-! ## Data model -/

structure IntroSection where
  signature : List Byte
  uknown1 : List Byte
  uknown2 : List Byte
  uknown3 : List Byte
  descriptionLength : Nat
  description : List Nat
  zeros : List Byte
  unknown : List Byte
  deriving DecidableEq, Repr

structure HeaderSection where
  text : List Byte
  headerOffset : Nat
  headerLength1 : Nat
  unknown1 : List Byte
  unknown2 : List Byte
  headerLength2 : Nat
  deriving DecidableEq, Repr

structure FilesSection where
  text : List Byte
  fileDataOffset : Nat
  fileDataLength1 : Nat
  unknown1 : List Byte
  unknown2 : List Byte
  fileDataLength2 : Nat
  deriving DecidableEq, Repr

structure FooterSection where
  text : List Byte
  directoryOffset : Nat
  directoryLength1 : Nat
  unknown1 : List Byte
  unknown2 : List Byte
  directoryLength2 : Nat
  deriving DecidableEq, Repr

structure Metadata where
  padding : List Byte
  header : HeaderSection
  files : FilesSection
  footer : FooterSection
  deriving DecidableEq, Repr

structure FileInfo where
  typeId : List Byte
  filenameLength : Nat
  filename : List Nat
  offsetFromStartOfFileData : Nat
  size : Nat
  zeros : List Byte
  deriving DecidableEq, Repr

/-- The value of `sizeof(Metadata)` under `#pragma pack(1)`. -/
def sizeofMetadata : Nat := 292

/-- The value of `sizeof(Metadata::padding)`. -/
def sizeofPadding : Nat := 4

/-! ## Intro -/

/-- Reads `partOne` (a packed struct of 18 bytes), the description and
`partTwo` (8 bytes) from offset 0, then checks the signature. -/
def readIntro (rwdFile : List Byte) : Except Err IntroSection := do
  let _ ← seekg 0
  let partOne ← read rwdFile 0 18
  let descriptionLength := leToNat (slice partOne 16 2)
  let description ← read rwdFile 18 (descriptionLength * 2)
  let partTwo ← read rwdFile (18 + descriptionLength * 2) 8
  let signature := slice partOne 0 4
  if strncmp signature TGCK 4 ≠ 0 then
    throw .signature
  pure
    { signature := signature
      uknown1 := slice partOne 4 4
      uknown2 := slice partOne 8 4
      uknown3 := slice partOne 12 4
      descriptionLength := descriptionLength
      description := decodeU16 description
      zeros := slice partTwo 0 4
      unknown := slice partTwo 4 4 }

/-- The bytes `writeIntro` appends to the output stream. -/
def writeIntro (intro : IntroSection) : List Byte :=
  (intro.signature ++ intro.uknown1 ++ intro.uknown2 ++ intro.uknown3
      ++ natToLE 2 intro.descriptionLength)
    ++ encodeU16 intro.description
    ++ (intro.zeros ++ intro.unknown)

/-! ## Metadata -/

def decodeHeaderSection (b : List Byte) : HeaderSection :=
  { text := slice b 0 64
    headerOffset := leToNat (slice b 64 8)
    headerLength1 := leToNat (slice b 72 8)
    unknown1 := slice b 80 4
    unknown2 := slice b 84 4
    headerLength2 := leToNat (slice b 88 8) }

def decodeFilesSection (b : List Byte) : FilesSection :=
  { text := slice b 0 64
    fileDataOffset := leToNat (slice b 64 8)
    fileDataLength1 := leToNat (slice b 72 8)
    unknown1 := slice b 80 4
    unknown2 := slice b 84 4
    fileDataLength2 := leToNat (slice b 88 8) }

def decodeFooterSection (b : List Byte) : FooterSection :=
  { text := slice b 0 64
    directoryOffset := leToNat (slice b 64 8)
    directoryLength1 := leToNat (slice b 72 8)
    unknown1 := slice b 80 4
    unknown2 := slice b 84 4
    directoryLength2 := leToNat (slice b 88 8) }

/-- The 292 bytes of a packed `Metadata` seen as its fields. -/
def decodeMetadata (b : List Byte) : Metadata :=
  { padding := slice b 0 4
    header := decodeHeaderSection (slice b 4 96)
    files := decodeFilesSection (slice b 100 96)
    footer := decodeFooterSection (slice b 196 96) }

def readMetadata (rwdFile : List Byte) : Except Err Metadata := do
  -- seekg(-sizeof(Metadata), end): fails when the position would be negative
  let pos ← if sizeofMetadata ≤ rwdFile.length then pure (rwdFile.length - sizeofMetadata)
            else throw Err.ios
  let raw ← read rwdFile pos sizeofMetadata
  let metadata := decodeMetadata raw
  if metadata.header.headerLength1 ≠ metadata.header.headerLength2 then
    throw .headerLengths
  if metadata.files.fileDataLength1 ≠ metadata.files.fileDataLength2 then
    throw .filesLengths
  if metadata.footer.directoryLength1 ≠ metadata.footer.directoryLength2 then
    throw .footerLengths
  pure metadata

def encodeHeaderSection (s : HeaderSection) : List Byte :=
  s.text ++ natToLE 8 s.headerOffset ++ natToLE 8 s.headerLength1
    ++ s.unknown1 ++ s.unknown2 ++ natToLE 8 s.headerLength2

def encodeFilesSection (s : FilesSection) : List Byte :=
  s.text ++ natToLE 8 s.fileDataOffset ++ natToLE 8 s.fileDataLength1
    ++ s.unknown1 ++ s.unknown2 ++ natToLE 8 s.fileDataLength2

def encodeFooterSection (s : FooterSection) : List Byte :=
  s.text ++ natToLE 8 s.directoryOffset ++ natToLE 8 s.directoryLength1
    ++ s.unknown1 ++ s.unknown2 ++ natToLE 8 s.directoryLength2

/-- The bytes `writeMetadata` appends to the output stream. -/
def writeMetadata (metadata : Metadata) : List Byte :=
  metadata.padding ++ encodeHeaderSection metadata.header
    ++ encodeFilesSection metadata.files ++ encodeFooterSection metadata.footer

/-! ## Directory walker -/

/-- The reads of one iteration of `forFile` (the seek, the six reads and
`tellg`): the decoded entry and the new value of `currentOffset`. -/
def readFileInfo (rwdFile : List Byte) (currentOffset : Nat) : Except Err (FileInfo × Nat) := do
  let pos ← seekg currentOffset
  let typeId ← read rwdFile pos 4
  let rawLength ← read rwdFile (pos + 4) 2
  let filenameLength := leToNat rawLength
  let rawName ← read rwdFile (pos + 6) (filenameLength * 2)
  let rawOffset ← read rwdFile (pos + 6 + filenameLength * 2) 8
  let rawSize ← read rwdFile (pos + 6 + filenameLength * 2 + 8) 8
  let zeros ← read rwdFile (pos + 6 + filenameLength * 2 + 16) 4
  pure
    ({ typeId := typeId
       filenameLength := filenameLength
       filename := decodeU16 rawName
       offsetFromStartOfFileData := leToNat rawOffset
       size := leToNat rawSize
       zeros := zeros },
     (pos + 6 + filenameLength * 2 + 20) % 2 ^ 64)

/-- A visitor of `forFile`: it works on a state `σ` (what the C++ handler
captures or writes to) and may throw; the state it leaves is kept in both
cases. -/
abbrev Handler (σ : Type) := σ → List Byte → FilesSection → FileInfo → σ × Except Err Unit

/-- The `while` loop of `forFile`, with a loop counter. -/
def forFileLoop {σ : Type} (rwdFile : List Byte) (md : Metadata) (handler : Handler σ)
    (maxOffset : Nat) : Nat → Nat → σ → σ × Except Err Unit
  | 0, _, s => (s, .error .fuel)
  | n + 1, currentOffset, s =>
    if (currentOffset + sizeofPadding) % 2 ^ 64 < maxOffset then
      match readFileInfo rwdFile currentOffset with
      | .error e => (s, .error e)
      | .ok (info, next) =>
        match handler s rwdFile md.files info with
        | (s1, .error e) => (s1, .error e)
        | (s1, .ok ()) => forFileLoop rwdFile md handler maxOffset n next s1
    else (s, .ok ())

/-- The walker.  Every iteration reads at least 26 bytes at a position below
the end of the stream, so `rwdFile.length + 1` iterations are never
exceeded (`forFile_fuel`). -/
def forFile {σ : Type} (rwdFile : List Byte) (md : Metadata) (handler : Handler σ) (s : σ) :
    σ × Except Err Unit :=
  forFileLoop rwdFile md handler
    ((md.footer.directoryOffset + md.footer.directoryLength1) % 2 ^ 64)
    (rwdFile.length + 1) md.footer.directoryOffset s

/-! ## File system and console

`std::filesystem` is not code of the program and differs between platforms
(separators, case, encodings).  What the program uses of it is a parameter
of the model; a directory is a map from the paths it holds to file
contents, next to the list of the directories that exist. -/

/-- The platform's path functions. -/
structure Platform where
  /-- The file that `(directory / fs::path(filename)).lexically_normal()`
  names, `none` when building the path throws. -/
  resolve : List Nat → Option (List Nat)
  /-- The text `fs::path(filename).generic_string()` gives, `none` when the
  conversion throws. -/
  genericString : List Nat → Option (List Nat)
  /-- The directories that `fs::create_directories(outputPath.parent_path())`
  has to find or make for the output path of `filename`, outermost first;
  `none` when the call throws whatever the directory holds. -/
  parents : List Nat → Option (List (List Nat))
  /-- Whether the output path of `filename` ends in a file name; a path that
  ends in a separator, a dot or a dot-dot names a directory. -/
  namesFile : List Nat → Bool

/-- The files of a directory, by resolved path. -/
abbrev Tree := List Nat → Option (List Byte)

def Tree.empty : Tree := fun _ => none

/-- Creates or replaces the file `path`. -/
def Tree.write (t : Tree) (path : List Nat) (content : List Byte) : Tree :=
  fun q => if q = path then some content else t q

/-- A line on standard output. -/
inductive Line where
  | path (name : List Nat)
  | extracting (name : List Nat)
  | parsing
  | packing
  | renaming
  | finished
  deriving DecidableEq, Repr

/-- What a run can observe and change. -/
structure World where
  /-- Lines printed so far. -/
  stdout : List Line
  /-- The bytes of the file at `rwdPath`. -/
  rwd : List Byte
  /-- The file at `rwdPath + ".tmp"`, when there is one. -/
  tmp : Option (List Byte)
  /-- The files below the directory of `argv[3]`. -/
  directory : Tree
  /-- The directories that exist, by path: for `unpack`, whose target is
  empty at the start, the ones made for the files extracted so far. -/
  folders : List (List Nat) := []

/-! ## Handlers -/

def printFilePaths (P : Platform) : Handler World := fun w _ _ info =>
  match P.genericString info.filename with
  | none => (w, .error .path)
  | some name => ({ w with stdout := w.stdout ++ [Line.path name] }, .ok ())

/-- `Unpack::operator()`.  `fs::create_directories` throws when the call is
refused or one of the directories it has to find is a regular file; the
`ofstream` fails to open, and `output.exceptions(...)` then throws, when the
output path names a directory.  `copy_n` reads through an
`istreambuf_iterator`, which never sets the stream's state: reading `size`
bytes that the stream holds gives those bytes, and reading past the end has
undefined behaviour. -/
def Unpack (P : Platform) : Handler World := fun w rwdFile filesSection info =>
  match P.genericString info.filename with
  | none => (w, .error .path)
  | some name =>
    let w := { w with stdout := w.stdout ++ [Line.extracting name] }
    match seekg ((filesSection.fileDataOffset + info.offsetFromStartOfFileData) % 2 ^ 64) with
    | .error e => (w, .error e)
    | .ok pos =>
      match P.resolve info.filename with
      | none => (w, .error .path)
      | some outputPath =>
        match P.parents info.filename with
        | none => (w, .error .filesystem)
        | some parents =>
          if parents.any (fun d => (w.directory d).isSome) then (w, .error .filesystem)
          else
            let w := { w with folders := w.folders ++ parents }
            if P.namesFile info.filename = false ∨ outputPath ∈ w.folders then
              (w, .error .ios)
            else
              let w := { w with directory := w.directory.write outputPath [] }
              if info.size = 0 then (w, .ok ())
              else if pos + info.size ≤ rwdFile.length then
                ({ w with
                   directory := w.directory.write outputPath (slice rwdFile pos info.size) },
                  .ok ())
              else (w, .error .undefinedBehaviour)

/-- The lambda of the pack branch: `infosInOriginalOrder.emplace_back`. -/
def collect : Handler (List FileInfo) := fun infos _ _ info => (infos ++ [info], .ok ())

/-! ## Packing -/

/-- `writeFileContent`: the new content of `rwdOut` and the updated `info`.
The source file is opened before anything is written, and a file that does
not exist makes `file.exceptions` throw.  `tellg` and `tellp` are converted
to `uint64_t`. -/
def writeFileContent (P : Platform) (sourceDir : Tree) (rwdOut : List Byte)
    (filesSection : FilesSection) (info : FileInfo) : Except Err (List Byte × FileInfo) :=
  match P.resolve info.filename with
  | none => .error .path
  | some path =>
    match sourceDir path with
    | none => .error .ios
    | some file =>
      let info := { info with size := file.length % 2 ^ 64 }
      let info :=
        if info.size > 0 then
          { info with
            offsetFromStartOfFileData :=
              (rwdOut.length % 2 ^ 64 + 2 ^ 64 - filesSection.fileDataOffset % 2 ^ 64) % 2 ^ 64 }
        else info
      .ok (rwdOut ++ file, info)

/-- The bytes `writeDirectoryContent` appends to the output stream. -/
def writeDirectoryContent (info : FileInfo) : List Byte :=
  info.typeId ++ natToLE 2 info.filenameLength ++ encodeU16 info.filename
    ++ natToLE 8 info.offsetFromStartOfFileData ++ natToLE 8 info.size ++ info.zeros

/-- The variables the pack block works on. -/
structure PackState where
  rwdOut : List Byte
  infosInOriginalOrder : List FileInfo
  metadata : Metadata
  deriving DecidableEq, Repr

/-- The offset the comparator of `ranges::sort` reads through pointer `i`. -/
def offsetAt (infos : List FileInfo) (i : Nat) : Nat :=
  match infos[i]? with
  | some info => info.offsetFromStartOfFileData
  | none => 0

/-- `infosInOffsetOrder` after `ranges::sort`: the pointers are positions in
`infosInOriginalOrder`.  This sort keeps entries of equal offset in
directory order; `ranges::sort` may order them differently, which is why
the theorems are stated for every order that `IsOffsetOrder` accepts. -/
def infosInOffsetOrder (infos : List FileInfo) : List Nat :=
  (List.range infos.length).insertionSort (fun i j => offsetAt infos i ≤ offsetAt infos j)

/-- What `ranges::sort` guarantees of its result: a rearrangement of the
pointers in which no element compares less than an earlier one. -/
def IsOffsetOrder (infos : List FileInfo) (order : List Nat) : Prop :=
  order.Perm (List.range infos.length) ∧
    order.Pairwise (fun i j => ¬ offsetAt infos j < offsetAt infos i)

/-- The loop `for (FileInfo* info : infosInOffsetOrder) writeFileContent(...)`.
When a call throws, the state is the one before that call. -/
def writeFiles (P : Platform) (sourceDirectory : Tree) (filesSection : FilesSection) :
    List Nat → List Byte × List FileInfo → (List Byte × List FileInfo) × Except Err Unit
  | [], st => (st, .ok ())
  | i :: rest, (rwdOut, infos) =>
    match infos[i]? with
    | none => ((rwdOut, infos), .error .undefinedBehaviour)
    | some info =>
      match writeFileContent P sourceDirectory rwdOut filesSection info with
      | .error e => ((rwdOut, infos), .error e)
      | .ok (rwdOut1, info1) =>
        writeFiles P sourceDirectory filesSection rest (rwdOut1, infos.set i info1)

/-- The loop `for (const FileInfo& info : infosInOriginalOrder)
writeDirectoryContent(rwdOut, info)`. -/
def writeDirectory (rwdOut : List Byte) : List FileInfo → List Byte
  | [] => rwdOut
  | info :: rest => writeDirectory (rwdOut ++ writeDirectoryContent info) rest

/-- The pack block from `writeIntro` to `writeMetadata`, for a given result
`order` of the sort. -/
def packWith (P : Platform) (sourceDirectory : Tree) (intro : IntroSection)
    (metadata : Metadata) (infos : List FileInfo) (order : List Nat) :
    PackState × Except Err Unit :=
  let rwdOut := writeIntro intro
  match writeFiles P sourceDirectory metadata.files order (rwdOut, infos) with
  | ((rwdOut, infos), .error e) =>
    ({ rwdOut := rwdOut, infosInOriginalOrder := infos, metadata := metadata }, .error e)
  | ((rwdOut, infos), .ok ()) =>
    let directoryOffset := rwdOut.length % 2 ^ 64
    let rwdOut := writeDirectory rwdOut infos
    let metadata :=
      { metadata with footer := { metadata.footer with directoryOffset := directoryOffset } }
    ({ rwdOut := rwdOut ++ writeMetadata metadata, infosInOriginalOrder := infos,
       metadata := metadata }, .ok ())

/-! ## main -/

inductive Mode where
  | list
  | pack
  | unpack
  deriving DecidableEq, Repr

/-- The body of `main` after the argument checks, which are taken to have
passed.  `sort` is the result `ranges::sort` gives for the collected
entries. -/
def main (P : Platform) (sort : List FileInfo → List Nat) (mode : Mode) (w : World) :
    World × Except Err Unit :=
  match readIntro w.rwd with
  | .error e => (w, .error e)
  | .ok intro =>
    match readMetadata w.rwd with
    | .error e => (w, .error e)
    | .ok metadata =>
      match mode with
      | .list => forFile w.rwd metadata (printFilePaths P) w
      | .pack =>
        let w := { w with stdout := w.stdout ++ [Line.parsing] }
        match forFile w.rwd metadata collect [] with
        | (_, .error e) => (w, .error e)
        | (infos, .ok ()) =>
          let w := { w with stdout := w.stdout ++ [Line.packing] }
          match w.tmp with
          | some _ => (w, .error .tmpLeftInPlace)
          | none =>
            match packWith P w.directory intro metadata infos (sort infos) with
            | (st, .error e) => ({ w with tmp := some st.rwdOut }, .error e)
            | (st, .ok ()) =>
              ({ w with
                 stdout := w.stdout ++ [Line.renaming, Line.finished]
                 rwd := st.rwdOut
                 tmp := none }, .ok ())
      | .unpack => forFile w.rwd metadata (Unpack P) w

/-! ## Layouts

The fields of the intro and of a directory entry by position, for the
theorems to compare with what the readers return. -/

/-- The fields `readIntro` decodes from the start of a stream. -/
def decodeIntro (b : List Byte) : IntroSection :=
  { signature := slice b 0 4
    uknown1 := slice b 4 4
    uknown2 := slice b 8 4
    uknown3 := slice b 12 4
    descriptionLength := leToNat (slice b 16 2)
    description := decodeU16 (slice b 18 (leToNat (slice b 16 2) * 2))
    zeros := slice b (18 + leToNat (slice b 16 2) * 2) 4
    unknown := slice b (18 + leToNat (slice b 16 2) * 2 + 4) 4 }

/-- The fields `forFile` decodes from the entry that starts at `c`. -/
def decodeFileInfo (b : List Byte) (c : Nat) : FileInfo :=
  { typeId := slice b c 4
    filenameLength := leToNat (slice b (c + 4) 2)
    filename := decodeU16 (slice b (c + 6) (leToNat (slice b (c + 4) 2) * 2))
    offsetFromStartOfFileData := leToNat (slice b (c + 6 + leToNat (slice b (c + 4) 2) * 2) 8)
    size := leToNat (slice b (c + 6 + leToNat (slice b (c + 4) 2) * 2 + 8) 8)
    zeros := slice b (c + 6 + leToNat (slice b (c + 4) 2) * 2 + 16) 4 }

/-! ## The walk as a list of entries

The directory as the walker sees it: the entries decoded one after the
other, and the calls of the visitor on them. -/

/-- The number of bytes of a directory entry. -/
def entryLength (info : FileInfo) : Nat := 26 + 2 * info.filenameLength

/-- The position just past the entries `infos` stored from `start` on. -/
def cursorAfter (start : Nat) : List FileInfo → Nat
  | [] => start
  | info :: rest => cursorAfter (start + entryLength info) rest

/-- The condition of the `while` loop of `forFile`. -/
def loopCondition (currentOffset maxOffset : Nat) : Prop :=
  (currentOffset + sizeofPadding) % 2 ^ 64 < maxOffset

instance (c m : Nat) : Decidable (loopCondition c m) := by
  unfold loopCondition; infer_instance

/-- The value of `maxOffset` in `forFile`. -/
def maxOffsetOf (md : Metadata) : Nat :=
  (md.footer.directoryOffset + md.footer.directoryLength1) % 2 ^ 64

/-- `Walked rwdFile maxOffset c infos`: from cursor `c` on, the loop of
`forFile` enters its body once for each entry of `infos`, in this order;
each time the loop condition holds at the cursor, the reads decode the
entry there, and the cursor moves to the position just past it. -/
def Walked (rwdFile : List Byte) (maxOffset : Nat) : Nat → List FileInfo → Prop
  | _, [] => True
  | c, info :: rest =>
    loopCondition c maxOffset ∧
      readFileInfo rwdFile c = .ok (info, c + entryLength info) ∧
      Walked rwdFile maxOffset (c + entryLength info) rest

/-- The calls of the visitor on `infos`, one per entry in list order, up to
the first one that throws. -/
def visit {σ : Type} (handler : Handler σ) (rwdFile : List Byte) (filesSection : FilesSection) :
    List FileInfo → σ → σ × Except Err Unit
  | [], s => (s, .ok ())
  | info :: rest, s =>
    match handler s rwdFile filesSection info with
    | (s1, .error e) => (s1, .error e)
    | (s1, .ok ()) => visit handler rwdFile filesSection rest s1

/-! ## Source files, placement, listing

Names for what the theorems speak about: the source file of an entry, the
entry as `writeFileContent` leaves it, the bytes of a directory, the bytes an
entry addresses, the lines `list` prints. -/

/-- The content of the file `writeFileContent` opens for `info`, when there
is one. -/
def sourceFile (P : Platform) (sourceDir : Tree) (info : FileInfo) : Option (List Byte) :=
  match P.resolve info.filename with
  | none => none
  | some path => sourceDir path

/-- The length of the source file of `info` (0 when there is none). -/
def sourceLength (P : Platform) (sourceDir : Tree) (info : FileInfo) : Nat :=
  match sourceFile P sourceDir info with
  | some file => file.length
  | none => 0

/-- The source file of the entry at position `k` of `infos` (empty when
there is none). -/
def fileAt (P : Platform) (sourceDir : Tree) (infos : List FileInfo) (k : Nat) : List Byte :=
  match infos[k]? with
  | some info => (sourceFile P sourceDir info).getD []
  | none => []

/-- The file data written for the pointers `order`, in this order. -/
def dataOf (P : Platform) (sourceDir : Tree) (infos : List FileInfo) (order : List Nat) :
    List Byte :=
  (order.map (fileAt P sourceDir infos)).flatten

/-- The entry `info` once `writeFileContent` has written `file` for it at
output position `pos`. -/
def placed (fileDataOffset pos : Nat) (file : List Byte) (info : FileInfo) : FileInfo :=
  { info with
    size := file.length % 2 ^ 64
    offsetFromStartOfFileData :=
      if file.length % 2 ^ 64 > 0 then
        (pos % 2 ^ 64 + 2 ^ 64 - fileDataOffset % 2 ^ 64) % 2 ^ 64
      else info.offsetFromStartOfFileData }

/-- The bytes of the directory that holds `infos`. -/
def directoryOf (infos : List FileInfo) : List Byte :=
  (infos.map writeDirectoryContent).flatten

/-- What `list` prints for the entries `infos`, and how it ends: one line
per entry, up to the first file name that cannot be rendered. -/
def listLines (P : Platform) : List FileInfo → List Line × Except Err Unit
  | [] => ([], .ok ())
  | info :: rest =>
    match P.genericString info.filename with
    | none => ([], .error .path)
    | some name => (Line.path name :: (listLines P rest).1, (listLines P rest).2)

def IntroSection.WellFormed (intro : IntroSection) : Prop :=
  intro.signature.length = 4 ∧ intro.uknown1.length = 4 ∧ intro.uknown2.length = 4 ∧
    intro.uknown3.length = 4 ∧ intro.descriptionLength < 2 ^ 16 ∧
    intro.description.length = intro.descriptionLength ∧
    (∀ c ∈ intro.description, c < 2 ^ 16) ∧ intro.zeros.length = 4 ∧ intro.unknown.length = 4

def HeaderSection.WellFormed (s : HeaderSection) : Prop :=
  s.text.length = 64 ∧ s.headerOffset < 2 ^ 64 ∧ s.headerLength1 < 2 ^ 64 ∧
    s.unknown1.length = 4 ∧ s.unknown2.length = 4 ∧ s.headerLength2 < 2 ^ 64

def FilesSection.WellFormed (s : FilesSection) : Prop :=
  s.text.length = 64 ∧ s.fileDataOffset < 2 ^ 64 ∧ s.fileDataLength1 < 2 ^ 64 ∧
    s.unknown1.length = 4 ∧ s.unknown2.length = 4 ∧ s.fileDataLength2 < 2 ^ 64

def FooterSection.WellFormed (s : FooterSection) : Prop :=
  s.text.length = 64 ∧ s.directoryOffset < 2 ^ 64 ∧ s.directoryLength1 < 2 ^ 64 ∧
    s.unknown1.length = 4 ∧ s.unknown2.length = 4 ∧ s.directoryLength2 < 2 ^ 64

def Metadata.WellFormed (md : Metadata) : Prop :=
  md.padding.length = 4 ∧ md.header.WellFormed ∧ md.files.WellFormed ∧ md.footer.WellFormed

def FileInfo.WellFormed (info : FileInfo) : Prop :=
  info.typeId.length = 4 ∧ info.filenameLength < 2 ^ 16 ∧
    info.filename.length = info.filenameLength ∧ (∀ c ∈ info.filename, c < 2 ^ 16) ∧
    info.offsetFromStartOfFileData < 2 ^ 64 ∧ info.size < 2 ^ 64 ∧ info.zeros.length = 4

/-! ## Example archives

Small archives and source trees at which the theorems are evaluated. -/

/-- A platform on which a file name of one component names the file of that
name, and is printed as it is. -/
def plainPlatform : Platform :=
  { resolve := some, genericString := some, parents := fun _ => some [],
    namesFile := fun _ => true }

/-- An intro with the signature, a description of one code unit (`d`) and
`partTwo`: 28 bytes. -/
def exampleIntro : List Byte :=
  [84, 71, 67, 75] ++ [1, 1, 1, 1] ++ [2, 2, 2, 2] ++ [3, 3, 3, 3] ++ [1, 0] ++ [100, 0]
    ++ [0, 0, 0, 0] ++ [9, 9, 9, 9]

/-- One section of the trailer: label, offset, length, two unknown fields,
the length again (96 bytes when the label has at most 64). -/
def exampleSection (label : List Byte) (offset length1 length2 : Nat) : List Byte :=
  label ++ List.replicate (64 - label.length) 0 ++ natToLE 8 offset ++ natToLE 8 length1
    ++ [0, 0, 0, 0] ++ [0, 0, 0, 0] ++ natToLE 8 length2

/-- A trailer whose three sections have the labels `Header`, `Files` and
`Footer` and matching length pairs. -/
def exampleTrailer (headerLength fileDataOffset fileDataLength directoryOffset
    directoryLength : Nat) : List Byte :=
  [0, 0, 0, 0]
    ++ exampleSection [72, 101, 97, 100, 101, 114] 0 headerLength headerLength
    ++ exampleSection [70, 105, 108, 101, 115] fileDataOffset fileDataLength fileDataLength
    ++ exampleSection [70, 111, 111, 116, 101, 114] directoryOffset directoryLength
        directoryLength

/-- A directory entry with a name of one code unit: 28 bytes. -/
def exampleEntry (typeId : Byte) (name : Byte) (offset size : Nat) : List Byte :=
  [typeId, typeId, typeId, typeId] ++ [1, 0] ++ [name, 0] ++ natToLE 8 offset ++ natToLE 8 size
    ++ [0, 0, 0, 0]

/-- An archive of two files whose directory order (`b`, `a`) differs from
the order of their data (`a` at offset 0, `b` at offset 3): intro at 0, file
data at 28, directory at 33 (two entries and the 4 bytes of padding that
`directoryLength1` counts), trailer at 89; 381 bytes. -/
def exampleArchive : List Byte :=
  exampleIntro ++ [0xA1, 0xA2, 0xA3, 0xB1, 0xB2]
    ++ exampleEntry 7 98 3 2 ++ exampleEntry 8 97 0 3
    ++ exampleTrailer 28 28 5 33 60

/-- The source tree the example is packed from: `a` grows to four bytes and
`b` shrinks to one. -/
def exampleTree : Tree :=
  (Tree.empty.write [97] [0x11, 0x12, 0x13, 0x14]).write [98] [0x21]

/-- An intro without description: 26 bytes. -/
def shortIntro : List Byte :=
  [84, 71, 67, 75] ++ [1, 1, 1, 1] ++ [2, 2, 2, 2] ++ [3, 3, 3, 3] ++ [0, 0]
    ++ [0, 0, 0, 0] ++ [9, 9, 9, 9]

/-- An archive with an entry at 26, where its footer says the directory
starts, and a `directoryLength1` of `2^64 - 26`: the sum of the two fields
is `2^64`.  Trailer at 54. -/
def overflowArchive : List Byte :=
  shortIntro ++ exampleEntry 7 97 0 0 ++ exampleTrailer 26 26 0 26 (2 ^ 64 - 26)

/-- The metadata of `overflowArchive`. -/
def overflowMetadata : Metadata := decodeMetadata (overflowArchive.drop 54)

/-- An archive without entries: `directoryLength1` is 4, the padding that
follows the directory.  Trailer at 28. -/
def emptyArchive : List Byte := exampleIntro ++ exampleTrailer 28 28 0 28 4

/-- An archive whose footer gives `2^64 - 4` as directory offset and 3 as
directory length: their sum is `2^64 - 1` and does not overflow.  Trailer at
28. -/
def lateDirectoryArchive : List Byte :=
  exampleIntro ++ exampleTrailer 28 28 0 (2 ^ 64 - 4) 3

/-- The metadata of `lateDirectoryArchive`. -/
def lateDirectoryMetadata : Metadata := decodeMetadata (lateDirectoryArchive.drop 28)

/-- A world with the archive `rwd`, no temporary file and an empty
directory; nothing printed yet. -/
def World.initial (rwd : List Byte) : World :=
  { stdout := [], rwd := rwd, tmp := none, directory := Tree.empty }

/-- An archive whose `fileDataOffset` (27) is one more than the size of its
intro (26): a byte that belongs to no file at 26, the one-byte files `a` and
`b` at 27 and 28 (offsets 0 and 1), directory at 29, trailer at 85. -/
def gapArchive : List Byte :=
  shortIntro ++ [0xEE] ++ [0xA1, 0xB1]
    ++ exampleEntry 7 97 0 1 ++ exampleEntry 8 98 1 1
    ++ exampleTrailer 26 27 2 29 60

/-- The metadata of `gapArchive`. -/
def gapMetadata : Metadata := decodeMetadata (gapArchive.drop 85)

/-- The directory entries of `gapArchive`. -/
def gapInfos : List FileInfo := [decodeFileInfo gapArchive 29, decodeFileInfo gapArchive 57]

/-- A source tree with one byte for `a` and one for `b`. -/
def gapTree : Tree := (Tree.empty.write [97] [0xA1]).write [98] [0xB1]

/-- The state in which the pack of `gapArchive` from `gapTree` ends. -/
def gapPacked : PackState :=
  (packWith plainPlatform gapTree (decodeIntro gapArchive) gapMetadata gapInfos
    (infosInOffsetOrder gapInfos)).1

/-- An archive without entries whose footer places the directory at 28,
after two bytes that belong to no file, with a `directoryLength1` of
`2^64 - 28`: the sum of the two fields is `2^64`.  Trailer at 28. -/
def shiftedArchive : List Byte :=
  shortIntro ++ [0xEE, 0xEE] ++ exampleTrailer 26 26 2 28 (2 ^ 64 - 28)

/-- The metadata of `shiftedArchive`. -/
def shiftedMetadata : Metadata := decodeMetadata (shiftedArchive.drop 28)

/-- The state in which the pack of `shiftedArchive` ends (it has no entry,
so no source file is read). -/
def shiftedPacked : PackState :=
  (packWith plainPlatform Tree.empty (decodeIntro shiftedArchive) shiftedMetadata []
    (infosInOffsetOrder [])).1

/-- The metadata of `exampleArchive`. -/
def exampleMetadata : Metadata := decodeMetadata (exampleArchive.drop 89)

/-- The directory entries of `exampleArchive`: `b`, then `a`. -/
def exampleInfos : List FileInfo :=
  [decodeFileInfo exampleArchive 33, decodeFileInfo exampleArchive 61]

/-- The state in which the pack of `exampleArchive` from `exampleTree`
ends. -/
def examplePacked : PackState :=
  (packWith plainPlatform exampleTree (decodeIntro exampleArchive) exampleMetadata exampleInfos
    (infosInOffsetOrder exampleInfos)).1

/-- An archive whose only entry (`a`, offset 0) has size 1000: its range
starts at 26 and passes the end of the archive, which has 347 bytes.  File
data at 26 (one byte), directory at 27, trailer at 55. -/
def truncatedArchive : List Byte :=
  shortIntro ++ [0xA1] ++ exampleEntry 7 97 0 1000 ++ exampleTrailer 26 26 1 27 32

/-- The metadata of `truncatedArchive`. -/
def truncatedMetadata : Metadata := decodeMetadata (truncatedArchive.drop 55)

/-- A source tree for `exampleArchive` in which `b` is empty. -/
def emptyFileTree : Tree := (Tree.empty.write [97] [0x11]).write [98] []

/-- The state in which the pack of `exampleArchive` from `emptyFileTree`
ends. -/
def emptyFilePacked : PackState :=
  (packWith plainPlatform emptyFileTree (decodeIntro exampleArchive) exampleMetadata
    exampleInfos (infosInOffsetOrder exampleInfos)).1

/-- An archive whose footer gives the directory at 26 a `directoryLength1`
of 5, though the entry stored there takes 28 bytes.  Trailer at 54. -/
def overrunArchive : List Byte :=
  shortIntro ++ exampleEntry 7 97 0 0 ++ exampleTrailer 26 26 0 26 5

/-- The metadata of `overrunArchive`. -/
def overrunMetadata : Metadata := decodeMetadata (overrunArchive.drop 54)

/-- A source tree for `exampleArchive` whose files are longer than the ones
they replace: `a` has four bytes and `b` two, six in all where the archive
records a file data length of five. -/
def longTree : Tree :=
  (Tree.empty.write [97] [0x11, 0x12, 0x13, 0x14]).write [98] [0x21, 0x22]

/-- The archive `exampleArchive` next to `longTree`, and no temporary file. -/
def longWorld : World :=
  { stdout := [], rwd := exampleArchive, tmp := none, directory := longTree }

/-- The archive that `pack` leaves for `longWorld`. -/
def longPacked : List Byte :=
  (main plainPlatform infosInOffsetOrder Mode.pack longWorld).1.rwd

/-! ## Paths on a POSIX platform

The two `std::filesystem` operations through which the program builds the
path of a file, `operator/` and `lexically_normal`, as the C++ standard
defines them ([fs.path.append], [fs.path.generic]) for a platform whose only
separator is `/` and that has no root names.  A path is kept as its root
directory flag and its file names; a trailing separator is not kept, since
it does not change the directory a path lies in, and whether a path names a
directory is read off the file name it was built from (`namesDirectory`).
File names are sequences of code units, `/` is 47 and `.` is 46. -/

/-- A path: whether it has a root directory, and its file names. -/
structure FsPath where
  absolute : Bool
  names : List (List Nat)
  deriving DecidableEq, Repr

/-- The file names of a path text: the non-empty runs between separators.
`cur` holds the name being read, last unit first. -/
def splitNames : List Nat → List Nat → List (List Nat)
  | cur, [] => if cur = [] then [] else [cur.reverse]
  | cur, c :: rest =>
    if c = 47 then
      if cur = [] then splitNames [] rest else cur.reverse :: splitNames [] rest
    else splitNames (c :: cur) rest

/-- The path `fs::path(text)`. -/
def parsePath (text : List Nat) : FsPath :=
  { absolute := text.head? = some 47, names := splitNames [] text }

/-- The path `lhs / rhs`: an absolute `rhs` replaces `lhs`, any other `rhs`
is appended to it. -/
def FsPath.append (lhs rhs : FsPath) : FsPath :=
  if rhs.absolute then rhs else { absolute := lhs.absolute, names := lhs.names ++ rhs.names }

/-- The file name dot-dot. -/
def dotDot : List Nat := [46, 46]

/-- One file name of the normalisation, on the names kept so far (last one
first): a dot is removed; a dot-dot removes the name before it when that is
not a dot-dot itself, is removed right after a root directory, and is kept
otherwise; every other name is kept. -/
def normalStep (absolute : Bool) (kept : List (List Nat)) (name : List Nat) :
    List (List Nat) :=
  if name = [46] then kept
  else if name = dotDot then
    match kept with
    | [] => if absolute then [] else [dotDot]
    | top :: below => if top = dotDot then dotDot :: top :: below else below
  else name :: kept

/-- The normalisation of the names `names` after the kept ones. -/
def normalNames (absolute : Bool) (kept : List (List Nat)) (names : List (List Nat)) :
    List (List Nat) :=
  names.foldl (normalStep absolute) kept

/-- The path `p.lexically_normal()`. -/
def FsPath.lexically_normal (p : FsPath) : FsPath :=
  { absolute := p.absolute, names := (normalNames p.absolute [] p.names).reverse }

/-- The text of a path: `.` for the empty relative path. -/
def FsPath.render (p : FsPath) : List Nat :=
  if p.absolute then 47 :: ([47] : List Nat).intercalate p.names
  else if p.names = [] then [46]
  else ([47] : List Nat).intercalate p.names

/-- The path `(directory / fs::path(filename)).lexically_normal()`. -/
def resolvedPath (directory filename : List Nat) : FsPath :=
  ((parsePath directory).append (parsePath filename)).lexically_normal

/-- The text after the last separator of `text`. -/
def lastRun (text : List Nat) : List Nat :=
  (text.reverse.takeWhile (fun c => decide (c ≠ 47))).reverse

/-- Whether `directory / filename` names a directory whatever the file
system holds: the file name is empty or ends in a separator, a dot or a
dot-dot, so that the normal form of the path ends in a separator or a
dot-dot, or is the root or a single dot. -/
def namesDirectory (filename : List Nat) : Bool :=
  decide (lastRun filename = [] ∨ lastRun filename = [46] ∨ lastRun filename = dotDot)

/-- The file names of `outputPath.parent_path()`: all names when the normal
form ends in a separator, all but the last otherwise. -/
def parentNames (directory filename : List Nat) : List (List Nat) :=
  let names := (resolvedPath directory filename).names
  if namesDirectory filename ∧ names ≠ [] ∧ names.getLast? ≠ some dotDot then names
  else names.dropLast

/-- The directories `fs::create_directories(outputPath.parent_path())` goes
through, outermost first (the root directory apart).  The call throws for
the empty path, which is the parent of a relative path of one name. -/
def posixParents (directory filename : List Nat) : Option (List (List Nat)) :=
  let parent := parentNames directory filename
  let absolute := (resolvedPath directory filename).absolute
  if parent = [] ∧ absolute = false then none
  else
    some ((List.range parent.length).map
      (fun k => FsPath.render { absolute := absolute, names := parent.take (k + 1) }))

/-- The platform for the directory `directory` given on the command line:
files are addressed by the text of their resolved path, and every file name
converts. -/
def posixPlatform (directory : List Nat) : Platform :=
  { resolve := fun filename => some (resolvedPath directory filename).render
    genericString := some
    parents := posixParents directory
    namesFile := fun filename => !namesDirectory filename }

/-- `p` lies inside the directory `directory`: it is the normal form of the
directory followed by file names none of which is a dot-dot. -/
def FsPath.isInside (p : FsPath) (directory : List Nat) : Prop :=
  p.absolute = (parsePath directory).lexically_normal.absolute ∧
    ∃ rest, p.names = (parsePath directory).lexically_normal.names ++ rest ∧ dotDot ∉ rest

/-- A directory entry with the file name `../x`: 34 bytes. -/
def escapeEntry : List Byte :=
  [7, 7, 7, 7] ++ [4, 0] ++ [46, 0, 46, 0, 47, 0, 120, 0] ++ natToLE 8 0 ++ natToLE 8 1
    ++ [0, 0, 0, 0]

/-- An archive with one file of one byte, named `../x`: file data at 26,
directory at 27, trailer at 61. -/
def escapeArchive : List Byte :=
  shortIntro ++ [0xA1] ++ escapeEntry ++ exampleTrailer 26 26 1 27 38

/-- A directory entry with the file name `/x`: 30 bytes. -/
def rootedEntry : List Byte :=
  [7, 7, 7, 7] ++ [2, 0] ++ [47, 0, 120, 0] ++ natToLE 8 0 ++ natToLE 8 1 ++ [0, 0, 0, 0]

/-- An archive with one file of one byte, named `/x`: file data at 26,
directory at 27, trailer at 57. -/
def rootedArchive : List Byte :=
  shortIntro ++ [0xA1] ++ rootedEntry ++ exampleTrailer 26 26 1 27 34

/-! # Theorems -/

/-! ## Lemmas: codec -/

theorem natToLE_length (w n : Nat) : (natToLE w n).length = w := by
  induction w generalizing n with
  | zero => rfl
  | succ w ih => simp [natToLE, ih]

theorem natToLE_leToNat (bs : List Byte) : natToLE bs.length (leToNat bs) = bs := by
  induction bs with
  | nil => rfl
  | cons b bs ih =>
    have hb := b.isLt
    simp only [List.length_cons, natToLE, leToNat]
    have h1 : (b.val + 256 * leToNat bs) % 256 = b.val := by omega
    have h2 : (b.val + 256 * leToNat bs) / 256 = leToNat bs := by omega
    rw [h2, ih]
    congr 1
    exact Fin.ext h1

theorem leToNat_lt (bs : List Byte) : leToNat bs < 256 ^ bs.length := by
  induction bs with
  | nil => simp [leToNat]
  | cons b bs ih =>
    have hb := b.isLt
    simp only [List.length_cons, leToNat, pow_succ]
    omega

theorem leToNat_natToLE (w n : Nat) : leToNat (natToLE w n) = n % 256 ^ w := by
  induction w generalizing n with
  | zero => simp [natToLE, leToNat, Nat.mod_one]
  | succ w ih =>
    simp only [natToLE, leToNat, ih, pow_succ]
    rw [mul_comm (256 ^ w) 256, Nat.mod_mul]

theorem leToNat_natToLE_of_lt (w n : Nat) (h : n < 256 ^ w) : leToNat (natToLE w n) = n := by
  rw [leToNat_natToLE, Nat.mod_eq_of_lt h]

theorem length_slice (b : List Byte) (off len : Nat) (h : off + len ≤ b.length) :
    (slice b off len).length = len := by
  simp [slice]; omega

theorem slice_append_slice (b : List Byte) (off l1 l2 : Nat) :
    slice b off l1 ++ slice b (off + l1) l2 = slice b off (l1 + l2) := by
  simp only [slice]
  rw [← List.drop_drop, List.take_add]

theorem slice_zero_length (b : List Byte) : slice b 0 b.length = b := by
  simp [slice]

theorem slice_slice (b : List Byte) (o1 l1 o2 l2 : Nat) (h : o2 + l2 ≤ l1) :
    slice (slice b o1 l1) o2 l2 = slice b (o1 + o2) l2 := by
  simp only [slice]
  rw [List.drop_take, List.take_take, List.drop_drop]
  congr 1
  omega

theorem natToLE_leToNat_slice (b : List Byte) (off len : Nat) (h : off + len ≤ b.length) :
    natToLE len (leToNat (slice b off len)) = slice b off len := by
  have := natToLE_leToNat (slice b off len)
  rwa [length_slice b off len h] at this

theorem encodeU16_decodeU16 (bs : List Byte) (h : bs.length % 2 = 0) :
    encodeU16 (decodeU16 bs) = bs := by
  induction bs using decodeU16.induct with
  | case1 lo hi rest ih =>
    have hl := lo.isLt
    have hh := hi.isLt
    simp only [decodeU16, encodeU16, natToLE]
    have ih' := ih (by simp at h ⊢; omega)
    rw [ih']
    simp only [List.cons_append, List.nil_append]
    congr 1
    · apply Fin.ext; simp
    · congr 1
      apply Fin.ext; simp; omega
  | case2 bs hne =>
    match bs, hne with
    | [], _ => rfl
    | [a], _ => simp at h
    | lo :: hi :: rest, hne => exact absurd rfl (hne lo hi rest)

theorem decodeU16_length (bs : List Byte) : (decodeU16 bs).length = bs.length / 2 := by
  induction bs using decodeU16.induct with
  | case1 lo hi rest ih =>
    simp only [decodeU16, List.length_cons, ih]
    omega
  | case2 bs hne =>
    match bs, hne with
    | [], _ => rfl
    | [a], _ => simp [decodeU16]
    | lo :: hi :: rest, hne => exact absurd rfl (hne lo hi rest)

theorem encodeU16_length (cs : List Nat) : (encodeU16 cs).length = 2 * cs.length := by
  induction cs with
  | nil => rfl
  | cons c cs ih => simp only [encodeU16, List.length_append, natToLE_length, ih, List.length_cons]; omega

theorem read_eq_ok {rwdFile : List Byte} {pos n : Nat} {bs : List Byte}
    (h : read rwdFile pos n = .ok bs) : pos + n ≤ rwdFile.length ∧ bs = slice rwdFile pos n := by
  unfold read at h
  split at h
  · exact ⟨by assumption, by cases h; rfl⟩
  · cases h

theorem read_of_le {rwdFile : List Byte} {pos n : Nat} (h : pos + n ≤ rwdFile.length) :
    read rwdFile pos n = .ok (slice rwdFile pos n) := by
  simp [read, h]

theorem readIntro_eq (b : List Byte) :
    readIntro b =
      if 18 + leToNat (slice b 16 2) * 2 + 8 ≤ b.length then
        if strncmp (slice b 0 4) TGCK 4 ≠ 0 then .error .signature else .ok (decodeIntro b)
      else .error .ios := by
  have hpos : (0 : Nat) < 2 ^ 63 := by norm_num
  unfold readIntro
  simp only [seekg, read, bind, Except.bind, pure, Except.pure, throw, throwThe,
    MonadExceptOf.throw, hpos, if_true, Nat.zero_add]
  by_cases h18 : 18 ≤ b.length
  · have e2 : ∀ o l, o + l ≤ 18 → slice (slice b 0 18) o l = slice b o l := by
      intro o l h; rw [slice_slice _ _ _ _ _ h]; simp
    simp only [h18, if_true, e2 16 2 (by omega), e2 0 4 (by omega), e2 4 4 (by omega),
      e2 8 4 (by omega), e2 12 4 (by omega)]
    by_cases h2 : 18 + leToNat (slice b 16 2) * 2 + 8 ≤ b.length
    · have h3 : 18 + leToNat (slice b 16 2) * 2 ≤ b.length := by omega
      simp only [h2, h3, if_true, slice_slice _ _ _ 0 4 (by omega : 0 + 4 ≤ 8),
        slice_slice _ _ _ 4 4 (by omega : 4 + 4 ≤ 8), decodeIntro, Nat.add_zero]
    · simp only [h2, if_false]
      by_cases h3 : 18 + leToNat (slice b 16 2) * 2 ≤ b.length
      · simp only [h3, if_true]
      · simp only [h3, if_false]
  · have h2 : ¬ (18 + leToNat (slice b 16 2) * 2 + 8 ≤ b.length) := by omega
    simp only [h18, h2, if_false]

theorem strncmp_step (a b : Byte) (as bs : List Byte) (n : Nat) (hb : b ≠ 0) :
    strncmp (a :: as) (b :: bs) (n + 1) = 0 ↔ a = b ∧ strncmp as bs n = 0 := by
  rw [strncmp]
  by_cases hab : a = b
  · subst hab
    simp [hb]
  · have hv : (a.val : Int) - (b.val : Int) ≠ 0 := by
      intro h
      apply hab
      apply Fin.ext
      omega
    simp [hab, hv]

theorem strncmp_TGCK (sig : List Byte) (h : sig.length = 4) :
    strncmp sig TGCK 4 = 0 ↔ sig = [84, 71, 67, 75] := by
  match sig, h with
  | [a, b, c, d], _ =>
    unfold TGCK
    rw [strncmp_step _ _ _ _ _ (by decide), strncmp_step _ _ _ _ _ (by decide),
      strncmp_step _ _ _ _ _ (by decide), strncmp_step _ _ _ _ _ (by decide)]
    simp [strncmp]

theorem slice_split (b : List Byte) (o l1 l2 : Nat) :
    slice b o (l1 + l2) = slice b o l1 ++ slice b (o + l1) l2 :=
  (slice_append_slice b o l1 l2).symm

theorem readMetadata_eq (b : List Byte) :
    readMetadata b =
      if 292 ≤ b.length then
        if (decodeMetadata (b.drop (b.length - 292))).header.headerLength1 ≠
            (decodeMetadata (b.drop (b.length - 292))).header.headerLength2 then
          .error .headerLengths
        else if (decodeMetadata (b.drop (b.length - 292))).files.fileDataLength1 ≠
            (decodeMetadata (b.drop (b.length - 292))).files.fileDataLength2 then
          .error .filesLengths
        else if (decodeMetadata (b.drop (b.length - 292))).footer.directoryLength1 ≠
            (decodeMetadata (b.drop (b.length - 292))).footer.directoryLength2 then
          .error .footerLengths
        else .ok (decodeMetadata (b.drop (b.length - 292)))
      else .error .ios := by
  unfold readMetadata
  simp only [sizeofMetadata, read, bind, Except.bind, pure, Except.pure, throw, throwThe,
    MonadExceptOf.throw]
  by_cases h : 292 ≤ b.length
  · have h1 : b.length - 292 + 292 ≤ b.length := by omega
    have h2 : slice b (b.length - 292) 292 = b.drop (b.length - 292) := by
      simp only [slice]
      apply List.take_of_length_le
      simp only [List.length_drop]
      omega
    simp only [h, h1, if_true, h2]
  · simp only [h, if_false]

theorem writeMetadata_decodeMetadata (raw : List Byte) (h : raw.length = 292) :
    writeMetadata (decodeMetadata raw) = raw := by
  have e : ∀ o1 l1 o2 l2, o2 + l2 ≤ l1 → slice (slice raw o1 l1) o2 l2 = slice raw (o1 + o2) l2 :=
    fun o1 l1 o2 l2 hh => slice_slice raw o1 l1 o2 l2 hh
  have n8 : ∀ o, o + 8 ≤ 292 → natToLE 8 (leToNat (slice raw o 8)) = slice raw o 8 :=
    fun o ho => natToLE_leToNat_slice raw o 8 (by omega)
  simp only [writeMetadata, decodeMetadata, encodeHeaderSection, encodeFilesSection,
    encodeFooterSection, decodeHeaderSection, decodeFilesSection, decodeFooterSection]
  rw [e 4 96 0 64 (by omega), e 4 96 64 8 (by omega), e 4 96 72 8 (by omega), e 4 96 80 4 (by omega),
    e 4 96 84 4 (by omega), e 4 96 88 8 (by omega),
    e 100 96 0 64 (by omega), e 100 96 64 8 (by omega), e 100 96 72 8 (by omega),
    e 100 96 80 4 (by omega), e 100 96 84 4 (by omega), e 100 96 88 8 (by omega),
    e 196 96 0 64 (by omega), e 196 96 64 8 (by omega), e 196 96 72 8 (by omega),
    e 196 96 80 4 (by omega), e 196 96 84 4 (by omega), e 196 96 88 8 (by omega)]
  simp only [Nat.reduceAdd]
  rw [n8 68 (by omega), n8 76 (by omega), n8 92 (by omega), n8 164 (by omega), n8 172 (by omega),
    n8 188 (by omega), n8 260 (by omega), n8 268 (by omega), n8 284 (by omega)]
  conv_rhs => rw [← slice_zero_length raw, h]
  have : (292 : Nat) = 4 + (64 + (8 + (8 + (4 + (4 + (8 + (64 + (8 + (8 + (4 + (4 + (8 +
      (64 + (8 + (8 + (4 + (4 + 8))))))))))))))))) := by norm_num
  rw [this]
  simp only [slice_split]
  simp only [Nat.reduceAdd, List.append_assoc]

theorem readFileInfo_eq (b : List Byte) (c : Nat) :
    readFileInfo b c =
      if c < 2 ^ 63 ∧ c + 6 + leToNat (slice b (c + 4) 2) * 2 + 20 ≤ b.length then
        .ok (decodeFileInfo b c, (c + 6 + leToNat (slice b (c + 4) 2) * 2 + 20) % 2 ^ 64)
      else .error .ios := by
  unfold readFileInfo
  simp only [seekg, read, bind, Except.bind, pure, Except.pure]
  by_cases hc : c < 2 ^ 63
  · simp only [hc, if_true, true_and]
    by_cases h : c + 6 + leToNat (slice b (c + 4) 2) * 2 + 20 ≤ b.length
    · have h1 : c + 4 ≤ b.length := by omega
      have h2 : c + 4 + 2 ≤ b.length := by omega
      have h3 : c + 6 + leToNat (slice b (c + 4) 2) * 2 ≤ b.length := by omega
      have h4 : c + 6 + leToNat (slice b (c + 4) 2) * 2 + 8 ≤ b.length := by omega
      have h5 : c + 6 + leToNat (slice b (c + 4) 2) * 2 + 8 + 8 ≤ b.length := by omega
      have h6 : c + 6 + leToNat (slice b (c + 4) 2) * 2 + 16 + 4 ≤ b.length := by omega
      simp only [h, h1, h2, h3, h4, h5, h6, if_true, decodeFileInfo]
    · simp only [h, if_false]
      by_cases h1 : c + 4 ≤ b.length <;> simp only [h1, if_true, if_false]
      by_cases h2 : c + 4 + 2 ≤ b.length <;> simp only [h2, if_true, if_false]
      by_cases h3 : c + 6 + leToNat (slice b (c + 4) 2) * 2 ≤ b.length <;>
        simp only [h3, if_true, if_false]
      by_cases h4 : c + 6 + leToNat (slice b (c + 4) 2) * 2 + 8 ≤ b.length <;>
        simp only [h4, if_true, if_false]
      by_cases h5 : c + 6 + leToNat (slice b (c + 4) 2) * 2 + 8 + 8 ≤ b.length <;>
        simp only [h5, if_true, if_false]
      have h6 : ¬ (c + 6 + leToNat (slice b (c + 4) 2) * 2 + 16 + 4 ≤ b.length) := by omega
      simp only [h6, if_false]
  · simp only [hc, if_false, false_and]

theorem readFileInfo_ok {b : List Byte} {c : Nat} {info : FileInfo} {next : Nat}
    (h : readFileInfo b c = .ok (info, next)) :
    c < 2 ^ 63 ∧ c + 26 + 2 * info.filenameLength ≤ b.length ∧ info = decodeFileInfo b c ∧
      next = c + 26 + 2 * info.filenameLength ∧ info.filenameLength < 2 ^ 16 := by
  rw [readFileInfo_eq] at h
  split at h
  · rename_i hh
    obtain ⟨hc, hl⟩ := hh
    simp only [Except.ok.injEq, Prod.mk.injEq] at h
    obtain ⟨h1, h2⟩ := h
    subst h1
    have hlen : (decodeFileInfo b c).filenameLength < 2 ^ 16 := by
      have := leToNat_lt (slice b (c + 4) 2)
      rw [length_slice b (c + 4) 2 (by omega)] at this
      simpa [decodeFileInfo] using this
    have hfl : (decodeFileInfo b c).filenameLength = leToNat (slice b (c + 4) 2) := rfl
    refine ⟨hc, by rw [hfl]; omega, rfl, ?_, hlen⟩
    rw [← h2, hfl]
    rw [hfl] at hlen
    omega
  · cases h

theorem slice_append_eq (b : List Byte) (o1 l1 o2 l2 l : Nat) (h1 : o2 = o1 + l1)
    (h2 : l = l1 + l2) : slice b o1 l1 ++ slice b o2 l2 = slice b o1 l := by
  subst h1 h2
  exact slice_append_slice b o1 l1 l2

theorem writeDirectoryContent_decodeFileInfo (b : List Byte) (c : Nat)
    (h : c + 26 + 2 * (decodeFileInfo b c).filenameLength ≤ b.length) :
    writeDirectoryContent (decodeFileInfo b c) =
      slice b c (26 + 2 * (decodeFileInfo b c).filenameLength) := by
  simp only [decodeFileInfo] at h
  simp only [writeDirectoryContent, decodeFileInfo]
  generalize hn : leToNat (slice b (c + 4) 2) = n at h ⊢
  have e1 : natToLE 2 n = slice b (c + 4) 2 := by
    rw [← hn]; exact natToLE_leToNat_slice b (c + 4) 2 (by omega)
  have e2 : encodeU16 (decodeU16 (slice b (c + 6) (n * 2))) = slice b (c + 6) (n * 2) := by
    apply encodeU16_decodeU16
    rw [length_slice b _ _ (by omega)]
    omega
  have e3 := natToLE_leToNat_slice b (c + 6 + n * 2) 8 (by omega)
  have e4 := natToLE_leToNat_slice b (c + 6 + n * 2 + 8) 8 (by omega)
  rw [e1, e2, e3, e4]
  rw [slice_append_eq b c 4 (c + 4) 2 6 rfl rfl,
    slice_append_eq b c 6 (c + 6) (n * 2) (6 + n * 2) rfl rfl,
    slice_append_eq b c (6 + n * 2) (c + 6 + n * 2) 8 (6 + n * 2 + 8) (by omega) rfl,
    slice_append_eq b c (6 + n * 2 + 8) (c + 6 + n * 2 + 8) 8 (6 + n * 2 + 16) (by omega) (by omega),
    slice_append_eq b c (6 + n * 2 + 16) (c + 6 + n * 2 + 16) 4 (26 + 2 * n) (by omega) (by omega)]

theorem writeIntro_decodeIntro (b : List Byte)
    (h : 18 + leToNat (slice b 16 2) * 2 + 8 ≤ b.length) :
    writeIntro (decodeIntro b) = b.take (26 + 2 * (decodeIntro b).descriptionLength) := by
  simp only [writeIntro, decodeIntro]
  generalize hn : leToNat (slice b 16 2) = n at h ⊢
  have e1 : natToLE 2 n = slice b 16 2 := by
    rw [← hn]; exact natToLE_leToNat_slice b 16 2 (by omega)
  have e2 : encodeU16 (decodeU16 (slice b 18 (n * 2))) = slice b 18 (n * 2) := by
    apply encodeU16_decodeU16
    rw [length_slice b _ _ (by omega)]
    omega
  rw [e1, e2]
  rw [slice_append_eq b 0 4 4 4 8 rfl rfl, slice_append_eq b 0 8 8 4 12 rfl rfl,
    slice_append_eq b 0 12 12 4 16 rfl rfl, slice_append_eq b 0 16 16 2 18 rfl rfl,
    slice_append_eq b 0 18 18 (n * 2) (18 + n * 2) (by omega) rfl,
    slice_append_eq b (18 + n * 2) 4 (18 + n * 2 + 4) 4 8 rfl rfl,
    slice_append_eq b 0 (18 + n * 2) (18 + n * 2) 8 (26 + 2 * n) (by omega) (by omega)]
  simp [slice]

/-! ## Lemmas: the walker -/

theorem forFileLoop_succ {σ : Type} (rwdFile : List Byte) (md : Metadata) (handler : Handler σ)
    (maxOffset n c : Nat) (s : σ) :
    forFileLoop rwdFile md handler maxOffset (n + 1) c s =
      if loopCondition c maxOffset then
        match readFileInfo rwdFile c with
        | .error e => (s, .error e)
        | .ok (info, next) =>
          match handler s rwdFile md.files info with
          | (s1, .error e) => (s1, .error e)
          | (s1, .ok ()) => forFileLoop rwdFile md handler maxOffset n next s1
      else (s, .ok ()) := rfl

theorem cursorAfter_append (start : Nat) (xs ys : List FileInfo) :
    cursorAfter start (xs ++ ys) = cursorAfter (cursorAfter start xs) ys := by
  induction xs generalizing start with
  | nil => rfl
  | cons x xs ih => exact ih (start + entryLength x)

theorem le_cursorAfter (start : Nat) (xs : List FileInfo) :
    start + 26 * xs.length ≤ cursorAfter start xs := by
  induction xs generalizing start with
  | nil => simp [cursorAfter]
  | cons x xs ih =>
    have := ih (start + entryLength x)
    simp only [cursorAfter, List.length_cons, entryLength] at this ⊢
    omega

theorem readFileInfo_next {b : List Byte} {c : Nat} {info : FileInfo} {next : Nat}
    (h : readFileInfo b c = .ok (info, next)) : next = c + entryLength info := by
  have := (readFileInfo_ok h).2.2.2.1
  rw [this, entryLength]
  omega

/-- The entries of a walk lie in the stream, one after the other. -/
theorem Walked.cursorAfter_le {rwdFile : List Byte} {maxOffset : Nat} :
    ∀ {c : Nat} {infos : List FileInfo}, Walked rwdFile maxOffset c infos → infos ≠ [] →
      cursorAfter c infos ≤ rwdFile.length
  | c, [info], h, _ => by
    have := (readFileInfo_ok h.2.1).2.1
    simp only [cursorAfter, entryLength]
    omega
  | c, info :: info2 :: rest, h, _ => by
    simp only [cursorAfter]
    exact @Walked.cursorAfter_le rwdFile maxOffset _ (info2 :: rest) h.2.2 (by simp)

theorem Walked.length_lt {rwdFile : List Byte} {maxOffset c : Nat} {infos : List FileInfo}
    (h : Walked rwdFile maxOffset c infos) : infos.length < rwdFile.length + 1 := by
  by_cases hn : infos = []
  · subst hn; simp
  · have h1 := h.cursorAfter_le hn
    have h2 := le_cursorAfter c infos
    omega

/-- A walk that ends where the loop condition fails is what the loop does. -/
theorem forFileLoop_of_walked {σ : Type} (rwdFile : List Byte) (md : Metadata)
    (handler : Handler σ) (maxOffset : Nat) :
    ∀ (infos : List FileInfo) (fuel c : Nat) (s : σ), Walked rwdFile maxOffset c infos →
      ¬ loopCondition (cursorAfter c infos) maxOffset → infos.length < fuel →
      forFileLoop rwdFile md handler maxOffset fuel c s = visit handler rwdFile md.files infos s
  | [], fuel, c, s, _, hstop, hfuel => by
    obtain ⟨n, rfl⟩ : ∃ n, fuel = n + 1 := ⟨fuel - 1, by simp at hfuel; omega⟩
    simp only [cursorAfter] at hstop
    rw [forFileLoop_succ, if_neg hstop]
    rfl
  | info :: rest, fuel, c, s, hw, hstop, hfuel => by
    obtain ⟨n, rfl⟩ : ∃ n, fuel = n + 1 := ⟨fuel - 1, by simp at hfuel; omega⟩
    rw [forFileLoop_succ, if_pos hw.1, hw.2.1]
    simp only [visit]
    rcases hh : handler s rwdFile md.files info with ⟨s1, r⟩
    cases r with
    | error e => rfl
    | ok u =>
      cases u
      simp only
      exact forFileLoop_of_walked rwdFile md handler maxOffset rest n _ s1 hw.2.2
        (by simpa [cursorAfter] using hstop) (by simp at hfuel; omega)

theorem visit_cons_ok {σ : Type} {handler : Handler σ} {rwdFile : List Byte}
    {filesSection : FilesSection} {info : FileInfo} {s s1 : σ}
    (h : handler s rwdFile filesSection info = (s1, .ok ())) (rest : List FileInfo) :
    visit handler rwdFile filesSection (info :: rest) s =
      visit handler rwdFile filesSection rest s1 := by
  simp only [visit, h]

/-- What the loop of `forFile` does from cursor `c` on, when the loop counter
is large enough for the stream. -/
theorem forFileLoop_walk {σ : Type} (rwdFile : List Byte) (md : Metadata) (handler : Handler σ)
    (maxOffset : Nat) :
    ∀ (fuel c : Nat) (s : σ), 1 ≤ fuel → rwdFile.length + 26 ≤ c + 26 * fuel →
      ∃ entries : List FileInfo, Walked rwdFile maxOffset c entries ∧
        ((¬ loopCondition (cursorAfter c entries) maxOffset ∧
            ∃ s1, visit handler rwdFile md.files entries s = (s1, .ok ()) ∧
              forFileLoop rwdFile md handler maxOffset fuel c s = (s1, .ok ())) ∨
          (loopCondition (cursorAfter c entries) maxOffset ∧
            ∃ s1 e, visit handler rwdFile md.files entries s = (s1, .ok ()) ∧
              readFileInfo rwdFile (cursorAfter c entries) = .error e ∧
              forFileLoop rwdFile md handler maxOffset fuel c s = (s1, .error e)) ∨
          (∃ init last s1 s2 e, entries = init ++ [last] ∧
            visit handler rwdFile md.files init s = (s1, .ok ()) ∧
            handler s1 rwdFile md.files last = (s2, .error e) ∧
            forFileLoop rwdFile md handler maxOffset fuel c s = (s2, .error e)))
  | 0, _, _, h1, _ => absurd h1 (by decide)
  | n + 1, c, s, _, hfuel => by
    rw [forFileLoop_succ]
    by_cases hc : loopCondition c maxOffset
    · rw [if_pos hc]
      rcases hr : readFileInfo rwdFile c with e | ⟨info, next⟩
      · exact ⟨[], trivial, Or.inr (Or.inl ⟨hc, s, e, rfl, hr, rfl⟩)⟩
      · have hnext := readFileInfo_next hr
        have hin := (readFileInfo_ok hr).2.1
        subst hnext
        simp only []
        rcases hh : handler s rwdFile md.files info with ⟨s1, r⟩
        cases r with
        | error e =>
          exact ⟨[info], ⟨hc, hr, trivial⟩,
            Or.inr (Or.inr ⟨[], info, s, s1, e, rfl, rfl, hh, rfl⟩)⟩
        | ok u =>
          cases u
          simp only []
          have hlen : entryLength info = 26 + 2 * info.filenameLength := rfl
          obtain ⟨entries, hw, hout⟩ :=
            forFileLoop_walk rwdFile md handler maxOffset n (c + entryLength info) s1
              (by omega) (by omega)
          refine ⟨info :: entries, ⟨hc, hr, hw⟩, ?_⟩
          simp only [cursorAfter, visit_cons_ok hh]
          rcases hout with ⟨hstop, s2, hv, hres⟩ | ⟨hgo, s2, e, hv, hre, hres⟩ |
            ⟨init, last, s2, s3, e, hent, hv, hl, hres⟩
          · exact Or.inl ⟨hstop, s2, hv, hres⟩
          · exact Or.inr (Or.inl ⟨hgo, s2, e, hv, hre, hres⟩)
          · refine Or.inr (Or.inr ⟨info :: init, last, s2, s3, e, ?_, ?_, hl, hres⟩)
            · rw [hent]; rfl
            · rw [visit_cons_ok hh]; exact hv
    · rw [if_neg hc]
      exact ⟨[], trivial, Or.inl ⟨hc, s, rfl, rfl⟩⟩

theorem visit_collect (rwdFile : List Byte) (filesSection : FilesSection) :
    ∀ (infos acc : List FileInfo),
      visit collect rwdFile filesSection infos acc = (acc ++ infos, .ok ())
  | [], acc => by simp [visit]
  | info :: rest, acc => by
    have hc : collect acc rwdFile filesSection info = (acc ++ [info], .ok ()) := rfl
    rw [visit_cons_ok hc, visit_collect rwdFile filesSection rest]
    simp

/-- A successful walk that collects the entries: the collected list is a
walk from `directoryOffset` that ends where the loop condition fails. -/
theorem forFile_collect_ok {rwdFile : List Byte} {md : Metadata} {infos : List FileInfo}
    (h : forFile rwdFile md collect [] = (infos, .ok ())) :
    Walked rwdFile (maxOffsetOf md) md.footer.directoryOffset infos ∧
      ¬ loopCondition (cursorAfter md.footer.directoryOffset infos) (maxOffsetOf md) := by
  obtain ⟨entries, hw, hout⟩ :=
    forFileLoop_walk rwdFile md collect (maxOffsetOf md) (rwdFile.length + 1)
      md.footer.directoryOffset [] (by omega) (by omega)
  have hf : forFile rwdFile md collect [] =
      forFileLoop rwdFile md collect (maxOffsetOf md) (rwdFile.length + 1)
        md.footer.directoryOffset [] := rfl
  rw [hf] at h
  rcases hout with ⟨hstop, s2, hv, hres⟩ | ⟨hgo, s2, e, hv, hre, hres⟩ |
    ⟨init, last, s2, s3, e, hent, hv, hl, hres⟩
  · rw [visit_collect] at hv
    rw [hres] at h
    simp only [List.nil_append, Prod.mk.injEq, and_true] at hv h
    rw [← h, ← hv]
    exact ⟨hw, hstop⟩
  · rw [hres] at h; simp at h
  · rw [hres] at h; simp at h

/-- Conversely, a walk that ends where the loop condition fails is what
`forFile` collects. -/
theorem forFile_collect_of_walked {rwdFile : List Byte} {md : Metadata} {infos : List FileInfo}
    (hw : Walked rwdFile (maxOffsetOf md) md.footer.directoryOffset infos)
    (hstop : ¬ loopCondition (cursorAfter md.footer.directoryOffset infos) (maxOffsetOf md)) :
    forFile rwdFile md collect [] = (infos, .ok ()) := by
  have hf : forFile rwdFile md collect [] =
      forFileLoop rwdFile md collect (maxOffsetOf md) (rwdFile.length + 1)
        md.footer.directoryOffset [] := rfl
  rw [hf, forFileLoop_of_walked rwdFile md collect (maxOffsetOf md) infos _ _ _ hw hstop
    hw.length_lt, visit_collect]
  simp

/-! ## C6, C7, C8: the readers and the codec -/

/-- C6. `readIntro` rejects exactly the bad signatures: on a stream long
enough to hold the whole intro (18 bytes of `partOne`, twice
`descriptionLength` bytes of description, 8 bytes of `partTwo`), `readIntro`
fails if and only if the first four bytes are not `T`, `G`, `C`, `K`; the
failure is the signature error, and on success the result holds the fields
decoded from offset 0. -/
theorem readIntro_rejects_exactly_bad_signatures (rwdFile : List Byte)
    (hlong : 18 + 2 * leToNat (slice rwdFile 16 2) + 8 ≤ rwdFile.length) :
    ((∃ e, readIntro rwdFile = .error e) ↔ rwdFile.take 4 ≠ [84, 71, 67, 75]) ∧
      (rwdFile.take 4 ≠ [84, 71, 67, 75] → readIntro rwdFile = .error .signature) ∧
      (rwdFile.take 4 = [84, 71, 67, 75] → readIntro rwdFile = .ok (decodeIntro rwdFile)) := by
  have hl : 18 + leToNat (slice rwdFile 16 2) * 2 + 8 ≤ rwdFile.length := by omega
  have hsig : slice rwdFile 0 4 = rwdFile.take 4 := by simp [slice]
  have hcmp := strncmp_TGCK (slice rwdFile 0 4) (length_slice rwdFile 0 4 (by omega))
  rw [hsig] at hcmp
  have hbad : rwdFile.take 4 ≠ [84, 71, 67, 75] → readIntro rwdFile = .error .signature := by
    intro h
    rw [readIntro_eq, if_pos hl, hsig, if_pos (fun h0 => h (hcmp.1 h0))]
  have hgood : rwdFile.take 4 = [84, 71, 67, 75] →
      readIntro rwdFile = .ok (decodeIntro rwdFile) := by
    intro h
    rw [readIntro_eq, if_pos hl, hsig, if_neg (fun h0 => h0 (hcmp.2 h))]
  refine ⟨⟨?_, fun h => ⟨_, hbad h⟩⟩, hbad, hgood⟩
  rintro ⟨e, he⟩ h
  rw [hgood h] at he
  cases he

set_option maxRecDepth 100000 in
/-- C6 at the example archive: it is long enough for its intro, starts with
the signature, and `readIntro` returns the decoded fields. -/
theorem readIntro_rejects_exactly_bad_signatures_witness :
    18 + 2 * leToNat (slice exampleArchive 16 2) + 8 ≤ exampleArchive.length ∧
      readIntro exampleArchive = .ok (decodeIntro exampleArchive) :=
  ⟨by decide,
    (readIntro_rejects_exactly_bad_signatures exampleArchive (by decide)).2.2 (by decide)⟩

/-- C7. `readMetadata` rejects exactly the mismatched length pairs: on a
stream of at least 292 bytes it decodes the last 292 bytes and fails if and
only if one of the three pairs `length1`, `length2` differs; and when it
fails, `main` ends with an error in every mode and leaves the world as it
was: nothing is printed, no file is extracted, no archive or temporary file
is written. -/
theorem readMetadata_rejects_exactly_mismatched_lengths (rwdFile : List Byte)
    (hlong : 292 ≤ rwdFile.length) :
    ((∃ e, readMetadata rwdFile = .error e) ↔
        ((decodeMetadata (rwdFile.drop (rwdFile.length - 292))).header.headerLength1 ≠
            (decodeMetadata (rwdFile.drop (rwdFile.length - 292))).header.headerLength2 ∨
          (decodeMetadata (rwdFile.drop (rwdFile.length - 292))).files.fileDataLength1 ≠
            (decodeMetadata (rwdFile.drop (rwdFile.length - 292))).files.fileDataLength2 ∨
          (decodeMetadata (rwdFile.drop (rwdFile.length - 292))).footer.directoryLength1 ≠
            (decodeMetadata (rwdFile.drop (rwdFile.length - 292))).footer.directoryLength2)) ∧
      (∀ md, readMetadata rwdFile = .ok md →
        md = decodeMetadata (rwdFile.drop (rwdFile.length - 292))) ∧
      (∀ e, readMetadata rwdFile = .error e →
        ∀ (P : Platform) (sort : List FileInfo → List Nat) (mode : Mode) (w : World),
          w.rwd = rwdFile →
          (main P sort mode w).1 = w ∧ ∃ e1, (main P sort mode w).2 = .error e1) := by
  refine ⟨?_, ?_, ?_⟩
  · rw [readMetadata_eq, if_pos hlong]
    constructor
    · rintro ⟨e, he⟩
      by_contra hno
      simp only [not_or, not_not] at hno
      rw [if_neg (not_not.2 hno.1), if_neg (not_not.2 hno.2.1), if_neg (not_not.2 hno.2.2)] at he
      cases he
    · intro h
      split_ifs with h1 h2 h3
      · exact ⟨_, rfl⟩
      · exact ⟨_, rfl⟩
      · exact ⟨_, rfl⟩
      · rcases h with h | h | h
        · exact absurd h h1
        · exact absurd h h2
        · exact absurd h h3
  · intro md h
    rw [readMetadata_eq, if_pos hlong] at h
    split_ifs at h
    exact (Except.ok.inj h).symm
  · intro e he P sort mode w hw
    subst hw
    unfold main
    rcases hi : readIntro w.rwd with e0 | intro
    · exact ⟨rfl, e0, rfl⟩
    · simp only [he]
      exact ⟨trivial, e, rfl⟩

set_option maxRecDepth 100000 in
/-- C7 at the example archive, whose length pairs match: `readMetadata`
returns the fields of the last 292 bytes. -/
theorem readMetadata_rejects_exactly_mismatched_lengths_witness :
    292 ≤ exampleArchive.length ∧
      readMetadata exampleArchive = .ok (decodeMetadata (exampleArchive.drop 89)) ∧
      decodeMetadata (exampleArchive.drop 89) =
        decodeMetadata (exampleArchive.drop (exampleArchive.length - 292)) :=
  ⟨by decide, by rfl,
    (readMetadata_rejects_exactly_mismatched_lengths exampleArchive (by decide)).2.1 _ (by rfl)⟩

/-- C8. Codec round trip: re-encoding what a reader decoded gives back the
bytes it consumed.  `writeIntro` of the result of `readIntro` is the first
`26 + 2 * descriptionLength` bytes of the stream, `writeMetadata` of the
result of `readMetadata` is the last 292 bytes, and `writeDirectoryContent`
of an entry the walker decoded at cursor `c` is the
`26 + 2 * filenameLength` bytes from `c` on (the walker moves its cursor by as
many). -/
theorem codec_round_trip (rwdFile : List Byte) :
    (∀ intro, readIntro rwdFile = .ok intro →
        writeIntro intro = rwdFile.take (26 + 2 * intro.descriptionLength)) ∧
      (∀ md, readMetadata rwdFile = .ok md →
        writeMetadata md = rwdFile.drop (rwdFile.length - 292)) ∧
      (∀ c info next, readFileInfo rwdFile c = .ok (info, next) →
        writeDirectoryContent info = slice rwdFile c (26 + 2 * info.filenameLength) ∧
          next = c + (26 + 2 * info.filenameLength)) := by
  refine ⟨?_, ?_, ?_⟩
  · intro intro h
    rw [readIntro_eq] at h
    split_ifs at h with h1 h2
    rw [← Except.ok.inj h]
    exact writeIntro_decodeIntro rwdFile h1
  · intro md h
    rw [readMetadata_eq] at h
    split_ifs at h with h1
    rw [← Except.ok.inj h]
    apply writeMetadata_decodeMetadata
    simp only [List.length_drop]
    omega
  · intro c info next h
    obtain ⟨_, h2, h3, h4, _⟩ := readFileInfo_ok h
    subst h3
    exact ⟨writeDirectoryContent_decodeFileInfo rwdFile c (by omega), by omega⟩

set_option maxRecDepth 100000 in
/-- C8 at the example archive: the intro is its first 28 bytes, the trailer
its last 292, and the entry at 33 its bytes 33 to 61. -/
theorem codec_round_trip_witness :
    writeIntro (decodeIntro exampleArchive) = exampleArchive.take 28 ∧
      writeMetadata (decodeMetadata (exampleArchive.drop 89)) = exampleArchive.drop 89 ∧
      writeDirectoryContent (decodeFileInfo exampleArchive 33) = slice exampleArchive 33 28 :=
  ⟨(codec_round_trip exampleArchive).1 _ (by rfl),
    (codec_round_trip exampleArchive).2.1 _ (by rfl),
    ((codec_round_trip exampleArchive).2.2 33 (decodeFileInfo exampleArchive 33) 61 (by rfl)).1⟩

/-! ## C9, C10: the walker -/

/-- C9 as stated fails: in `overflowArchive` the footer has
`directoryOffset = 26` and `directoryLength1 = 2^64 - 26`, so at the first
cursor `cursor + 4 < directoryOffset + directoryLength1` holds and a
well-formed entry is stored there, yet the walker stops without decoding it:
the source compares with the sum reduced modulo `2^64`, which is 0. -/
theorem walker_stop_condition_counterexample :
    readMetadata overflowArchive = .ok overflowMetadata ∧
      overflowMetadata.footer.directoryOffset + 4 <
        overflowMetadata.footer.directoryOffset + overflowMetadata.footer.directoryLength1 ∧
      readFileInfo overflowArchive overflowMetadata.footer.directoryOffset =
        .ok (decodeFileInfo overflowArchive 26, 54) ∧
      forFile overflowArchive overflowMetadata collect [] = ([], .ok ()) := by
  set_option maxRecDepth 100000 in
  exact ⟨by rfl, by decide, by rfl, by rfl⟩

/-- C9, amended: sums are taken modulo `2^64`.  Starting with the cursor at
`Footer.directoryOffset`, the walker decodes and visits the entry at the
cursor exactly when `(cursor + 4) % 2^64 < (directoryOffset +
directoryLength1) % 2^64`; after a decoded entry the cursor is the position
just past its last byte; the visitor is called once per decoded entry, in
decoding order.  For every run there is the list `entries` of the entries
decoded (`Walked`), and the run ends in one of three ways: the condition
fails at the cursor after `entries` and the walk returns the state the
visits leave; or the condition holds there and the decoding of the next
entry throws; or the visit of the last decoded entry throws. -/
theorem walker_stop_condition {σ : Type} (rwdFile : List Byte) (md : Metadata)
    (handler : Handler σ) (s : σ) :
    ∃ entries : List FileInfo,
      Walked rwdFile (maxOffsetOf md) md.footer.directoryOffset entries ∧
        ((¬ loopCondition (cursorAfter md.footer.directoryOffset entries) (maxOffsetOf md) ∧
            ∃ s1, visit handler rwdFile md.files entries s = (s1, .ok ()) ∧
              forFile rwdFile md handler s = (s1, .ok ())) ∨
          (loopCondition (cursorAfter md.footer.directoryOffset entries) (maxOffsetOf md) ∧
            ∃ s1 e, visit handler rwdFile md.files entries s = (s1, .ok ()) ∧
              readFileInfo rwdFile (cursorAfter md.footer.directoryOffset entries) = .error e ∧
              forFile rwdFile md handler s = (s1, .error e)) ∨
          (∃ init last s1 s2 e, entries = init ++ [last] ∧
            visit handler rwdFile md.files init s = (s1, .ok ()) ∧
            handler s1 rwdFile md.files last = (s2, .error e) ∧
            forFile rwdFile md handler s = (s2, .error e))) :=
  forFileLoop_walk rwdFile md handler (maxOffsetOf md) (rwdFile.length + 1)
    md.footer.directoryOffset s (by omega) (by omega)

/-- C10 as stated fails: in `lateDirectoryArchive` the directory length is
3, at most 4, and `directoryOffset + directoryLength1 = 2^64 - 1` does not
overflow, but `cursor + 4` does: the loop condition holds, the walker seeks
to `2^64 - 4`, and `list` ends with a stream error. -/
theorem empty_directory_boundary_counterexample :
    readMetadata lateDirectoryArchive = .ok lateDirectoryMetadata ∧
      lateDirectoryMetadata.footer.directoryLength1 ≤ 4 ∧
      lateDirectoryMetadata.footer.directoryOffset +
        lateDirectoryMetadata.footer.directoryLength1 < 2 ^ 64 ∧
      (main plainPlatform infosInOffsetOrder Mode.list (World.initial lateDirectoryArchive)).2 =
        .error .ios := by
  set_option maxRecDepth 100000 in
  exact ⟨by rfl, by decide, by decide, by rfl⟩

theorem forFile_of_not_loopCondition {σ : Type} (rwdFile : List Byte) (md : Metadata)
    (handler : Handler σ) (s : σ)
    (h : ¬ loopCondition md.footer.directoryOffset (maxOffsetOf md)) :
    forFile rwdFile md handler s = (s, .ok ()) := by
  have hf : forFile rwdFile md handler s =
      forFileLoop rwdFile md handler (maxOffsetOf md) (rwdFile.length + 1)
        md.footer.directoryOffset s := rfl
  rw [hf, forFileLoop_succ, if_neg h]

/-- C10, amended: neither `directoryOffset + directoryLength1` nor
`directoryOffset + 4` overflows 64 bits.  When `Footer.directoryLength1`
covers only the padding (`directoryLength1 ≤ 4`) and `directoryOffset + 4 <
2^64`, the walker calls no visitor and raises no error, so `list` prints
nothing and `unpack` creates no file: both end without error in the world
they started in. -/
theorem empty_directory_boundary (P : Platform) (sort : List FileInfo → List Nat) (w : World)
    (intro : IntroSection) (md : Metadata)
    (hintro : readIntro w.rwd = .ok intro) (hmd : readMetadata w.rwd = .ok md)
    (hlen : md.footer.directoryLength1 ≤ 4) (hoff : md.footer.directoryOffset + 4 < 2 ^ 64) :
    (∀ (σ : Type) (handler : Handler σ) (s : σ), forFile w.rwd md handler s = (s, .ok ())) ∧
      main P sort Mode.list w = (w, .ok ()) ∧ main P sort Mode.unpack w = (w, .ok ()) := by
  have hstop : ¬ loopCondition md.footer.directoryOffset (maxOffsetOf md) := by
    simp only [loopCondition, maxOffsetOf, sizeofPadding]
    rw [Nat.mod_eq_of_lt hoff, Nat.mod_eq_of_lt (by omega)]
    omega
  have hall : ∀ (σ : Type) (handler : Handler σ) (s : σ),
      forFile w.rwd md handler s = (s, .ok ()) :=
    fun σ handler s => forFile_of_not_loopCondition w.rwd md handler s hstop
  refine ⟨hall, ?_, ?_⟩
  · unfold main
    simp only [hintro, hmd]
    exact hall _ _ _
  · unfold main
    simp only [hintro, hmd]
    exact hall _ _ _

set_option maxRecDepth 100000 in
/-- C10 at `emptyArchive`, whose directory length is 4: `list` and `unpack`
end without error and change nothing. -/
theorem empty_directory_boundary_witness :
    main plainPlatform infosInOffsetOrder Mode.list (World.initial emptyArchive) =
        (World.initial emptyArchive, .ok ()) ∧
      main plainPlatform infosInOffsetOrder Mode.unpack (World.initial emptyArchive) =
        (World.initial emptyArchive, .ok ()) :=
  (empty_directory_boundary plainPlatform infosInOffsetOrder (World.initial emptyArchive)
    (decodeIntro emptyArchive) (decodeMetadata (emptyArchive.drop 28)) (by rfl) (by rfl)
    (by decide) (by decide)).2

/-! ## Lemmas: the write loop of pack -/

theorem writeFileContent_ok {P : Platform} {sourceDir : Tree} {rwdOut : List Byte}
    {filesSection : FilesSection} {info : FileInfo} {out1 : List Byte} {info1 : FileInfo}
    (h : writeFileContent P sourceDir rwdOut filesSection info = .ok (out1, info1)) :
    ∃ file, sourceFile P sourceDir info = some file ∧ out1 = rwdOut ++ file ∧
      info1 = placed filesSection.fileDataOffset rwdOut.length file info := by
  unfold writeFileContent at h
  unfold sourceFile
  rcases hp : P.resolve info.filename with _ | path
  · rw [hp] at h; cases h
  · rw [hp] at h
    simp only at h ⊢
    rcases hf : sourceDir path with _ | file
    · rw [hf] at h; cases h
    · rw [hf] at h
      simp only [Except.ok.injEq, Prod.mk.injEq] at h
      refine ⟨file, rfl, h.1.symm, ?_⟩
      rw [← h.2]
      unfold placed
      split_ifs <;> rfl

theorem writeFileContent_of_sourceFile {P : Platform} {sourceDir : Tree} (rwdOut : List Byte)
    (filesSection : FilesSection) {info : FileInfo} {file : List Byte}
    (h : sourceFile P sourceDir info = some file) :
    writeFileContent P sourceDir rwdOut filesSection info =
      .ok (rwdOut ++ file, placed filesSection.fileDataOffset rwdOut.length file info) := by
  unfold sourceFile at h
  unfold writeFileContent
  rcases hp : P.resolve info.filename with _ | path
  · rw [hp] at h; cases h
  · rw [hp] at h
    simp only at h ⊢
    rw [h]
    simp only [Except.ok.injEq, Prod.mk.injEq, true_and]
    unfold placed
    split_ifs <;> rfl

theorem fileAt_set_placed (P : Platform) (sourceDir : Tree) (infos : List FileInfo) (i : Nat)
    (info : FileInfo) (hi : infos[i]? = some info) (fdo pos : Nat) (file : List Byte) (k : Nat) :
    fileAt P sourceDir (infos.set i (placed fdo pos file info)) k = fileAt P sourceDir infos k := by
  unfold fileAt
  by_cases hk : i = k
  · subst hk
    have hlt : i < infos.length := by
      rcases Nat.lt_or_ge i infos.length with h | h
      · exact h
      · rw [List.getElem?_eq_none h] at hi; cases hi
    rw [List.getElem?_set_self hlt, hi]
    rfl
  · rw [List.getElem?_set_ne hk]

theorem dataOf_set_placed (P : Platform) (sourceDir : Tree) (infos : List FileInfo) (i : Nat)
    (info : FileInfo) (hi : infos[i]? = some info) (fdo pos : Nat) (file : List Byte)
    (order : List Nat) :
    dataOf P sourceDir (infos.set i (placed fdo pos file info)) order =
      dataOf P sourceDir infos order := by
  unfold dataOf
  congr 1
  apply List.map_congr_left
  intro k _
  exact fileAt_set_placed P sourceDir infos i info hi fdo pos file k

theorem dataOf_cons (P : Platform) (sourceDir : Tree) (infos : List FileInfo) (i : Nat)
    (rest : List Nat) :
    dataOf P sourceDir infos (i :: rest) =
      fileAt P sourceDir infos i ++ dataOf P sourceDir infos rest := by
  simp [dataOf]

theorem dataOf_append (P : Platform) (sourceDir : Tree) (infos : List FileInfo)
    (l1 l2 : List Nat) :
    dataOf P sourceDir infos (l1 ++ l2) =
      dataOf P sourceDir infos l1 ++ dataOf P sourceDir infos l2 := by
  simp [dataOf]

/-- What the write loop leaves, for an order without repetition. -/
theorem writeFiles_spec (P : Platform) (sourceDir : Tree) (filesSection : FilesSection) :
    ∀ (order : List Nat) (rwdOut : List Byte) (infos : List FileInfo) (out1 : List Byte)
      (infos1 : List FileInfo),
      writeFiles P sourceDir filesSection order (rwdOut, infos) = ((out1, infos1), .ok ()) →
      order.Nodup →
      infos1.length = infos.length ∧
        out1 = rwdOut ++ dataOf P sourceDir infos order ∧
        (∀ k, k ∉ order → infos1[k]? = infos[k]?) ∧
        (∀ l1 k l2, order = l1 ++ k :: l2 →
          ∃ info file, infos[k]? = some info ∧ sourceFile P sourceDir info = some file ∧
            infos1[k]? = some (placed filesSection.fileDataOffset
              (rwdOut.length + (dataOf P sourceDir infos l1).length) file info))
  | [], rwdOut, infos, out1, infos1, h, _ => by
    simp only [writeFiles, Prod.mk.injEq, and_true] at h
    obtain ⟨rfl, rfl⟩ := h
    refine ⟨rfl, by simp [dataOf], fun _ _ => rfl, ?_⟩
    intro l1 k l2 hl
    simp at hl
  | i :: rest, rwdOut, infos, out1, infos1, h, hnd => by
    rw [writeFiles] at h
    rcases hi : infos[i]? with _ | info
    · rw [hi] at h; simp at h
    · rw [hi] at h
      simp only at h
      rcases hw : writeFileContent P sourceDir rwdOut filesSection info with e | ⟨out2, info2⟩
      · rw [hw] at h; simp at h
      · rw [hw] at h
        simp only at h
        obtain ⟨file, hfile, rfl, rfl⟩ := writeFileContent_ok hw
        have hnd' := List.nodup_cons.1 hnd
        obtain ⟨hlen, hout, hrest, hpos⟩ :=
          writeFiles_spec P sourceDir filesSection rest _ _ out1 infos1 h hnd'.2
        have hfa : fileAt P sourceDir infos i = file := by
          simp [fileAt, hi, hfile]
        rw [dataOf_set_placed P sourceDir infos i info hi] at hout
        refine ⟨by simpa using hlen, ?_, ?_, ?_⟩
        · rw [hout, dataOf_cons, hfa, List.append_assoc]
        · intro k hk
          have hki : k ≠ i := fun hh => hk (by simp [hh])
          have hkr : k ∉ rest := fun hh => hk (by simp [hh])
          rw [hrest k hkr, List.getElem?_set_ne (Ne.symm hki)]
        · intro l1 k l2 hl
          rcases l1 with _ | ⟨j, l1⟩
          · simp only [List.nil_append, List.cons.injEq] at hl
            obtain ⟨rfl, rfl⟩ := hl
            refine ⟨info, file, hi, hfile, ?_⟩
            have hlt : i < infos.length := by
              rcases Nat.lt_or_ge i infos.length with h' | h'
              · exact h'
              · rw [List.getElem?_eq_none h'] at hi; cases hi
            rw [hrest i hnd'.1, List.getElem?_set_self hlt]
            simp [dataOf]
          · simp only [List.cons_append, List.cons.injEq] at hl
            obtain ⟨rfl, rfl⟩ := hl
            obtain ⟨info', file', hk1, hk2, hk3⟩ := hpos l1 k l2 rfl
            have hki : i ≠ k := by
              intro hh
              apply hnd'.1
              rw [hh]
              simp
            rw [List.getElem?_set_ne hki] at hk1
            refine ⟨info', file', hk1, hk2, ?_⟩
            rw [hk3, dataOf_set_placed P sourceDir infos i info hi, dataOf_cons, hfa]
            simp only [List.length_append]
            congr 2
            omega

/-! ## Lemmas: decoding what was encoded -/

theorem slice_append_right (a b : List Byte) (o l : Nat) (h : a.length ≤ o) :
    slice (a ++ b) o l = slice b (o - a.length) l := by
  simp only [slice]
  rw [List.drop_append_eq_append_drop, List.drop_eq_nil_of_le h, List.nil_append]

theorem slice_append_left (a b : List Byte) (o l : Nat) (h : o + l ≤ a.length) :
    slice (a ++ b) o l = slice a o l := by
  simp only [slice]
  rw [List.drop_append_eq_append_drop, List.take_append_eq_append_take]
  have h1 : l - (List.drop o a).length = 0 := by simp only [List.length_drop]; omega
  rw [h1]
  simp

theorem slice_self (a : List Byte) (l : Nat) (h : l = a.length) : slice a 0 l = a := by
  subst h; exact slice_zero_length a

theorem slice_append_self (a b : List Byte) (l : Nat) (h : l = a.length) :
    slice (a ++ b) 0 l = a := by
  rw [slice_append_left a b 0 l (by omega), slice_self a l h]

/-- The piece between a prefix and a suffix. -/
theorem slice_middle (pre mid post : List Byte) (o l : Nat) (ho : o = pre.length)
    (hl : l = mid.length) : slice (pre ++ mid ++ post) o l = mid := by
  subst ho hl
  rw [List.append_assoc, slice_append_right _ _ _ _ (le_refl _), Nat.sub_self,
    slice_append_self _ _ _ rfl]

theorem decodeU16_encodeU16 (cs : List Nat) (h : ∀ c ∈ cs, c < 2 ^ 16) :
    decodeU16 (encodeU16 cs) = cs := by
  induction cs with
  | nil => rfl
  | cons c cs ih =>
    have hc : c < 2 ^ 16 := h c (by simp)
    have e : encodeU16 (c :: cs) =
        (⟨c % 256, Nat.mod_lt c (by decide)⟩ : Byte) ::
          (⟨c / 256 % 256, Nat.mod_lt _ (by decide)⟩ : Byte) :: encodeU16 cs := rfl
    rw [e, decodeU16, ih (fun c' hc' => h c' (by simp [hc']))]
    congr 1
    simp only
    omega

theorem decodeU16_lt (bs : List Byte) : ∀ x ∈ decodeU16 bs, x < 2 ^ 16 := by
  induction bs using decodeU16.induct with
  | case1 lo hi rest ih =>
    intro x hx
    have hl := lo.isLt
    have hh := hi.isLt
    simp only [decodeU16, List.mem_cons] at hx
    rcases hx with rfl | hx
    · omega
    · exact ih x hx
  | case2 bs hne =>
    intro x hx
    match bs, hne, hx with
    | [], _, hx => simp [decodeU16] at hx
    | [a], _, hx => simp [decodeU16] at hx
    | lo :: hi :: rest, hne, _ => exact absurd rfl (hne lo hi rest)

theorem FileInfo.wellFormed_length {info : FileInfo} (h : info.WellFormed) :
    (writeDirectoryContent info).length = entryLength info := by
  obtain ⟨h1, _, h3, _, _, _, h7⟩ := h
  simp only [writeDirectoryContent, List.length_append, natToLE_length, encodeU16_length, h1, h3,
    h7, entryLength]
  omega

theorem decodeFileInfo_wellFormed (b : List Byte) (c : Nat)
    (h : c + 6 + leToNat (slice b (c + 4) 2) * 2 + 20 ≤ b.length) :
    (decodeFileInfo b c).WellFormed := by
  have l2 := leToNat_lt (slice b (c + 4) 2)
  rw [length_slice b _ _ (by omega)] at l2
  have l3 := leToNat_lt (slice b (c + 6 + leToNat (slice b (c + 4) 2) * 2) 8)
  rw [length_slice b _ _ (by omega)] at l3
  have l4 := leToNat_lt (slice b (c + 6 + leToNat (slice b (c + 4) 2) * 2 + 8) 8)
  rw [length_slice b _ _ (by omega)] at l4
  refine ⟨length_slice b _ _ (by omega), l2, ?_, ?_, l3, l4, length_slice b _ _ (by omega)⟩
  · simp only [decodeFileInfo, decodeU16_length]
    rw [length_slice b _ _ (by omega)]
    omega
  · intro x hx
    exact decodeU16_lt _ x hx

theorem readFileInfo_wellFormed {b : List Byte} {c : Nat} {info : FileInfo} {next : Nat}
    (h : readFileInfo b c = .ok (info, next)) : info.WellFormed := by
  rw [readFileInfo_eq] at h
  split_ifs at h with hc
  have := (Prod.mk.inj (Except.ok.inj h)).1
  rw [← this]
  exact decodeFileInfo_wellFormed b c hc.2

theorem placed_wellFormed (fdo pos : Nat) (file : List Byte) {info : FileInfo}
    (h : info.WellFormed) : (placed fdo pos file info).WellFormed := by
  obtain ⟨h1, h2, h3, h4, h5, h6, h7⟩ := h
  refine ⟨h1, h2, h3, h4, ?_, Nat.mod_lt _ (by norm_num), h7⟩
  simp only [placed]
  split_ifs
  · exact Nat.mod_lt _ (by norm_num)
  · exact h5

theorem slice_of_eq (W pre mid post : List Byte) (o l : Nat) (hW : W = pre ++ mid ++ post)
    (ho : o = pre.length) (hl : l = mid.length) : slice W o l = mid := by
  subst hW
  exact slice_middle pre mid post o l ho hl

/-- Decoding an encoded entry gives the entry back. -/
theorem decodeFileInfo_writeDirectoryContent (pre post : List Byte) {info : FileInfo}
    (h : info.WellFormed) :
    decodeFileInfo (pre ++ writeDirectoryContent info ++ post) pre.length = info := by
  obtain ⟨h1, h2, h3, h4, h5, h6, h7⟩ := h
  generalize hW : pre ++ writeDirectoryContent info ++ post = W
  have lN : (encodeU16 info.filename).length = info.filenameLength * 2 := by
    rw [encodeU16_length, h3]; omega
  have e1 : slice W pre.length 4 = info.typeId :=
    slice_of_eq W pre info.typeId
      (natToLE 2 info.filenameLength ++ encodeU16 info.filename
        ++ natToLE 8 info.offsetFromStartOfFileData ++ natToLE 8 info.size ++ info.zeros ++ post)
      _ _ (by rw [← hW]; simp [writeDirectoryContent, List.append_assoc]) rfl h1.symm
  have e2 : slice W (pre.length + 4) 2 = natToLE 2 info.filenameLength :=
    slice_of_eq W (pre ++ info.typeId) (natToLE 2 info.filenameLength)
      (encodeU16 info.filename
        ++ natToLE 8 info.offsetFromStartOfFileData ++ natToLE 8 info.size ++ info.zeros ++ post)
      _ _ (by rw [← hW]; simp [writeDirectoryContent, List.append_assoc])
      (by simp [h1]) (by simp [natToLE_length])
  have e3 : slice W (pre.length + 6) (info.filenameLength * 2) = encodeU16 info.filename :=
    slice_of_eq W (pre ++ info.typeId ++ natToLE 2 info.filenameLength) (encodeU16 info.filename)
      (natToLE 8 info.offsetFromStartOfFileData ++ natToLE 8 info.size ++ info.zeros ++ post)
      _ _ (by rw [← hW]; simp [writeDirectoryContent, List.append_assoc])
      (by simp [h1, natToLE_length]) lN.symm
  have e4 : slice W (pre.length + 6 + info.filenameLength * 2) 8 =
      natToLE 8 info.offsetFromStartOfFileData :=
    slice_of_eq W (pre ++ info.typeId ++ natToLE 2 info.filenameLength ++ encodeU16 info.filename)
      (natToLE 8 info.offsetFromStartOfFileData)
      (natToLE 8 info.size ++ info.zeros ++ post)
      _ _ (by rw [← hW]; simp [writeDirectoryContent, List.append_assoc])
      (by simp [h1, natToLE_length, lN]; omega) (by simp [natToLE_length])
  have e5 : slice W (pre.length + 6 + info.filenameLength * 2 + 8) 8 = natToLE 8 info.size :=
    slice_of_eq W (pre ++ info.typeId ++ natToLE 2 info.filenameLength ++ encodeU16 info.filename
        ++ natToLE 8 info.offsetFromStartOfFileData)
      (natToLE 8 info.size) (info.zeros ++ post)
      _ _ (by rw [← hW]; simp [writeDirectoryContent, List.append_assoc])
      (by simp [h1, natToLE_length, lN]; omega) (by simp [natToLE_length])
  have e6 : slice W (pre.length + 6 + info.filenameLength * 2 + 16) 4 = info.zeros :=
    slice_of_eq W (pre ++ info.typeId ++ natToLE 2 info.filenameLength ++ encodeU16 info.filename
        ++ natToLE 8 info.offsetFromStartOfFileData ++ natToLE 8 info.size)
      info.zeros post
      _ _ (by rw [← hW]; simp [writeDirectoryContent, List.append_assoc])
      (by simp [h1, natToLE_length, lN]; omega) h7.symm
  have hlen : leToNat (slice W (pre.length + 4) 2) = info.filenameLength := by
    rw [e2, leToNat_natToLE_of_lt _ _ (by simpa using h2)]
  simp only [decodeFileInfo, hlen, e1, e3, e4, e5, e6]
  rw [decodeU16_encodeU16 _ h4, leToNat_natToLE_of_lt _ _ (by simpa using h5),
    leToNat_natToLE_of_lt _ _ (by simpa using h6)]
theorem section_slices (t a b u1 u2 c : List Byte) (ht : t.length = 64) (ha : a.length = 8)
    (hb : b.length = 8) (hu1 : u1.length = 4) (hu2 : u2.length = 4) (hc : c.length = 8) :
    slice (t ++ a ++ b ++ u1 ++ u2 ++ c) 0 64 = t ∧ slice (t ++ a ++ b ++ u1 ++ u2 ++ c) 64 8 = a ∧
      slice (t ++ a ++ b ++ u1 ++ u2 ++ c) 72 8 = b ∧
      slice (t ++ a ++ b ++ u1 ++ u2 ++ c) 80 4 = u1 ∧
      slice (t ++ a ++ b ++ u1 ++ u2 ++ c) 84 4 = u2 ∧
      slice (t ++ a ++ b ++ u1 ++ u2 ++ c) 88 8 = c ∧
      (t ++ a ++ b ++ u1 ++ u2 ++ c).length = 96 := by
  refine ⟨?_, ?_, ?_, ?_, ?_, ?_, ?_⟩
  · exact slice_of_eq _ [] t (a ++ b ++ u1 ++ u2 ++ c) _ _ (by simp [List.append_assoc]) rfl
      ht.symm
  · exact slice_of_eq _ t a (b ++ u1 ++ u2 ++ c) _ _ (by simp [List.append_assoc]) ht.symm
      ha.symm
  · exact slice_of_eq _ (t ++ a) b (u1 ++ u2 ++ c) _ _ (by simp [List.append_assoc])
      (by simp [ht, ha]) hb.symm
  · exact slice_of_eq _ (t ++ a ++ b) u1 (u2 ++ c) _ _ (by simp [List.append_assoc])
      (by simp [ht, ha, hb]) hu1.symm
  · exact slice_of_eq _ (t ++ a ++ b ++ u1) u2 c _ _ (by simp [List.append_assoc])
      (by simp [ht, ha, hb, hu1]) hu2.symm
  · exact slice_of_eq _ (t ++ a ++ b ++ u1 ++ u2) c [] _ _ (by simp [List.append_assoc])
      (by simp [ht, ha, hb, hu1, hu2]) hc.symm
  · simp [ht, ha, hb, hu1, hu2, hc]

theorem decodeHeaderSection_encode {s : HeaderSection} (h : s.WellFormed) :
    decodeHeaderSection (encodeHeaderSection s) = s ∧ (encodeHeaderSection s).length = 96 := by
  obtain ⟨h1, h2, h3, h4, h5, h6⟩ := h
  obtain ⟨e1, e2, e3, e4, e5, e6, e7⟩ :=
    section_slices s.text (natToLE 8 s.headerOffset) (natToLE 8 s.headerLength1) s.unknown1
      s.unknown2 (natToLE 8 s.headerLength2) h1 (natToLE_length _ _) (natToLE_length _ _) h4 h5
      (natToLE_length _ _)
  refine ⟨?_, e7⟩
  simp only [decodeHeaderSection, encodeHeaderSection, e1, e2, e3, e4, e5, e6]
  rw [leToNat_natToLE_of_lt _ _ (by simpa using h2), leToNat_natToLE_of_lt _ _ (by simpa using h3),
    leToNat_natToLE_of_lt _ _ (by simpa using h6)]

theorem decodeFilesSection_encode {s : FilesSection} (h : s.WellFormed) :
    decodeFilesSection (encodeFilesSection s) = s ∧ (encodeFilesSection s).length = 96 := by
  obtain ⟨h1, h2, h3, h4, h5, h6⟩ := h
  obtain ⟨e1, e2, e3, e4, e5, e6, e7⟩ :=
    section_slices s.text (natToLE 8 s.fileDataOffset) (natToLE 8 s.fileDataLength1) s.unknown1
      s.unknown2 (natToLE 8 s.fileDataLength2) h1 (natToLE_length _ _) (natToLE_length _ _) h4 h5
      (natToLE_length _ _)
  refine ⟨?_, e7⟩
  simp only [decodeFilesSection, encodeFilesSection, e1, e2, e3, e4, e5, e6]
  rw [leToNat_natToLE_of_lt _ _ (by simpa using h2), leToNat_natToLE_of_lt _ _ (by simpa using h3),
    leToNat_natToLE_of_lt _ _ (by simpa using h6)]

theorem decodeFooterSection_encode {s : FooterSection} (h : s.WellFormed) :
    decodeFooterSection (encodeFooterSection s) = s ∧ (encodeFooterSection s).length = 96 := by
  obtain ⟨h1, h2, h3, h4, h5, h6⟩ := h
  obtain ⟨e1, e2, e3, e4, e5, e6, e7⟩ :=
    section_slices s.text (natToLE 8 s.directoryOffset) (natToLE 8 s.directoryLength1) s.unknown1
      s.unknown2 (natToLE 8 s.directoryLength2) h1 (natToLE_length _ _) (natToLE_length _ _) h4 h5
      (natToLE_length _ _)
  refine ⟨?_, e7⟩
  simp only [decodeFooterSection, encodeFooterSection, e1, e2, e3, e4, e5, e6]
  rw [leToNat_natToLE_of_lt _ _ (by simpa using h2), leToNat_natToLE_of_lt _ _ (by simpa using h3),
    leToNat_natToLE_of_lt _ _ (by simpa using h6)]

/-- Decoding an encoded trailer gives the metadata back. -/
theorem decodeMetadata_writeMetadata {md : Metadata} (h : md.WellFormed) :
    decodeMetadata (writeMetadata md) = md ∧ (writeMetadata md).length = 292 := by
  obtain ⟨h0, hh, hf, hd⟩ := h
  obtain ⟨eh, lh⟩ := decodeHeaderSection_encode hh
  obtain ⟨ef, lf⟩ := decodeFilesSection_encode hf
  obtain ⟨ed, ld⟩ := decodeFooterSection_encode hd
  have s0 : slice (writeMetadata md) 0 4 = md.padding :=
    slice_of_eq _ [] md.padding
      (encodeHeaderSection md.header ++ encodeFilesSection md.files
        ++ encodeFooterSection md.footer) _ _ (by simp [writeMetadata, List.append_assoc]) rfl
      h0.symm
  have s1 : slice (writeMetadata md) 4 96 = encodeHeaderSection md.header :=
    slice_of_eq _ md.padding (encodeHeaderSection md.header)
      (encodeFilesSection md.files ++ encodeFooterSection md.footer) _ _
      (by simp [writeMetadata, List.append_assoc]) h0.symm lh.symm
  have s2 : slice (writeMetadata md) 100 96 = encodeFilesSection md.files :=
    slice_of_eq _ (md.padding ++ encodeHeaderSection md.header) (encodeFilesSection md.files)
      (encodeFooterSection md.footer) _ _
      (by simp [writeMetadata, List.append_assoc]) (by simp [h0, lh]) lf.symm
  have s3 : slice (writeMetadata md) 196 96 = encodeFooterSection md.footer :=
    slice_of_eq _ (md.padding ++ encodeHeaderSection md.header ++ encodeFilesSection md.files)
      (encodeFooterSection md.footer) [] _ _
      (by simp [writeMetadata, List.append_assoc]) (by simp [h0, lh, lf]) ld.symm
  refine ⟨?_, ?_⟩
  · simp only [decodeMetadata, s0, s1, s2, s3, eh, ef, ed]
  · simp [writeMetadata, h0, lh, lf, ld]

theorem decodeMetadata_wellFormed (raw : List Byte) (h : raw.length = 292) :
    (decodeMetadata raw).WellFormed := by
  have e : ∀ o1 l1 o2 l2, o2 + l2 ≤ l1 → slice (slice raw o1 l1) o2 l2 = slice raw (o1 + o2) l2 :=
    fun o1 l1 o2 l2 hh => slice_slice raw o1 l1 o2 l2 hh
  have n8 : ∀ o, o + 8 ≤ 292 → leToNat (slice raw o 8) < 2 ^ 64 := by
    intro o ho
    have := leToNat_lt (slice raw o 8)
    rw [length_slice raw o 8 (by omega)] at this
    simpa using this
  have ln : ∀ o l, o + l ≤ 292 → (slice raw o l).length = l :=
    fun o l ho => length_slice raw o l (by omega)
  simp only [Metadata.WellFormed, HeaderSection.WellFormed, FilesSection.WellFormed,
    FooterSection.WellFormed, decodeMetadata, decodeHeaderSection, decodeFilesSection,
    decodeFooterSection]
  rw [e 4 96 0 64 (by omega), e 4 96 64 8 (by omega), e 4 96 72 8 (by omega), e 4 96 80 4 (by omega),
    e 4 96 84 4 (by omega), e 4 96 88 8 (by omega),
    e 100 96 0 64 (by omega), e 100 96 64 8 (by omega), e 100 96 72 8 (by omega),
    e 100 96 80 4 (by omega), e 100 96 84 4 (by omega), e 100 96 88 8 (by omega),
    e 196 96 0 64 (by omega), e 196 96 64 8 (by omega), e 196 96 72 8 (by omega),
    e 196 96 80 4 (by omega), e 196 96 84 4 (by omega), e 196 96 88 8 (by omega)]
  simp only [Nat.reduceAdd]
  refine ⟨ln _ _ (by omega), ⟨ln _ _ (by omega), n8 _ (by omega), n8 _ (by omega),
    ln _ _ (by omega), ln _ _ (by omega), n8 _ (by omega)⟩,
    ⟨ln _ _ (by omega), n8 _ (by omega), n8 _ (by omega),
    ln _ _ (by omega), ln _ _ (by omega), n8 _ (by omega)⟩,
    ⟨ln _ _ (by omega), n8 _ (by omega), n8 _ (by omega),
    ln _ _ (by omega), ln _ _ (by omega), n8 _ (by omega)⟩⟩

theorem readMetadata_wellFormed {b : List Byte} {md : Metadata} (h : readMetadata b = .ok md) :
    md.WellFormed ∧ md.footer.directoryLength1 = md.footer.directoryLength2 := by
  rw [readMetadata_eq] at h
  split_ifs at h with h1 h2 h3 h4
  rw [← Except.ok.inj h]
  refine ⟨decodeMetadata_wellFormed _ ?_, not_not.1 h4⟩
  simp only [List.length_drop]
  omega

/-! ## Lemmas: the output of pack -/

theorem take_eq_slice (a : List Byte) (L : Nat) : a.take L = slice a 0 L := by simp [slice]

theorem slice_take (a : List Byte) (L o l : Nat) (h : o + l ≤ L) :
    slice (a.take L) o l = slice a o l := by
  rw [take_eq_slice, slice_slice a 0 L o l h, Nat.zero_add]

theorem readIntro_ok {b : List Byte} {intro : IntroSection} (h : readIntro b = .ok intro) :
    intro = decodeIntro b ∧ 26 + 2 * intro.descriptionLength ≤ b.length ∧
      strncmp (slice b 0 4) TGCK 4 = 0 ∧
      writeIntro intro = b.take (26 + 2 * intro.descriptionLength) ∧
      (writeIntro intro).length = 26 + 2 * intro.descriptionLength := by
  have h0 := h
  rw [readIntro_eq] at h
  split_ifs at h with h1 h2
  have hi := (Except.ok.inj h).symm
  have hd : intro.descriptionLength = leToNat (slice b 16 2) := by rw [hi]; rfl
  have hw : writeIntro intro = b.take (26 + 2 * intro.descriptionLength) := by
    rw [hi]; exact writeIntro_decodeIntro b h1
  refine ⟨hi, by omega, not_not.1 h2, hw, ?_⟩
  rw [hw, List.length_take]
  omega

/-- `readIntro` looks at the intro only. -/
theorem readIntro_of_prefix {a b : List Byte} {intro : IntroSection}
    (h : readIntro a = .ok intro)
    (hb : b.take (26 + 2 * intro.descriptionLength) = a.take (26 + 2 * intro.descriptionLength))
    (hlen : 26 + 2 * intro.descriptionLength ≤ b.length) : readIntro b = .ok intro := by
  obtain ⟨hi, hl, hs, _, _⟩ := readIntro_ok h
  have hd : intro.descriptionLength = leToNat (slice a 16 2) := by rw [hi]; rfl
  have e : ∀ o l, o + l ≤ 26 + 2 * intro.descriptionLength → slice b o l = slice a o l := by
    intro o l hol
    rw [← slice_take b _ o l hol, hb, slice_take a _ o l hol]
  have e16 := e 16 2 (by omega)
  rw [readIntro_eq, e16, if_pos (by omega), e 0 4 (by omega), if_neg (not_not.2 hs), hi]
  congr 1
  simp only [decodeIntro, e16]
  rw [e 0 4 (by omega), e 4 4 (by omega), e 8 4 (by omega), e 12 4 (by omega),
    e 18 _ (by omega), e (18 + leToNat (slice a 16 2) * 2) 4 (by omega),
    e (18 + leToNat (slice a 16 2) * 2 + 4) 4 (by omega)]

theorem writeDirectory_eq (rwdOut : List Byte) (infos : List FileInfo) :
    writeDirectory rwdOut infos = rwdOut ++ directoryOf infos := by
  induction infos generalizing rwdOut with
  | nil => simp [writeDirectory, directoryOf]
  | cons info rest ih =>
    rw [writeDirectory, ih]
    simp [directoryOf, List.append_assoc]

/-- The shape of the output of a successful pack. -/
theorem packWith_ok {P : Platform} {sourceDirectory : Tree} {intro : IntroSection}
    {metadata : Metadata} {infos : List FileInfo} {order : List Nat} {st : PackState}
    (h : packWith P sourceDirectory intro metadata infos order = (st, .ok ())) :
    ∃ out1, writeFiles P sourceDirectory metadata.files order (writeIntro intro, infos) =
        ((out1, st.infosInOriginalOrder), .ok ()) ∧
      st.metadata =
        { metadata with
          footer := { metadata.footer with directoryOffset := out1.length % 2 ^ 64 } } ∧
      st.rwdOut = out1 ++ directoryOf st.infosInOriginalOrder ++ writeMetadata st.metadata := by
  unfold packWith at h
  simp only [] at h
  rcases hw : writeFiles P sourceDirectory metadata.files order (writeIntro intro, infos) with
    ⟨⟨out1, infos1⟩, r⟩
  rw [hw] at h
  cases r with
  | error e => simp at h
  | ok u =>
    cases u
    simp only [Prod.mk.injEq, and_true] at h
    subst h
    exact ⟨out1, rfl, rfl, by simp only [writeDirectory_eq]⟩

theorem IsOffsetOrder.nodup {infos : List FileInfo} {order : List Nat}
    (h : IsOffsetOrder infos order) : order.Nodup :=
  h.1.nodup_iff.2 (List.nodup_range _)

theorem IsOffsetOrder.mem_iff {infos : List FileInfo} {order : List Nat}
    (h : IsOffsetOrder infos order) (i : Nat) : i ∈ order ↔ i < infos.length := by
  rw [h.1.mem_iff, List.mem_range]

/-- The sort of the model gives an order that `ranges::sort` may give. -/
theorem infosInOffsetOrder_isOffsetOrder (infos : List FileInfo) :
    IsOffsetOrder infos (infosInOffsetOrder infos) := by
  refine ⟨List.perm_insertionSort _ _, ?_⟩
  haveI : IsTotal Nat (fun i j => offsetAt infos i ≤ offsetAt infos j) :=
    ⟨fun a b => Nat.le_total _ _⟩
  haveI : IsTrans Nat (fun i j => offsetAt infos i ≤ offsetAt infos j) :=
    ⟨fun a b c hab hbc => Nat.le_trans hab hbc⟩
  have hs := List.sorted_insertionSort (fun i j => offsetAt infos i ≤ offsetAt infos j)
    (List.range infos.length)
  exact List.Pairwise.imp (fun hij => Nat.not_lt.2 hij) hs

/-- Where a successful pack puts the file of each entry. -/
theorem packWith_entry {P : Platform} {sourceDirectory : Tree} {intro : IntroSection}
    {metadata : Metadata} {infos : List FileInfo} {order : List Nat} {st : PackState}
    (h : packWith P sourceDirectory intro metadata infos order = (st, .ok ()))
    (hord : order.Nodup) :
    st.infosInOriginalOrder.length = infos.length ∧
      st.metadata =
        { metadata with
          footer := { metadata.footer with
            directoryOffset :=
              (writeIntro intro ++ dataOf P sourceDirectory infos order).length % 2 ^ 64 } } ∧
      st.rwdOut = writeIntro intro ++ dataOf P sourceDirectory infos order
        ++ directoryOf st.infosInOriginalOrder ++ writeMetadata st.metadata ∧
      (∀ k, k ∉ order → st.infosInOriginalOrder[k]? = infos[k]?) ∧
      (∀ l1 k l2, order = l1 ++ k :: l2 →
        ∃ info file, infos[k]? = some info ∧ sourceFile P sourceDirectory info = some file ∧
          st.infosInOriginalOrder[k]? = some (placed metadata.files.fileDataOffset
            ((writeIntro intro).length + (dataOf P sourceDirectory infos l1).length) file info)) := by
  obtain ⟨out1, hw, hmd, hout⟩ := packWith_ok h
  obtain ⟨h1, h2, h3, h4⟩ := writeFiles_spec P sourceDirectory metadata.files order _ _ _ _ hw hord
  subst h2
  exact ⟨h1, hmd, hout, h3, h4⟩
theorem fileAt_of_sourceFile {P : Platform} {sourceDir : Tree} {infos : List FileInfo} {k : Nat}
    {info : FileInfo} {file : List Byte} (hk : infos[k]? = some info)
    (hf : sourceFile P sourceDir info = some file) : fileAt P sourceDir infos k = file := by
  simp [fileAt, hk, hf]

/-- The entry at position `i` after a successful pack, and the place of its
file in the output. -/
theorem packWith_entry_at {P : Platform} {sourceDirectory : Tree} {intro : IntroSection}
    {metadata : Metadata} {infos : List FileInfo} {order : List Nat} {st : PackState}
    (h : packWith P sourceDirectory intro metadata infos order = (st, .ok ()))
    (hord : IsOffsetOrder infos order) {i : Nat} (hi : i < infos.length) :
    ∃ l1 l2 info file, order = l1 ++ i :: l2 ∧ infos[i]? = some info ∧
      sourceFile P sourceDirectory info = some file ∧
      st.infosInOriginalOrder[i]? = some (placed metadata.files.fileDataOffset
        ((writeIntro intro).length + (dataOf P sourceDirectory infos l1).length) file info) ∧
      st.rwdOut = (writeIntro intro ++ dataOf P sourceDirectory infos l1) ++ file
        ++ (dataOf P sourceDirectory infos l2 ++ directoryOf st.infosInOriginalOrder
          ++ writeMetadata st.metadata) := by
  obtain ⟨_, _, hout, _, hpos⟩ := packWith_entry h hord.nodup
  obtain ⟨l1, l2, hl⟩ := List.append_of_mem ((hord.mem_iff i).2 hi)
  obtain ⟨info, file, h1, h2, h3⟩ := hpos l1 i l2 hl
  refine ⟨l1, l2, info, file, hl, h1, h2, h3, ?_⟩
  rw [hout, hl, dataOf_append, dataOf_cons, fileAt_of_sourceFile h1 h2]
  simp only [List.append_assoc]

/-- The bytes of the output that the new record of entry `i` addresses. -/
theorem packWith_entry_bytes {P : Platform} {sourceDirectory : Tree} {rwdFile : List Byte}
    {intro : IntroSection} {md : Metadata} {infos : List FileInfo} {order : List Nat}
    {st : PackState}
    (hmd : readMetadata rwdFile = .ok md)
    (hord : IsOffsetOrder infos order)
    (hpack : packWith P sourceDirectory intro md infos order = (st, .ok ()))
    (hfit : st.rwdOut.length < 2 ^ 63) {i : Nat} (hi : i < infos.length) :
    ∃ info file pos, infos[i]? = some info ∧ sourceFile P sourceDirectory info = some file ∧
      st.infosInOriginalOrder[i]? = some (placed md.files.fileDataOffset pos file info) ∧
      (placed md.files.fileDataOffset pos file info).size = file.length ∧
      (0 < file.length →
        (md.files.fileDataOffset +
          (placed md.files.fileDataOffset pos file info).offsetFromStartOfFileData) % 2 ^ 64
            = pos) ∧
      slice st.rwdOut pos file.length = file := by
  obtain ⟨l1, l2, info, file, _, hinfo, hfile, hst, hout⟩ := packWith_entry_at hpack hord hi
  have hfdo : md.files.fileDataOffset < 2 ^ 64 := (readMetadata_wellFormed hmd).1.2.2.1.2.1
  have hlenout : st.rwdOut.length =
      (writeIntro intro).length + (dataOf P sourceDirectory infos l1).length + file.length
        + (dataOf P sourceDirectory infos l2 ++ directoryOf st.infosInOriginalOrder
          ++ writeMetadata st.metadata).length := by
    rw [hout]; simp only [List.length_append]
  refine ⟨info, file, _, hinfo, hfile, hst, ?_, ?_, ?_⟩
  · simp only [placed]
    exact Nat.mod_eq_of_lt (by omega)
  · intro hpos
    have hp : 0 < file.length % 2 ^ 64 := by
      rw [Nat.mod_eq_of_lt (by omega)]; exact hpos
    simp only [placed, if_pos hp]
    omega
  · exact slice_of_eq _ _ file _ _ _ hout (by simp) rfl

/-! ## C2: pack places each file where its directory record says -/

/-- C2. Pack places each file's content where its directory record says:
after a successful pack of a parsable archive, every entry of the new
directory has as `size` the length of the source file its filename names,
and when that size is positive the `size` bytes of the output from the
absolute position `(fileDataOffset + offsetFromStartOfFileData) % 2^64` on
are that file's bytes.  This holds for the intro and the entries read from
the archive and for every order the sort may give.  (`hfit`: the output is a
file, so its length fits a `streamoff`.) -/
theorem pack_places_content (P : Platform) (sourceDirectory : Tree) (rwdFile : List Byte)
    (intro : IntroSection) (md : Metadata) (infos : List FileInfo) (order : List Nat)
    (st : PackState)
    (hmd : readMetadata rwdFile = .ok md)
    (hord : IsOffsetOrder infos order)
    (hpack : packWith P sourceDirectory intro md infos order = (st, .ok ()))
    (hfit : st.rwdOut.length < 2 ^ 63) :
    ∀ (i : Nat) (entry : FileInfo), st.infosInOriginalOrder[i]? = some entry →
      ∃ file, sourceFile P sourceDirectory entry = some file ∧ entry.size = file.length ∧
        (0 < entry.size →
          slice st.rwdOut
            ((md.files.fileDataOffset + entry.offsetFromStartOfFileData) % 2 ^ 64)
            entry.size = file) := by
  intro i entry hentry
  have hlen := (packWith_entry hpack hord.nodup).1
  have hi : i < infos.length := by
    rw [← hlen]
    rcases Nat.lt_or_ge i st.infosInOriginalOrder.length with h | h
    · exact h
    · rw [List.getElem?_eq_none h] at hentry; cases hentry
  obtain ⟨info, file, pos, _, hfile, hst, hsize, hoff, hbytes⟩ :=
    packWith_entry_bytes hmd hord hpack hfit hi
  rw [hentry] at hst
  have he := Option.some.inj hst
  rw [he]
  refine ⟨file, hfile, hsize, ?_⟩
  intro hpos
  rw [hsize] at hpos ⊢
  rw [hoff hpos]
  exact hbytes

/-! ## C4: pack changes only `Footer.directoryOffset` -/

theorem fileAt_length (P : Platform) (sourceDir : Tree) (infos : List FileInfo) (k : Nat)
    (hk : k < infos.length) :
    (fileAt P sourceDir infos k).length = sourceLength P sourceDir infos[k] := by
  unfold fileAt sourceLength
  rw [List.getElem?_eq_getElem hk]
  simp only
  rcases sourceFile P sourceDir infos[k] with _ | file <;> rfl

theorem map_range_getElem (infos : List FileInfo) (f : FileInfo → Nat) (g : Nat → Nat)
    (h : ∀ k (hk : k < infos.length), g k = f infos[k]) :
    (List.range infos.length).map g = infos.map f := by
  apply List.ext_getElem
  · simp
  · intro n h1 h2
    simp only [List.getElem_map, List.getElem_range]
    exact h n (by simpa using h2)

theorem dataOf_length {P : Platform} {sourceDir : Tree} {infos : List FileInfo}
    {order : List Nat} (hord : IsOffsetOrder infos order) :
    (dataOf P sourceDir infos order).length = (infos.map (sourceLength P sourceDir)).sum := by
  unfold dataOf
  rw [List.length_flatten, List.map_map]
  rw [(hord.1.map _).sum_eq]
  congr 1
  exact map_range_getElem infos _ _ (fun k hk => fileAt_length P sourceDir infos k hk)

/-- C4. Pack changes only `Footer.directoryOffset` in the trailer: after a
successful pack the first `26 + 2 * descriptionLength` bytes of the output
are the original intro, the last 292 bytes of the output decode to the
original metadata with every field unchanged except
`Footer.directoryOffset`, and the new `Footer.directoryOffset` is the length
of the output up to the end of the file data (intro and file data are
followed by the directory and the trailer), which is the intro size plus
the sum of the lengths of the source files.  (`hfit`: the output is a file,
so its length fits a `streamoff`.) -/
theorem pack_changes_only_directoryOffset (P : Platform) (sourceDirectory : Tree)
    (rwdFile : List Byte) (intro : IntroSection) (md : Metadata) (infos : List FileInfo)
    (order : List Nat) (st : PackState)
    (hintro : readIntro rwdFile = .ok intro) (hmd : readMetadata rwdFile = .ok md)
    (hord : IsOffsetOrder infos order)
    (hpack : packWith P sourceDirectory intro md infos order = (st, .ok ()))
    (hfit : st.rwdOut.length < 2 ^ 63) :
    st.rwdOut.take (26 + 2 * intro.descriptionLength) =
        rwdFile.take (26 + 2 * intro.descriptionLength) ∧
      decodeMetadata (st.rwdOut.drop (st.rwdOut.length - 292)) =
        { md with
          footer := { md.footer with directoryOffset := st.metadata.footer.directoryOffset } } ∧
      st.rwdOut = writeIntro intro ++ dataOf P sourceDirectory infos order
        ++ directoryOf st.infosInOriginalOrder ++ writeMetadata st.metadata ∧
      st.metadata.footer.directoryOffset =
        (writeIntro intro ++ dataOf P sourceDirectory infos order).length ∧
      st.metadata.footer.directoryOffset =
        26 + 2 * intro.descriptionLength + (infos.map (sourceLength P sourceDirectory)).sum := by
  obtain ⟨_, hmeta, hout, _, _⟩ := packWith_entry hpack hord.nodup
  obtain ⟨_, _, _, hwi, hli⟩ := readIntro_ok hintro
  obtain ⟨hwf, _⟩ := readMetadata_wellFormed hmd
  have hlen : st.rwdOut.length =
      (writeIntro intro ++ dataOf P sourceDirectory infos order).length
        + (directoryOf st.infosInOriginalOrder).length + (writeMetadata st.metadata).length := by
    rw [hout]; simp only [List.length_append]
  have hdo : st.metadata.footer.directoryOffset =
      (writeIntro intro ++ dataOf P sourceDirectory infos order).length := by
    rw [hmeta]
    exact Nat.mod_eq_of_lt (by omega)
  have hwf' : st.metadata.WellFormed := by
    rw [hmeta]
    obtain ⟨h0, hh, hf, h1, h2, h3, h4, h5, h6⟩ := hwf
    exact ⟨h0, hh, hf, h1, Nat.mod_lt _ (by norm_num), h3, h4, h5, h6⟩
  obtain ⟨hdec, hl292⟩ := decodeMetadata_writeMetadata hwf'
  refine ⟨?_, ?_, hout, hdo, ?_⟩
  · rw [hout, ← hwi, List.append_assoc, List.append_assoc, List.take_left' hli]
  · have : st.rwdOut.drop (st.rwdOut.length - 292) = writeMetadata st.metadata := by
      rw [hlen, hl292, Nat.add_sub_cancel, hout]
      apply List.drop_left'
      simp only [List.length_append]
    rw [this, hdec]
    conv_lhs => rw [hmeta]
    rw [hmeta]
  · rw [hdo, List.length_append, hli, dataOf_length hord]
/-! ## C5: file data is written in the order of the original offsets -/

theorem offsetAt_of_getElem? {infos : List FileInfo} {i : Nat} {a : FileInfo}
    (h : infos[i]? = some a) : offsetAt infos i = a.offsetFromStartOfFileData := by
  simp [offsetAt, h]

/-- In an order the sort may give, an entry of smaller original offset comes
before an entry of larger original offset. -/
theorem IsOffsetOrder.before {infos : List FileInfo} {order : List Nat}
    (hord : IsOffsetOrder infos order) {i j : Nat} {a b : FileInfo} (hi : infos[i]? = some a)
    (hj : infos[j]? = some b)
    (hlt : a.offsetFromStartOfFileData < b.offsetFromStartOfFileData) :
    ∃ l1 m1 m2, order = l1 ++ i :: (m1 ++ j :: m2) := by
  have hil : i < infos.length := by
    rcases Nat.lt_or_ge i infos.length with h | h
    · exact h
    · rw [List.getElem?_eq_none h] at hi; cases hi
  have hjl : j < infos.length := by
    rcases Nat.lt_or_ge j infos.length with h | h
    · exact h
    · rw [List.getElem?_eq_none h] at hj; cases hj
  obtain ⟨l1, l2, hl⟩ := List.append_of_mem ((hord.mem_iff i).2 hil)
  have hjm : j ∈ order := (hord.mem_iff j).2 hjl
  have hpw := hord.2
  rw [hl] at hjm hpw
  rw [List.pairwise_append] at hpw
  rcases List.mem_append.1 hjm with h1 | h2
  · exfalso
    have := hpw.2.2 j h1 i (by simp)
    rw [offsetAt_of_getElem? hi, offsetAt_of_getElem? hj] at this
    exact this hlt
  · rcases List.mem_cons.1 h2 with h3 | h3
    · exfalso
      subst h3
      rw [hi] at hj
      cases hj
      exact Nat.lt_irrefl _ hlt
    · obtain ⟨m1, m2, hm⟩ := List.append_of_mem h3
      exact ⟨l1, m1, m2, by rw [hl, hm]⟩

/-- C5 as stated fails when `Files.fileDataOffset` lies beyond the place
where the file data is written: the new offsets are taken modulo `2^64` and
wrap.  In `gapArchive` the intro has 26 bytes and `fileDataOffset` is 27;
entry `a` has the smaller original offset and its file is written first, at
26, so its new offset is `2^64 - 1`, while entry `b`, written at 27, gets
0. -/
theorem pack_writes_in_offset_order_counterexample :
    packWith plainPlatform gapTree (decodeIntro gapArchive) gapMetadata gapInfos
        (infosInOffsetOrder gapInfos) = (gapPacked, .ok ()) ∧
      forFile gapArchive gapMetadata collect [] = (gapInfos, .ok ()) ∧
      (gapInfos.map (·.offsetFromStartOfFileData)) = [0, 1] ∧
      (gapInfos.map (sourceLength plainPlatform gapTree)) = [1, 1] ∧
      (gapPacked.infosInOriginalOrder.map (·.offsetFromStartOfFileData)) = [2 ^ 64 - 1, 0] := by
  set_option maxRecDepth 100000 in
  exact ⟨by rfl, by rfl, by rfl, by rfl, by rfl⟩

/-- C5, amended: the new offsets are ordered when `fileDataOffset` is at most
the intro size.  After a successful pack, for two entries `a` and `b` whose
original offsets satisfy `a < b` and whose source files are both non-empty,
the bytes of `a`'s file precede the bytes of `b`'s file in the output: the
absolute position `(fileDataOffset + offset) % 2^64` that the new record of
`a` addresses, plus its size, is at most the one of `b`, whatever the
positions of `a` and `b` in the directory; and when `fileDataOffset` is at
most the intro size `26 + 2 * descriptionLength`, `a`'s new offset is
strictly less than `b`'s.  (`hfit`: the output is a file, so its length fits
a `streamoff`.) -/
theorem pack_writes_in_offset_order (P : Platform) (sourceDirectory : Tree)
    (rwdFile : List Byte) (intro : IntroSection) (md : Metadata) (infos : List FileInfo)
    (order : List Nat) (st : PackState)
    (hintro : readIntro rwdFile = .ok intro) (hmd : readMetadata rwdFile = .ok md)
    (hord : IsOffsetOrder infos order)
    (hpack : packWith P sourceDirectory intro md infos order = (st, .ok ()))
    (hfit : st.rwdOut.length < 2 ^ 63) :
    ∀ (i j : Nat) (a b a1 b1 : FileInfo), infos[i]? = some a → infos[j]? = some b →
      st.infosInOriginalOrder[i]? = some a1 → st.infosInOriginalOrder[j]? = some b1 →
      a.offsetFromStartOfFileData < b.offsetFromStartOfFileData →
      0 < sourceLength P sourceDirectory a → 0 < sourceLength P sourceDirectory b →
      (md.files.fileDataOffset + a1.offsetFromStartOfFileData) % 2 ^ 64 + a1.size ≤
          (md.files.fileDataOffset + b1.offsetFromStartOfFileData) % 2 ^ 64 ∧
        (md.files.fileDataOffset ≤ 26 + 2 * intro.descriptionLength →
          a1.offsetFromStartOfFileData < b1.offsetFromStartOfFileData) := by
  intro i j a b a1 b1 hi hj hi1 hj1 hlt hla hlb
  obtain ⟨l1, m1, m2, hl⟩ := hord.before hi hj hlt
  obtain ⟨_, _, hout, _, hpos⟩ := packWith_entry hpack hord.nodup
  obtain ⟨_, _, _, _, hli⟩ := readIntro_ok hintro
  have hfdo : md.files.fileDataOffset < 2 ^ 64 := (readMetadata_wellFormed hmd).1.2.2.1.2.1
  obtain ⟨a', fa, ha1, ha2, ha3⟩ := hpos l1 i (m1 ++ j :: m2) hl
  obtain ⟨b', fb, hb1, hb2, hb3⟩ := hpos (l1 ++ i :: m1) j m2 (by rw [hl]; simp)
  rw [hi] at ha1; cases ha1
  rw [hj] at hb1; cases hb1
  rw [hi1] at ha3
  rw [hj1] at hb3
  have ea := Option.some.inj ha3
  have eb := Option.some.inj hb3
  have hsa : sourceLength P sourceDirectory a = fa.length := by simp [sourceLength, ha2]
  have hsb : sourceLength P sourceDirectory b = fb.length := by simp [sourceLength, hb2]
  have hd : (dataOf P sourceDirectory infos (l1 ++ i :: m1)).length =
      (dataOf P sourceDirectory infos l1).length + fa.length
        + (dataOf P sourceDirectory infos m1).length := by
    rw [dataOf_append, dataOf_cons, fileAt_of_sourceFile hi ha2]
    simp only [List.length_append]
    omega
  have hlenout : (writeIntro intro).length + (dataOf P sourceDirectory infos (l1 ++ i :: m1)).length
      + fb.length ≤ st.rwdOut.length := by
    have hsplit : dataOf P sourceDirectory infos order =
        dataOf P sourceDirectory infos (l1 ++ i :: m1) ++ (fb ++ dataOf P sourceDirectory infos m2) := by
      have : l1 ++ i :: (m1 ++ j :: m2) = (l1 ++ i :: m1) ++ j :: m2 := by simp
      rw [hl, this, dataOf_append _ _ _ (l1 ++ i :: m1), dataOf_cons,
        fileAt_of_sourceFile hj hb2]
    rw [hout, hsplit]
    simp only [List.length_append]
    omega
  have hpa : 0 < fa.length % 2 ^ 64 := by rw [Nat.mod_eq_of_lt (by omega)]; omega
  have hpb : 0 < fb.length % 2 ^ 64 := by rw [Nat.mod_eq_of_lt (by omega)]; omega
  rw [ea, eb]
  simp only [placed, if_pos hpa, if_pos hpb]
  rw [hd]
  rw [hd] at hlenout
  constructor
  · omega
  · intro hle
    omega

/-! ## Lemmas: walking a packed archive -/

theorem cursorAfter_eq_sum (c : Nat) (es : List FileInfo) :
    cursorAfter c es = c + (es.map entryLength).sum := by
  induction es generalizing c with
  | nil => simp [cursorAfter]
  | cons e rest ih =>
    simp only [cursorAfter, ih, List.map_cons, List.sum_cons]
    omega

theorem directoryOf_cons (e : FileInfo) (rest : List FileInfo) :
    directoryOf (e :: rest) = writeDirectoryContent e ++ directoryOf rest := by
  simp [directoryOf]

theorem directoryOf_length {es : List FileInfo} (h : ∀ e ∈ es, e.WellFormed) :
    (directoryOf es).length = (es.map entryLength).sum := by
  induction es with
  | nil => simp [directoryOf]
  | cons e rest ih =>
    rw [directoryOf_cons, List.length_append, FileInfo.wellFormed_length (h e (by simp)),
      ih (fun x hx => h x (by simp [hx]))]
    simp

theorem Walked.wellFormed {rwdFile : List Byte} {maxOffset : Nat} :
    ∀ {c : Nat} {es : List FileInfo}, Walked rwdFile maxOffset c es → ∀ e ∈ es, e.WellFormed
  | _, [], _, e, he => by simp at he
  | c, x :: rest, h, e, he => by
    rcases List.mem_cons.1 he with rfl | hr
    · exact readFileInfo_wellFormed h.2.1
    · exact Walked.wellFormed h.2.2 e hr

/-- At the start of every entry of a walk the loop condition holds and the
seek succeeds. -/
theorem Walked.take_cond {rwdFile : List Byte} {maxOffset : Nat} :
    ∀ {c : Nat} {es : List FileInfo}, Walked rwdFile maxOffset c es → ∀ k, k < es.length →
      loopCondition (cursorAfter c (es.take k)) maxOffset ∧ cursorAfter c (es.take k) < 2 ^ 63
  | _, [], _, k, hk => by simp at hk
  | c, x :: rest, h, 0, _ => ⟨h.1, (readFileInfo_ok h.2.1).1⟩
  | c, x :: rest, h, k + 1, hk => by
    simp only [List.take_succ_cons, cursorAfter]
    exact Walked.take_cond h.2.2 k (by simpa using hk)

theorem Walked.cursorAfter_lt {rwdFile : List Byte} {maxOffset : Nat} :
    ∀ {c : Nat} {es : List FileInfo}, Walked rwdFile maxOffset c es → es ≠ [] →
      cursorAfter c es < 2 ^ 63 + 2 ^ 18
  | c, [e], h, _ => by
    have h1 := (readFileInfo_ok h.2.1).1
    have h2 := (readFileInfo_ok h.2.1).2.2.2.2
    simp only [cursorAfter, entryLength]
    omega
  | c, e :: e2 :: rest, h, _ => by
    simp only [cursorAfter]
    exact @Walked.cursorAfter_lt rwdFile maxOffset _ (e2 :: rest) h.2.2 (by simp)

/-- Entries encoded one after the other are walked in this order. -/
theorem walked_of_encoded (maxOffset : Nat) :
    ∀ (es : List FileInfo) (pre post : List Byte), (∀ e ∈ es, e.WellFormed) →
      (∀ k, k < es.length → cursorAfter pre.length (es.take k) + 4 < maxOffset) →
      (pre ++ directoryOf es ++ post).length < 2 ^ 63 →
      Walked (pre ++ directoryOf es ++ post) maxOffset pre.length es
  | [], _, _, _, _, _ => trivial
  | e :: rest, pre, post, hwf, hcond, hlen => by
    have hwe := hwf e (by simp)
    have hle := FileInfo.wellFormed_length hwe
    have hW : pre ++ directoryOf (e :: rest) ++ post =
        pre ++ writeDirectoryContent e ++ (directoryOf rest ++ post) := by
      rw [directoryOf_cons]; simp only [List.append_assoc]
    have hdec := decodeFileInfo_writeDirectoryContent pre (directoryOf rest ++ post) hwe
    rw [← hW] at hdec
    have hfl : leToNat (slice (pre ++ directoryOf (e :: rest) ++ post) (pre.length + 4) 2) =
        e.filenameLength := by
      have := congrArg FileInfo.filenameLength hdec
      simpa [decodeFileInfo] using this
    have hlen2 : (pre ++ directoryOf (e :: rest) ++ post).length =
        pre.length + entryLength e + (directoryOf rest ++ post).length := by
      rw [hW]; simp only [List.length_append, hle]
    have h0 := hcond 0 (by simp)
    simp only [List.take_zero, cursorAfter] at h0
    refine ⟨?_, ?_, ?_⟩
    · simp only [loopCondition, sizeofPadding]
      rw [Nat.mod_eq_of_lt (by omega)]
      exact h0
    · rw [readFileInfo_eq, hfl, if_pos ⟨by omega, by simp only [entryLength] at hlen2; omega⟩, hdec]
      congr 2
      simp only [entryLength] at hlen2 ⊢
      rw [Nat.mod_eq_of_lt (by omega)]
      omega
    · have hW2 : pre ++ directoryOf (e :: rest) ++ post =
          (pre ++ writeDirectoryContent e) ++ directoryOf rest ++ post := by
        rw [directoryOf_cons]; simp only [List.append_assoc]
      have hpl : (pre ++ writeDirectoryContent e).length = pre.length + entryLength e := by
        rw [List.length_append, hle]
      rw [hW2, ← hpl]
      apply walked_of_encoded maxOffset rest (pre ++ writeDirectoryContent e) post
        (fun x hx => hwf x (by simp [hx]))
      · intro k hk
        have := hcond (k + 1) (by simpa using hk)
        simpa [cursorAfter, hpl] using this
      · rw [← hW2]; exact hlen
theorem readMetadata_lengths {b : List Byte} {md : Metadata} (h : readMetadata b = .ok md) :
    md.header.headerLength1 = md.header.headerLength2 ∧
      md.files.fileDataLength1 = md.files.fileDataLength2 ∧
      md.footer.directoryLength1 = md.footer.directoryLength2 := by
  rw [readMetadata_eq] at h
  split_ifs at h with h1 h2 h3 h4
  rw [← Except.ok.inj h]
  exact ⟨not_not.1 h2, not_not.1 h3, not_not.1 h4⟩

/-- The entries a successful pack leaves: as many as before, each the old
one with a new size and, for a non-empty file, a new offset. -/
theorem packWith_frame {P : Platform} {sourceDirectory : Tree} {intro : IntroSection}
    {metadata : Metadata} {infos : List FileInfo} {order : List Nat} {st : PackState}
    (h : packWith P sourceDirectory intro metadata infos order = (st, .ok ()))
    (hord : IsOffsetOrder infos order) :
    st.infosInOriginalOrder.length = infos.length ∧
      ∀ (i : Nat) (a b : FileInfo), infos[i]? = some a → st.infosInOriginalOrder[i]? = some b →
        ∃ pos file, sourceFile P sourceDirectory a = some file ∧
          b = placed metadata.files.fileDataOffset pos file a := by
  refine ⟨(packWith_entry h hord.nodup).1, ?_⟩
  intro i a b ha hb
  have hi : i < infos.length := by
    rcases Nat.lt_or_ge i infos.length with h' | h'
    · exact h'
    · rw [List.getElem?_eq_none h'] at ha; cases ha
  obtain ⟨l1, l2, info, file, _, h1, h2, h3, _⟩ := packWith_entry_at h hord hi
  rw [ha] at h1; cases h1
  rw [hb] at h3
  exact ⟨_, file, h2, Option.some.inj h3⟩

theorem map_eq_of_frame {α : Type} (f : FileInfo → α) {xs ys : List FileInfo}
    (hlen : ys.length = xs.length)
    (h : ∀ (i : Nat) (a b : FileInfo), xs[i]? = some a → ys[i]? = some b → f b = f a) :
    ys.map f = xs.map f := by
  apply List.ext_getElem
  · simp [hlen]
  · intro n h1 h2
    simp only [List.getElem_map]
    simp only [List.length_map] at h1 h2
    exact h n xs[n] ys[n] (List.getElem?_eq_getElem h2) (List.getElem?_eq_getElem h1)

/-- The packed archive parses: its intro and its trailer read back, and when
`directoryOffset + directoryLength1` did not overflow in the original, the
walk of the packed archive collects the entries pack wrote. -/
theorem packed_parses {P : Platform} {sourceDirectory : Tree} {rwdFile : List Byte}
    {intro : IntroSection} {md : Metadata} {infos : List FileInfo} {order : List Nat}
    {st : PackState}
    (hintro : readIntro rwdFile = .ok intro) (hmd : readMetadata rwdFile = .ok md)
    (hwalk : forFile rwdFile md collect [] = (infos, .ok ()))
    (hord : IsOffsetOrder infos order)
    (hpack : packWith P sourceDirectory intro md infos order = (st, .ok ()))
    (hfit : st.rwdOut.length < 2 ^ 63) :
    readIntro st.rwdOut = .ok intro ∧ readMetadata st.rwdOut = .ok st.metadata ∧
      (md.footer.directoryOffset + md.footer.directoryLength1 < 2 ^ 64 →
        Walked st.rwdOut (maxOffsetOf st.metadata) st.metadata.footer.directoryOffset
            st.infosInOriginalOrder ∧
          ¬ loopCondition
            (cursorAfter st.metadata.footer.directoryOffset st.infosInOriginalOrder)
            (maxOffsetOf st.metadata)) := by
  obtain ⟨hlen1, hmeta, hout, _, _⟩ := packWith_entry hpack hord.nodup
  obtain ⟨_, _, _, hwi, hli⟩ := readIntro_ok hintro
  obtain ⟨hwf, _⟩ := readMetadata_wellFormed hmd
  obtain ⟨hp1, hp2, hp3⟩ := readMetadata_lengths hmd
  obtain ⟨hW, hstop⟩ := forFile_collect_ok hwalk
  obtain ⟨_, hframe⟩ := packWith_frame hpack hord
  -- well-formed entries of equal lengths
  have hwf1 : ∀ e ∈ st.infosInOriginalOrder, e.WellFormed := by
    intro e he
    obtain ⟨i, hi, rfl⟩ := List.getElem_of_mem he
    have hi' : i < infos.length := by omega
    obtain ⟨pos, file, _, hpl⟩ := hframe i infos[i] st.infosInOriginalOrder[i]
      (List.getElem?_eq_getElem hi') (List.getElem?_eq_getElem hi)
    rw [hpl]
    exact placed_wellFormed _ _ _ (hW.wellFormed _ (List.getElem_mem hi'))
  have hel : st.infosInOriginalOrder.map entryLength = infos.map entryLength := by
    apply map_eq_of_frame entryLength hlen1
    intro i a b ha hb
    obtain ⟨pos, file, _, hpl⟩ := hframe i a b ha hb
    rw [hpl]; rfl
  -- sizes
  have hwf' : st.metadata.WellFormed := by
    rw [hmeta]
    obtain ⟨h0, hh, hf, h1, h2, h3, h4, h5, h6⟩ := hwf
    exact ⟨h0, hh, hf, h1, Nat.mod_lt _ (by norm_num), h3, h4, h5, h6⟩
  obtain ⟨hdec, hl292⟩ := decodeMetadata_writeMetadata hwf'
  have hdl := directoryOf_length hwf1
  rw [hel] at hdl
  have hlen : st.rwdOut.length =
      (writeIntro intro ++ dataOf P sourceDirectory infos order).length
        + (infos.map entryLength).sum + 292 := by
    rw [hout]; simp only [List.length_append, hdl, hl292]
  have hdo : st.metadata.footer.directoryOffset =
      (writeIntro intro ++ dataOf P sourceDirectory infos order).length := by
    rw [hmeta]
    exact Nat.mod_eq_of_lt (by omega)
  have hdl1 : st.metadata.footer.directoryLength1 = md.footer.directoryLength1 := by
    rw [hmeta]
  refine ⟨?_, ?_, ?_⟩
  · apply readIntro_of_prefix hintro
    · rw [hout, ← hwi, List.append_assoc, List.append_assoc, List.take_left' hli]
    · rw [hlen, List.length_append, hli]; omega
  · have hdrop : st.rwdOut.drop (st.rwdOut.length - 292) = writeMetadata st.metadata := by
      rw [hlen, Nat.add_sub_cancel, hout]
      apply List.drop_left'
      simp only [List.length_append, hdl]
    rw [readMetadata_eq, if_pos (by omega), hdrop, hdec]
    have e1 : st.metadata.header = md.header := by rw [hmeta]
    have e2 : st.metadata.files = md.files := by rw [hmeta]
    have e3 : st.metadata.footer.directoryLength2 = md.footer.directoryLength2 := by rw [hmeta]
    rw [e1, e2, hdl1, e3, if_neg (not_not.2 hp1), if_neg (not_not.2 hp2), if_neg (not_not.2 hp3)]
  · intro hno
    have hmax : maxOffsetOf md = md.footer.directoryOffset + md.footer.directoryLength1 :=
      Nat.mod_eq_of_lt hno
    rw [hmax] at hW hstop
    -- the directory length covers at most the entries and the padding
    have hend : cursorAfter md.footer.directoryOffset infos + 4 < 2 ^ 64 := by
      by_cases hn : infos = []
      · subst hn
        simp only [cursorAfter, loopCondition, sizeofPadding] at hstop ⊢
        by_contra hc
        apply hstop
        omega
      · have := hW.cursorAfter_lt hn
        omega
    have hcover : md.footer.directoryLength1 ≤ (infos.map entryLength).sum + 4 := by
      simp only [loopCondition, sizeofPadding] at hstop
      rw [Nat.mod_eq_of_lt hend, cursorAfter_eq_sum] at hstop
      omega
    have hmax1 : maxOffsetOf st.metadata =
        st.metadata.footer.directoryOffset + md.footer.directoryLength1 := by
      unfold maxOffsetOf
      rw [hdl1]
      exact Nat.mod_eq_of_lt (by omega)
    rw [hmax1]
    constructor
    · have hwalked := walked_of_encoded
        (st.metadata.footer.directoryOffset + md.footer.directoryLength1)
        st.infosInOriginalOrder (writeIntro intro ++ dataOf P sourceDirectory infos order)
        (writeMetadata st.metadata) hwf1 ?_ (by rw [← hout]; exact hfit)
      · rw [← hout, ← hdo] at hwalked
        exact hwalked
      · intro k hk
        have hk' : k < infos.length := by omega
        obtain ⟨hc, hs⟩ := hW.take_cond k hk'
        simp only [loopCondition, sizeofPadding] at hc
        rw [Nat.mod_eq_of_lt (by omega), cursorAfter_eq_sum] at hc
        have hsum : ((st.infosInOriginalOrder.take k).map entryLength).sum =
            ((infos.take k).map entryLength).sum := by
          rw [List.map_take, List.map_take, hel]
        rw [cursorAfter_eq_sum, hsum, ← hdo]
        omega
    · simp only [loopCondition, sizeofPadding]
      rw [cursorAfter_eq_sum, hel, Nat.mod_eq_of_lt (by omega)]
      omega

/-! ## C3: pack preserves the directory order -/

theorem visit_printFilePaths (P : Platform) (rwdFile : List Byte) (filesSection : FilesSection) :
    ∀ (es : List FileInfo) (w : World),
      visit (printFilePaths P) rwdFile filesSection es w =
        ({ w with stdout := w.stdout ++ (listLines P es).1 }, (listLines P es).2)
  | [], w => by simp [visit, listLines]
  | e :: rest, w => by
    rcases hg : P.genericString e.filename with _ | name
    · simp [visit, listLines, printFilePaths, hg]
    · have hc : printFilePaths P w rwdFile filesSection e =
          ({ w with stdout := w.stdout ++ [Line.path name] }, .ok ()) := by
        simp [printFilePaths, hg]
      rw [visit_cons_ok hc, visit_printFilePaths P rwdFile filesSection rest]
      simp [listLines, hg]

theorem listLines_congr (P : Platform) :
    ∀ (xs ys : List FileInfo), xs.map (·.filename) = ys.map (·.filename) →
      listLines P xs = listLines P ys
  | [], [], _ => rfl
  | [], y :: ys, h => by simp at h
  | x :: xs, [], h => by simp at h
  | x :: xs, y :: ys, h => by
    simp only [List.map_cons, List.cons.injEq] at h
    simp only [listLines, h.1, listLines_congr P xs ys h.2]

/-- What `list` does on an archive that parses: it prints the lines of the
entries the walk collects. -/
theorem main_list_eq {P : Platform} {sort : List FileInfo → List Nat} {w : World}
    {intro : IntroSection} {md : Metadata} {infos : List FileInfo}
    (hintro : readIntro w.rwd = .ok intro) (hmd : readMetadata w.rwd = .ok md)
    (hW : Walked w.rwd (maxOffsetOf md) md.footer.directoryOffset infos)
    (hstop : ¬ loopCondition (cursorAfter md.footer.directoryOffset infos) (maxOffsetOf md)) :
    main P sort Mode.list w =
      ({ w with stdout := w.stdout ++ (listLines P infos).1 }, (listLines P infos).2) := by
  unfold main
  simp only [hintro, hmd]
  have hf : forFile w.rwd md (printFilePaths P) w =
      forFileLoop w.rwd md (printFilePaths P) (maxOffsetOf md) (w.rwd.length + 1)
        md.footer.directoryOffset w := rfl
  rw [hf, forFileLoop_of_walked w.rwd md (printFilePaths P) (maxOffsetOf md) infos _ _ _ hW hstop
    hW.length_lt, visit_printFilePaths]

/-- C3 as stated fails when `directoryOffset + directoryLength1` overflows:
`shiftedArchive` parses and its walk visits no entry (the sum is `2^64`,
which is 0 in 64 bits); pack succeeds and moves the directory offset from 28
to 26 without changing `directoryLength1`; the sum no longer overflows, and
the walk of the packed archive reads the trailer as an entry and fails
instead of visiting no entry. -/
theorem pack_preserves_directory_order_counterexample :
    readIntro shiftedArchive = .ok (decodeIntro shiftedArchive) ∧
      readMetadata shiftedArchive = .ok shiftedMetadata ∧
      forFile shiftedArchive shiftedMetadata collect [] = ([], .ok ()) ∧
      packWith plainPlatform Tree.empty (decodeIntro shiftedArchive) shiftedMetadata []
        (infosInOffsetOrder []) = (shiftedPacked, .ok ()) ∧
      readMetadata shiftedPacked.rwdOut = .ok shiftedPacked.metadata ∧
      forFile shiftedPacked.rwdOut shiftedPacked.metadata collect [] = ([], .error .ios) := by
  set_option maxRecDepth 100000 in
  exact ⟨by rfl, by rfl, by rfl, by rfl, by rfl, by rfl⟩

/-- C3, amended: `directoryOffset + directoryLength1` does not overflow 64
bits in the original archive.  Then after a successful pack the metadata of
the packed archive reads back with the new `directoryOffset` and the old
`directoryLength1`, the walk of the packed archive yields as many entries as
the walk of the original, in the same order, the i-th with the `typeId`,
`filenameLength`, `filename` and `zeros` of the i-th original entry, and
`list` on the packed archive prints what `list` on the original prints and
ends the same way.  (`hfit`: the output is a file, so its length fits a
`streamoff`.) -/
theorem pack_preserves_directory_order (P : Platform) (sourceDirectory : Tree)
    (rwdFile : List Byte) (intro : IntroSection) (md : Metadata) (infos : List FileInfo)
    (order : List Nat) (st : PackState)
    (hintro : readIntro rwdFile = .ok intro) (hmd : readMetadata rwdFile = .ok md)
    (hwalk : forFile rwdFile md collect [] = (infos, .ok ()))
    (hord : IsOffsetOrder infos order)
    (hpack : packWith P sourceDirectory intro md infos order = (st, .ok ()))
    (hfit : st.rwdOut.length < 2 ^ 63)
    (hno : md.footer.directoryOffset + md.footer.directoryLength1 < 2 ^ 64) :
    readMetadata st.rwdOut = .ok st.metadata ∧
      st.metadata.footer.directoryLength1 = md.footer.directoryLength1 ∧
      forFile st.rwdOut st.metadata collect [] = (st.infosInOriginalOrder, .ok ()) ∧
      st.infosInOriginalOrder.length = infos.length ∧
      (∀ (i : Nat) (a b : FileInfo), infos[i]? = some a →
        st.infosInOriginalOrder[i]? = some b →
        b.typeId = a.typeId ∧ b.filenameLength = a.filenameLength ∧ b.filename = a.filename ∧
          b.zeros = a.zeros) ∧
      (∀ (sort : List FileInfo → List Nat) (w : World),
        (main P sort Mode.list { w with rwd := st.rwdOut }).1.stdout =
            (main P sort Mode.list { w with rwd := rwdFile }).1.stdout ∧
          (main P sort Mode.list { w with rwd := st.rwdOut }).2 =
            (main P sort Mode.list { w with rwd := rwdFile }).2) := by
  obtain ⟨hi1, hm1, hw1⟩ := packed_parses hintro hmd hwalk hord hpack hfit
  obtain ⟨hW1, hstop1⟩ := hw1 hno
  obtain ⟨hW, hstop⟩ := forFile_collect_ok hwalk
  obtain ⟨hlen, hframe⟩ := packWith_frame hpack hord
  have hsame : ∀ (i : Nat) (a b : FileInfo), infos[i]? = some a →
      st.infosInOriginalOrder[i]? = some b →
      b.typeId = a.typeId ∧ b.filenameLength = a.filenameLength ∧ b.filename = a.filename ∧
        b.zeros = a.zeros := by
    intro i a b ha hb
    obtain ⟨pos, file, _, hpl⟩ := hframe i a b ha hb
    rw [hpl]
    exact ⟨rfl, rfl, rfl, rfl⟩
  have hdl1 : st.metadata.footer.directoryLength1 = md.footer.directoryLength1 := by
    rw [(packWith_entry hpack hord.nodup).2.1]
  refine ⟨hm1, hdl1, forFile_collect_of_walked hW1 hstop1, hlen, hsame, ?_⟩
  intro sort w
  have hnames : st.infosInOriginalOrder.map (·.filename) = infos.map (·.filename) :=
    map_eq_of_frame (·.filename) hlen (fun i a b ha hb => (hsame i a b ha hb).2.2.1)
  rw [@main_list_eq P sort { w with rwd := st.rwdOut } intro st.metadata
      st.infosInOriginalOrder hi1 hm1 hW1 hstop1,
    @main_list_eq P sort { w with rwd := rwdFile } intro md infos hintro hmd hW hstop,
    listLines_congr P _ _ hnames]
  exact ⟨rfl, rfl⟩

/-! ## C1: unpack, then pack -/

theorem readFileInfo_error {b : List Byte} {c : Nat} {e : Err}
    (h : readFileInfo b c = .error e) : e = .ios := by
  rw [readFileInfo_eq] at h
  split_ifs at h
  exact (Except.error.inj h).symm

/-- The loop counter of `forFile` never runs out: the walk ends with the
error `fuel` only if the visitor itself returns it. -/
theorem forFile_fuel {σ : Type} (rwdFile : List Byte) (md : Metadata) (handler : Handler σ)
    (s : σ)
    (hh : ∀ (s1 : σ) (info : FileInfo), (handler s1 rwdFile md.files info).2 ≠ .error .fuel) :
    (forFile rwdFile md handler s).2 ≠ .error .fuel := by
  obtain ⟨entries, _, hout⟩ :=
    forFileLoop_walk rwdFile md handler (maxOffsetOf md) (rwdFile.length + 1)
      md.footer.directoryOffset s (by omega) (by omega)
  have hf : forFile rwdFile md handler s =
      forFileLoop rwdFile md handler (maxOffsetOf md) (rwdFile.length + 1)
        md.footer.directoryOffset s := rfl
  rw [hf]
  rcases hout with ⟨_, s1, _, hres⟩ | ⟨_, s1, e, _, hre, hres⟩ | ⟨init, last, s1, s2, e, _, _, hl, hres⟩
  · rw [hres]; simp
  · rw [hres, readFileInfo_error hre]; simp
  · rw [hres]
    have := hh s1 last
    rw [hl] at this
    exact this

/-- A successful run of `main` in pack mode: the archive parsed, there was
no temporary file, the pack block ended without error, and its output
replaced the archive. -/
theorem main_pack_ok {P : Platform} {sort : List FileInfo → List Nat} {w w1 : World}
    (h : main P sort Mode.pack w = (w1, .ok ())) :
    ∃ intro md infos st, readIntro w.rwd = .ok intro ∧ readMetadata w.rwd = .ok md ∧
      forFile w.rwd md collect [] = (infos, .ok ()) ∧ w.tmp = none ∧
      packWith P w.directory intro md infos (sort infos) = (st, .ok ()) ∧
      w1.rwd = st.rwdOut ∧ w1.tmp = none ∧ w1.directory = w.directory := by
  unfold main at h
  rcases hi : readIntro w.rwd with e | intro
  · rw [hi] at h; simp at h
  · rw [hi] at h
    simp only at h
    rcases hm : readMetadata w.rwd with e | md
    · rw [hm] at h; simp at h
    · rw [hm] at h
      simp only at h
      rcases hw : forFile w.rwd md collect [] with ⟨infos, r⟩
      rw [hw] at h
      cases r with
      | error e => simp at h
      | ok u =>
        cases u
        simp only at h
        rcases ht : w.tmp with _ | t
        · rw [ht] at h
          simp only at h
          rcases hp : packWith P w.directory intro md infos (sort infos) with ⟨st, r⟩
          rw [hp] at h
          cases r with
          | error e => simp at h
          | ok u =>
            cases u
            simp only [Prod.mk.injEq, and_true] at h
            subst h
            exact ⟨intro, md, infos, st, rfl, rfl, hw, rfl, hp, rfl, rfl, rfl⟩
        · rw [ht] at h; simp at h

/-! ## The claims on pack at the example archive -/


set_option maxRecDepth 100000 in
/-- C2 at `exampleArchive` packed from `exampleTree`: the pack succeeds with
an output of 381 bytes, and each entry of the new directory has the size of
its source file and addresses that file's bytes. -/
theorem pack_places_content_witness :
    packWith plainPlatform exampleTree (decodeIntro exampleArchive) exampleMetadata exampleInfos
        (infosInOffsetOrder exampleInfos) = (examplePacked, .ok ()) ∧
      examplePacked.rwdOut.length = 381 ∧
      ∀ (i : Nat) (entry : FileInfo), examplePacked.infosInOriginalOrder[i]? = some entry →
        ∃ file, sourceFile plainPlatform exampleTree entry = some file ∧
          entry.size = file.length ∧
          (0 < entry.size →
            slice examplePacked.rwdOut
              ((exampleMetadata.files.fileDataOffset + entry.offsetFromStartOfFileData) % 2 ^ 64)
              entry.size = file) :=
  ⟨by rfl, by rfl,
    pack_places_content plainPlatform exampleTree exampleArchive (decodeIntro exampleArchive)
      exampleMetadata exampleInfos (infosInOffsetOrder exampleInfos) examplePacked (by rfl)
      (infosInOffsetOrder_isOffsetOrder exampleInfos) (by rfl) (by decide)⟩

set_option maxRecDepth 100000 in
/-- C3 at `exampleArchive` packed from `exampleTree`: the walk of the packed
archive collects the two entries pack wrote. -/
theorem pack_preserves_directory_order_witness :
    forFile exampleArchive exampleMetadata collect [] = (exampleInfos, .ok ()) ∧
      exampleMetadata.footer.directoryOffset + exampleMetadata.footer.directoryLength1
        < 2 ^ 64 ∧
      forFile examplePacked.rwdOut examplePacked.metadata collect [] =
        (examplePacked.infosInOriginalOrder, .ok ()) ∧
      examplePacked.infosInOriginalOrder.length = exampleInfos.length :=
  ⟨by rfl, by decide,
    (pack_preserves_directory_order plainPlatform exampleTree exampleArchive
      (decodeIntro exampleArchive) exampleMetadata exampleInfos (infosInOffsetOrder exampleInfos)
      examplePacked (by rfl) (by rfl) (by rfl) (infosInOffsetOrder_isOffsetOrder exampleInfos)
      (by rfl) (by decide) (by decide)).2.2.1,
    (pack_preserves_directory_order plainPlatform exampleTree exampleArchive
      (decodeIntro exampleArchive) exampleMetadata exampleInfos (infosInOffsetOrder exampleInfos)
      examplePacked (by rfl) (by rfl) (by rfl) (infosInOffsetOrder_isOffsetOrder exampleInfos)
      (by rfl) (by decide) (by decide)).2.2.2.1⟩

set_option maxRecDepth 100000 in
/-- C4 at `exampleArchive` packed from `exampleTree`: the new directory
offset is 33, the intro size 28 plus the 4 bytes of `a` and the byte of
`b`. -/
theorem pack_changes_only_directoryOffset_witness :
    readIntro exampleArchive = .ok (decodeIntro exampleArchive) ∧
      readMetadata exampleArchive = .ok exampleMetadata ∧
      examplePacked.metadata.footer.directoryOffset =
        26 + 2 * (decodeIntro exampleArchive).descriptionLength
          + (exampleInfos.map (sourceLength plainPlatform exampleTree)).sum ∧
      26 + 2 * (decodeIntro exampleArchive).descriptionLength
          + (exampleInfos.map (sourceLength plainPlatform exampleTree)).sum = 33 :=
  ⟨by rfl, by rfl,
    (pack_changes_only_directoryOffset plainPlatform exampleTree exampleArchive
      (decodeIntro exampleArchive) exampleMetadata exampleInfos (infosInOffsetOrder exampleInfos)
      examplePacked (by rfl) (by rfl) (infosInOffsetOrder_isOffsetOrder exampleInfos) (by rfl)
      (by decide)).2.2.2.2,
    by rfl⟩

set_option maxRecDepth 100000 in
/-- C5 at `exampleArchive` packed from `exampleTree`: entry 1 (`a`, original
offset 0) and entry 0 (`b`, original offset 3) have non-empty source files,
and the new offset of `a` is less than the new offset of `b`. -/
theorem pack_writes_in_offset_order_witness :
    exampleMetadata.files.fileDataOffset ≤ 26 + 2 * (decodeIntro exampleArchive).descriptionLength ∧
      (placed 28 28 [0x11, 0x12, 0x13, 0x14] (decodeFileInfo exampleArchive 61)).offsetFromStartOfFileData
        < (placed 28 32 [0x21] (decodeFileInfo exampleArchive 33)).offsetFromStartOfFileData :=
  ⟨by decide,
    (pack_writes_in_offset_order plainPlatform exampleTree exampleArchive
      (decodeIntro exampleArchive) exampleMetadata exampleInfos (infosInOffsetOrder exampleInfos)
      examplePacked (by rfl) (by rfl) (infosInOffsetOrder_isOffsetOrder exampleInfos) (by rfl)
      (by decide) 1 0 (decodeFileInfo exampleArchive 61) (decodeFileInfo exampleArchive 33)
      (placed 28 28 [0x11, 0x12, 0x13, 0x14] (decodeFileInfo exampleArchive 61))
      (placed 28 32 [0x21] (decodeFileInfo exampleArchive 33))
      (by rfl) (by rfl) (by rfl) (by rfl) (by decide) (by decide) (by decide)).2 (by decide)⟩

set_option maxRecDepth 100000 in
/-- C12 fails in the code.  The only entry of `truncatedArchive` addresses
1000 bytes from 26 on in an archive of 347 bytes.  `unpack` prints the name,
seeks to 26 and creates the file; the copy then reads through an
`istreambuf_iterator` past the end of the stream, which the exception mask
of the stream does not see: the run does not end with the stream error the
claim asks for. -/
theorem short_copy_is_not_a_stream_error :
    readIntro truncatedArchive = .ok (decodeIntro truncatedArchive) ∧
      readMetadata truncatedArchive = .ok truncatedMetadata ∧
      forFile truncatedArchive truncatedMetadata collect [] =
        ([decodeFileInfo truncatedArchive 27], .ok ()) ∧
      truncatedArchive.length <
        truncatedMetadata.files.fileDataOffset
          + (decodeFileInfo truncatedArchive 27).offsetFromStartOfFileData
          + (decodeFileInfo truncatedArchive 27).size ∧
      (main plainPlatform infosInOffsetOrder Mode.unpack (World.initial truncatedArchive)).2 =
        .error .undefinedBehaviour ∧
      (main plainPlatform infosInOffsetOrder Mode.unpack (World.initial truncatedArchive)).2 ≠
        .error .ios ∧
      (main plainPlatform infosInOffsetOrder Mode.unpack
        (World.initial truncatedArchive)).1.directory [97] = some [] := by
  have h2 : (main plainPlatform infosInOffsetOrder Mode.unpack
      (World.initial truncatedArchive)).2 = .error .undefinedBehaviour := by rfl
  refine ⟨by rfl, by rfl, by rfl, by decide, h2, ?_, by rfl⟩
  rw [h2]
  intro h
  cases h

/-! ## C13: a missing source file -/

theorem getElem?_lt {α : Type} {l : List α} {i : Nat} {a : α} (h : l[i]? = some a) :
    i < l.length := by
  rcases Nat.lt_or_ge i l.length with h' | h'
  · exact h'
  · rw [List.getElem?_eq_none h'] at h; cases h

/-- The write loop over `l1 ++ l2` is the loop over `l1` followed, when that
one succeeds, by the loop over `l2`. -/
theorem writeFiles_append (P : Platform) (sourceDir : Tree) (filesSection : FilesSection)
    (l2 : List Nat) :
    ∀ (l1 : List Nat) (s : List Byte × List FileInfo),
      writeFiles P sourceDir filesSection (l1 ++ l2) s =
        match writeFiles P sourceDir filesSection l1 s with
        | (s1, .ok ()) => writeFiles P sourceDir filesSection l2 s1
        | (s1, .error e) => (s1, .error e)
  | [], s => by simp [writeFiles]
  | i :: rest, (rwdOut, infos) => by
    rw [List.cons_append, writeFiles, writeFiles]
    rcases infos[i]? with _ | info
    · rfl
    · simp only
      rcases writeFileContent P sourceDir rwdOut filesSection info with e | ⟨out1, info1⟩
      · rfl
      · simp only
        exact writeFiles_append P sourceDir filesSection l2 rest _

/-- C16. Empty files keep their old offset.  After a successful pack of a
parsable archive the new directory (the one the output holds before its
trailer) has one entry for each entry `old` of the original one, and every
pointer `i` has its place `order = l1 ++ i :: l2` in the order of the sort.
At that place the loop has written the intro and the files of the pointers
`l1` and has left entry `i` as it was read; `writeFileContent` is called on
this output, appends the source file `file` of the entry and gives the entry
`new` that the new directory holds at `i`.  `new.size` is the length of
`file`; when `file` is empty, `new` has size 0 and the
`offsetFromStartOfFileData` of `old`; when `file` is not empty, its offset
is the length of the output at the call, which is the position of the first
byte of `file` in the packed archive, minus `Files.fileDataOffset`, modulo
2^64.  This holds for every order the sort may give.  (`hfit`: the output
is a file, so its length fits a `streamoff`.) -/
theorem pack_keeps_offset_of_empty_files (P : Platform) (sourceDirectory : Tree)
    (rwdFile : List Byte) (intro : IntroSection) (md : Metadata) (infos : List FileInfo)
    (order : List Nat) (st : PackState)
    (hmd : readMetadata rwdFile = .ok md)
    (hord : IsOffsetOrder infos order)
    (hpack : packWith P sourceDirectory intro md infos order = (st, .ok ()))
    (hfit : st.rwdOut.length < 2 ^ 63) :
    st.infosInOriginalOrder.length = infos.length ∧
      (∃ data, st.rwdOut = data ++ directoryOf st.infosInOriginalOrder
        ++ writeMetadata st.metadata) ∧
      ∀ (i : Nat) (old : FileInfo), infos[i]? = some old →
        (∃ l1 l2, order = l1 ++ i :: l2) ∧
        ∀ l1 l2, order = l1 ++ i :: l2 →
          ∃ infos1 file new,
            writeFiles P sourceDirectory md.files l1 (writeIntro intro, infos) =
              ((writeIntro intro ++ dataOf P sourceDirectory infos l1, infos1), .ok ()) ∧
            infos1[i]? = some old ∧
            sourceFile P sourceDirectory old = some file ∧
            writeFileContent P sourceDirectory
                (writeIntro intro ++ dataOf P sourceDirectory infos l1) md.files old =
              .ok (writeIntro intro ++ dataOf P sourceDirectory infos l1 ++ file, new) ∧
            st.infosInOriginalOrder[i]? = some new ∧
            st.rwdOut = (writeIntro intro ++ dataOf P sourceDirectory infos l1) ++ file
              ++ (dataOf P sourceDirectory infos l2 ++ directoryOf st.infosInOriginalOrder
                ++ writeMetadata st.metadata) ∧
            new.size = file.length ∧
            (file.length = 0 →
              new.size = 0 ∧
                new.offsetFromStartOfFileData = old.offsetFromStartOfFileData) ∧
            (0 < file.length →
              new.offsetFromStartOfFileData =
                ((writeIntro intro ++ dataOf P sourceDirectory infos l1).length + 2 ^ 64
                  - md.files.fileDataOffset) % 2 ^ 64) := by
  obtain ⟨hlen, _, hout, _, hat⟩ := packWith_entry hpack hord.nodup
  obtain ⟨out1, hwrite, _, _⟩ := packWith_ok hpack
  refine ⟨hlen, ⟨_, hout⟩, ?_⟩
  intro i old hold
  have hi : i < infos.length := getElem?_lt hold
  refine ⟨List.append_of_mem ((hord.mem_iff i).2 hi), ?_⟩
  intro l1 l2 hsplit
  obtain ⟨info, file, hinfo, hfile, hnew⟩ := hat l1 i l2 hsplit
  rw [hold] at hinfo
  obtain rfl := Option.some.inj hinfo
  have hnd : (l1 ++ i :: l2).Nodup := hsplit ▸ hord.nodup
  have hnd1 : l1.Nodup := (List.nodup_append.1 hnd).1
  have hil1 : i ∉ l1 := fun h =>
    (List.nodup_append.1 hnd).2.2 h (List.mem_cons_self _ _)
  -- the loop over the pointers before `i`
  rw [hsplit, writeFiles_append] at hwrite
  rcases hpre : writeFiles P sourceDirectory md.files l1 (writeIntro intro, infos) with
    ⟨⟨b1, infos1⟩, r⟩
  rw [hpre] at hwrite
  cases r with
  | error e => simp at hwrite
  | ok u =>
    cases u
    obtain ⟨_, hb1, hkeep, _⟩ :=
      writeFiles_spec P sourceDirectory md.files l1 (writeIntro intro) infos b1 infos1 hpre hnd1
    subst hb1
    have hold1 : infos1[i]? = some old := by rw [hkeep i hil1]; exact hold
    have hfdo : md.files.fileDataOffset < 2 ^ 64 := (readMetadata_wellFormed hmd).1.2.2.1.2.1
    have hout2 : st.rwdOut = (writeIntro intro ++ dataOf P sourceDirectory infos l1) ++ file
        ++ (dataOf P sourceDirectory infos l2 ++ directoryOf st.infosInOriginalOrder
          ++ writeMetadata st.metadata) := by
      rw [hout, hsplit, dataOf_append, dataOf_cons, fileAt_of_sourceFile hold hfile]
      simp only [List.append_assoc]
    have hlenout : st.rwdOut.length =
        (writeIntro intro ++ dataOf P sourceDirectory infos l1).length + file.length
          + (dataOf P sourceDirectory infos l2 ++ directoryOf st.infosInOriginalOrder
            ++ writeMetadata st.metadata).length := by
      rw [hout2]; simp only [List.length_append]
    have hfl : file.length % 2 ^ 64 = file.length := Nat.mod_eq_of_lt (by omega)
    have hnew2 : st.infosInOriginalOrder[i]? = some (placed md.files.fileDataOffset
        (writeIntro intro ++ dataOf P sourceDirectory infos l1).length file old) := by
      rw [hnew, List.length_append]
    refine ⟨infos1, file, _, rfl, hold1, hfile,
      writeFileContent_of_sourceFile _ md.files hfile, hnew2, hout2, ?_, ?_, ?_⟩
    · simp only [placed]
      exact hfl
    · intro h0
      simp only [placed, hfl, h0]
      simp
    · intro hpos
      have hp : 0 < file.length % 2 ^ 64 := by rw [hfl]; exact hpos
      have hb : (writeIntro intro ++ dataOf P sourceDirectory infos l1).length % 2 ^ 64 =
          (writeIntro intro ++ dataOf P sourceDirectory infos l1).length :=
        Nat.mod_eq_of_lt (by omega)
      simp only [placed, if_pos hp]
      rw [hb, Nat.mod_eq_of_lt hfdo]

set_option maxRecDepth 100000 in
/-- C16 at `exampleArchive`, whose sort order is `a` (pointer 1), then `b`
(pointer 0).  Packed from `exampleTree`, `b` is written after the intro and
the four bytes of `a`, at 32, and gets the offset 4; packed from
`emptyFileTree`, in which `b` is empty, `b` keeps its offset 3 with size
0. -/
theorem pack_keeps_offset_of_empty_files_witness :
    packWith plainPlatform exampleTree (decodeIntro exampleArchive) exampleMetadata
        exampleInfos (infosInOffsetOrder exampleInfos) = (examplePacked, .ok ()) ∧
      packWith plainPlatform emptyFileTree (decodeIntro exampleArchive) exampleMetadata
        exampleInfos (infosInOffsetOrder exampleInfos) = (emptyFilePacked, .ok ()) ∧
      infosInOffsetOrder exampleInfos = [1, 0] ∧
      exampleInfos.map (fun e => (e.offsetFromStartOfFileData, e.size)) = [(3, 2), (0, 3)] ∧
      examplePacked.infosInOriginalOrder.map (fun e => (e.offsetFromStartOfFileData, e.size))
        = [(4, 1), (0, 4)] ∧
      emptyFilePacked.infosInOriginalOrder.map (fun e => (e.offsetFromStartOfFileData, e.size))
        = [(3, 0), (0, 1)] ∧
      (∃ infos1 file new,
        writeFiles plainPlatform exampleTree exampleMetadata.files [1]
            (writeIntro (decodeIntro exampleArchive), exampleInfos) =
          ((writeIntro (decodeIntro exampleArchive)
            ++ dataOf plainPlatform exampleTree exampleInfos [1], infos1), .ok ()) ∧
        infos1[0]? = some (decodeFileInfo exampleArchive 33) ∧
        sourceFile plainPlatform exampleTree (decodeFileInfo exampleArchive 33) = some file ∧
        writeFileContent plainPlatform exampleTree
            (writeIntro (decodeIntro exampleArchive)
              ++ dataOf plainPlatform exampleTree exampleInfos [1])
            exampleMetadata.files (decodeFileInfo exampleArchive 33) =
          .ok (writeIntro (decodeIntro exampleArchive)
            ++ dataOf plainPlatform exampleTree exampleInfos [1] ++ file, new) ∧
        examplePacked.infosInOriginalOrder[0]? = some new ∧
        examplePacked.rwdOut = (writeIntro (decodeIntro exampleArchive)
            ++ dataOf plainPlatform exampleTree exampleInfos [1]) ++ file
          ++ (dataOf plainPlatform exampleTree exampleInfos []
            ++ directoryOf examplePacked.infosInOriginalOrder
            ++ writeMetadata examplePacked.metadata) ∧
        new.size = file.length ∧
        (file.length = 0 →
          new.size = 0 ∧
            new.offsetFromStartOfFileData =
              (decodeFileInfo exampleArchive 33).offsetFromStartOfFileData) ∧
        (0 < file.length →
          new.offsetFromStartOfFileData =
            ((writeIntro (decodeIntro exampleArchive)
              ++ dataOf plainPlatform exampleTree exampleInfos [1]).length + 2 ^ 64
              - exampleMetadata.files.fileDataOffset) % 2 ^ 64)) ∧
      (writeIntro (decodeIntro exampleArchive)
        ++ dataOf plainPlatform exampleTree exampleInfos [1]).length = 32 :=
  ⟨by rfl, by rfl, by rfl, by rfl, by rfl, by rfl,
    ((pack_keeps_offset_of_empty_files plainPlatform exampleTree exampleArchive
      (decodeIntro exampleArchive) exampleMetadata exampleInfos (infosInOffsetOrder exampleInfos)
      examplePacked (by rfl) (infosInOffsetOrder_isOffsetOrder exampleInfos) (by rfl)
      (by decide)).2.2 0 (decodeFileInfo exampleArchive 33) (by rfl)).2 [1] [] (by rfl),
    by rfl⟩

/-! ## C15: where decoded entries lie -/

theorem Walked.take {rwdFile : List Byte} {maxOffset : Nat} :
    ∀ {c : Nat} {es : List FileInfo}, Walked rwdFile maxOffset c es → ∀ k,
      Walked rwdFile maxOffset c (es.take k)
  | _, [], _, k => by simp [Walked]
  | _, _ :: _, _, 0 => by simp [Walked]
  | c, x :: rest, h, k + 1 => by
    simp only [List.take_succ_cons, Walked]
    exact ⟨h.1, h.2.1, Walked.take h.2.2 k⟩

theorem cursorAfter_take_succ (c : Nat) (es : List FileInfo) (k : Nat) (hk : k < es.length) :
    cursorAfter c (es.take (k + 1)) = cursorAfter c (es.take k) + entryLength es[k] := by
  rw [List.take_succ, cursorAfter_append, List.getElem?_eq_getElem hk]
  rfl

set_option maxRecDepth 100000 in
/-- C15 as stated fails: the footer of `overrunArchive` gives the region
[26, 31), the walk succeeds with the one entry stored at 26, and the cursor
after that entry is 54. -/
theorem decoded_entries_stay_in_region_counterexample :
    readMetadata overrunArchive = .ok overrunMetadata ∧
      forFile overrunArchive overrunMetadata collect [] =
        ([decodeFileInfo overrunArchive 26], .ok ()) ∧
      overrunMetadata.footer.directoryOffset + overrunMetadata.footer.directoryLength1 = 31 ∧
      cursorAfter overrunMetadata.footer.directoryOffset [decodeFileInfo overrunArchive 26]
        = 54 := by
  exact ⟨by rfl, by rfl, by rfl, by rfl⟩

/-- C15, amended.  Decoded entries start inside the directory region: when
the walk succeeds, every entry it decodes starts at a cursor that passes the
loop test (in 64 bits) and is below 2^63, the cursor after the entry is
the start plus `26 + 2 * filenameLength` and is at most the length of the
stream; when `directoryOffset + directoryLength1` does not overflow, the
start `c` satisfies `directoryOffset ≤ c` and `c + 4 < directoryOffset +
directoryLength1`, so the cursor after the entry is below `directoryOffset +
directoryLength1 + 22 + 2 * filenameLength`.  Nothing bounds the end of an
entry by the end of the region. -/
theorem decoded_entries_start_in_region (rwdFile : List Byte) (md : Metadata)
    (infos : List FileInfo)
    (hwalk : forFile rwdFile md collect [] = (infos, .ok ())) :
    ∀ (k : Nat) (hk : k < infos.length),
      loopCondition (cursorAfter md.footer.directoryOffset (infos.take k)) (maxOffsetOf md) ∧
        cursorAfter md.footer.directoryOffset (infos.take k) < 2 ^ 63 ∧
        cursorAfter md.footer.directoryOffset (infos.take (k + 1)) =
          cursorAfter md.footer.directoryOffset (infos.take k) + 26
            + 2 * infos[k].filenameLength ∧
        cursorAfter md.footer.directoryOffset (infos.take (k + 1)) ≤ rwdFile.length ∧
        (md.footer.directoryOffset + md.footer.directoryLength1 < 2 ^ 64 →
          md.footer.directoryOffset ≤ cursorAfter md.footer.directoryOffset (infos.take k) ∧
            cursorAfter md.footer.directoryOffset (infos.take k) + 4 <
              md.footer.directoryOffset + md.footer.directoryLength1 ∧
            cursorAfter md.footer.directoryOffset (infos.take (k + 1)) <
              md.footer.directoryOffset + md.footer.directoryLength1 + 22
                + 2 * infos[k].filenameLength) := by
  intro k hk
  obtain ⟨hw, _⟩ := forFile_collect_ok hwalk
  obtain ⟨hcond, hlt⟩ := Walked.take_cond hw k hk
  have hstep := cursorAfter_take_succ md.footer.directoryOffset infos k hk
  simp only [entryLength] at hstep
  have hend : cursorAfter md.footer.directoryOffset (infos.take (k + 1)) ≤ rwdFile.length :=
    Walked.cursorAfter_le (Walked.take hw (k + 1)) (by
      intro h
      have := congrArg List.length h
      rw [List.length_take, List.length_nil] at this
      omega)
  refine ⟨hcond, hlt, by omega, hend, ?_⟩
  intro hsum
  have hge := le_cursorAfter md.footer.directoryOffset (infos.take k)
  have hc := hcond
  simp only [loopCondition, maxOffsetOf, sizeofPadding, Nat.mod_eq_of_lt hsum] at hc
  rw [Nat.mod_eq_of_lt (by omega)] at hc
  omega

set_option maxRecDepth 100000 in
theorem decoded_entries_start_in_region_witness :
    forFile exampleArchive exampleMetadata collect [] = (exampleInfos, .ok ()) ∧
      cursorAfter exampleMetadata.footer.directoryOffset (exampleInfos.take 1) = 61 ∧
      61 + 4 < exampleMetadata.footer.directoryOffset + exampleMetadata.footer.directoryLength1 ∧
      cursorAfter exampleMetadata.footer.directoryOffset (exampleInfos.take 2) ≤
        exampleArchive.length :=
  ⟨by rfl, by rfl,
    ((decoded_entries_start_in_region exampleArchive exampleMetadata exampleInfos (by rfl) 1
      (by decide)).2.2.2.2 (by decide)).2.1,
    (decoded_entries_start_in_region exampleArchive exampleMetadata exampleInfos (by rfl) 1
      (by decide)).2.2.2.1⟩

/-! ## C18: termination of the walk -/

theorem readFileInfo_past_end (rwdFile : List Byte) (c : Nat) (h : rwdFile.length < c + 26) :
    readFileInfo rwdFile c = .error .ios := by
  rw [readFileInfo_eq, if_neg]
  intro hc
  omega

theorem Walked.length_le_div {rwdFile : List Byte} {maxOffset c : Nat} {infos : List FileInfo}
    (h : Walked rwdFile maxOffset c infos) : infos.length ≤ rwdFile.length / 26 := by
  by_cases he : infos = []
  · subst he; simp
  · have h1 := Walked.cursorAfter_le h he
    have h2 := le_cursorAfter c infos
    exact (Nat.le_div_iff_mul_le (by decide)).2 (by omega)

set_option maxRecDepth 100000 in
/-- C18 as stated fails in its stop condition: in `shiftedArchive` the
footer has `directoryOffset = 28` and `directoryLength1 = 2^64 - 28`; the
walk ends without error after no entry, with the cursor at 28, though
`cursor + 4 < directoryOffset + directoryLength1`. -/
theorem walk_terminates_counterexample :
    readMetadata shiftedArchive = .ok shiftedMetadata ∧
      forFile shiftedArchive shiftedMetadata collect [] = ([], .ok ()) ∧
      cursorAfter shiftedMetadata.footer.directoryOffset [] + 4 <
        shiftedMetadata.footer.directoryOffset + shiftedMetadata.footer.directoryLength1 := by
  exact ⟨by rfl, by rfl, by decide⟩

/-- C18, amended.  The directory walk ends on every stream, every metadata
and every visitor that returns: there is a list `entries` of decoded
entries, of length at most `rwdFile.length / 26`, each of which moves the
cursor by `26 + 2 * filenameLength` to a position within the stream, and the
walk ends in one of three ways: without error at a cursor where the loop
test `(cursor + 4) mod 2^64 < (directoryOffset + directoryLength1) mod 2^64`
fails, every entry visited; with a stream error because the entry at the
cursor cannot be read (the cursor is at least 2^63 or the entry does not fit
the stream), every entry visited; or with the error the visitor gave for the
last entry.  A read at a cursor with fewer than 26 bytes left always fails,
and the loop counter of the model never runs out. -/
theorem walk_terminates {σ : Type} (rwdFile : List Byte) (md : Metadata)
    (handler : Handler σ) (s : σ) :
    (∀ c, rwdFile.length < c + 26 → readFileInfo rwdFile c = .error .ios) ∧
      ((∀ (s1 : σ) (info : FileInfo), (handler s1 rwdFile md.files info).2 ≠ .error .fuel) →
        (forFile rwdFile md handler s).2 ≠ .error .fuel) ∧
      ∃ entries : List FileInfo,
        Walked rwdFile (maxOffsetOf md) md.footer.directoryOffset entries ∧
          entries.length ≤ rwdFile.length / 26 ∧
          (∀ (k : Nat) (hk : k < entries.length),
            cursorAfter md.footer.directoryOffset (entries.take (k + 1)) =
                cursorAfter md.footer.directoryOffset (entries.take k) + 26
                  + 2 * entries[k].filenameLength ∧
              cursorAfter md.footer.directoryOffset (entries.take (k + 1)) ≤ rwdFile.length) ∧
          ((¬ loopCondition (cursorAfter md.footer.directoryOffset entries) (maxOffsetOf md) ∧
              ∃ s1, visit handler rwdFile md.files entries s = (s1, .ok ()) ∧
                forFile rwdFile md handler s = (s1, .ok ())) ∨
            (loopCondition (cursorAfter md.footer.directoryOffset entries) (maxOffsetOf md) ∧
              (2 ^ 63 ≤ cursorAfter md.footer.directoryOffset entries ∨
                rwdFile.length < cursorAfter md.footer.directoryOffset entries + 26 + 2 *
                  leToNat (slice rwdFile (cursorAfter md.footer.directoryOffset entries + 4) 2)) ∧
              ∃ s1, visit handler rwdFile md.files entries s = (s1, .ok ()) ∧
                forFile rwdFile md handler s = (s1, .error .ios)) ∨
            (∃ init last s1 s2 e, entries = init ++ [last] ∧
              visit handler rwdFile md.files init s = (s1, .ok ()) ∧
              handler s1 rwdFile md.files last = (s2, .error e) ∧
              forFile rwdFile md handler s = (s2, .error e))) := by
  refine ⟨readFileInfo_past_end rwdFile, forFile_fuel rwdFile md handler s, ?_⟩
  obtain ⟨entries, hw, hout⟩ :=
    forFileLoop_walk rwdFile md handler (maxOffsetOf md) (rwdFile.length + 1)
      md.footer.directoryOffset s (by omega) (by omega)
  have hf : forFile rwdFile md handler s =
      forFileLoop rwdFile md handler (maxOffsetOf md) (rwdFile.length + 1)
        md.footer.directoryOffset s := rfl
  refine ⟨entries, hw, hw.length_le_div, ?_, ?_⟩
  · intro k hk
    have hstep := cursorAfter_take_succ md.footer.directoryOffset entries k hk
    simp only [entryLength] at hstep
    refine ⟨by omega, Walked.cursorAfter_le (Walked.take hw (k + 1)) ?_⟩
    intro h
    have := congrArg List.length h
    rw [List.length_take, List.length_nil] at this
    omega
  · rcases hout with ⟨hc, s1, hv, hres⟩ | ⟨hc, s1, e, hv, hre, hres⟩ |
      ⟨init, last, s1, s2, e, he, hv, hl, hres⟩
    · exact Or.inl ⟨hc, s1, hv, hf.trans hres⟩
    · have hios := readFileInfo_error hre
      subst hios
      refine Or.inr (Or.inl ⟨hc, ?_, s1, hv, hf.trans hres⟩)
      rw [readFileInfo_eq] at hre
      by_cases hcond : cursorAfter md.footer.directoryOffset entries < 2 ^ 63 ∧
          cursorAfter md.footer.directoryOffset entries + 6 +
            leToNat (slice rwdFile (cursorAfter md.footer.directoryOffset entries + 4) 2) * 2
            + 20 ≤ rwdFile.length
      · rw [if_pos hcond] at hre
        cases hre
      · rw [not_and_or] at hcond
        rcases hcond with h1 | h2
        · exact Or.inl (by omega)
        · exact Or.inr (by omega)
    · exact Or.inr (Or.inr ⟨init, last, s1, s2, e, he, hv, hl, hf.trans hres⟩)

/-! ## C17, C19: the layout of the packed file data -/

/-- Where the entry at position `i` of the directory lands in a successful
pack: the order splits at `i`, the file of the entry is written after the
intro and the files of the pointers before `i`, and the new directory
offset is the end of the file data. -/
theorem packWith_layout {P : Platform} {sourceDirectory : Tree} {rwdFile : List Byte}
    {intro : IntroSection} {md : Metadata} {infos : List FileInfo} {order : List Nat}
    {st : PackState}
    (hmd : readMetadata rwdFile = .ok md)
    (hord : IsOffsetOrder infos order)
    (hpack : packWith P sourceDirectory intro md infos order = (st, .ok ()))
    (hfit : st.rwdOut.length < 2 ^ 63) {l1 l2 : List Nat} {i : Nat}
    (hsplit : order = l1 ++ i :: l2) :
    ∃ info file new, infos[i]? = some info ∧ sourceFile P sourceDirectory info = some file ∧
      fileAt P sourceDirectory infos i = file ∧
      st.infosInOriginalOrder[i]? = some new ∧ new.size = file.length ∧
      (file.length = 0 → new.offsetFromStartOfFileData = info.offsetFromStartOfFileData) ∧
      (0 < file.length →
        (md.files.fileDataOffset + new.offsetFromStartOfFileData) % 2 ^ 64 =
          (writeIntro intro).length + (dataOf P sourceDirectory infos l1).length) ∧
      (0 < file.length →
        new.offsetFromStartOfFileData =
          ((writeIntro intro).length + (dataOf P sourceDirectory infos l1).length + 2 ^ 64
            - md.files.fileDataOffset) % 2 ^ 64) ∧
      st.metadata.footer.directoryOffset =
        (writeIntro intro).length + (dataOf P sourceDirectory infos l1).length + file.length
          + (dataOf P sourceDirectory infos l2).length ∧
      st.metadata.footer.directoryOffset < 2 ^ 63 ∧
      st.metadata.files = md.files := by
  obtain ⟨_, hmeta, hout, _, hat⟩ := packWith_entry hpack hord.nodup
  obtain ⟨info, file, hinfo, hfile, hnew⟩ := hat l1 i l2 hsplit
  have hfdo : md.files.fileDataOffset < 2 ^ 64 := (readMetadata_wellFormed hmd).1.2.2.1.2.1
  have hfa : fileAt P sourceDirectory infos i = file := fileAt_of_sourceFile hinfo hfile
  have hdata : (dataOf P sourceDirectory infos order).length =
      (dataOf P sourceDirectory infos l1).length + file.length
        + (dataOf P sourceDirectory infos l2).length := by
    rw [hsplit, dataOf_append, dataOf_cons, hfa]
    simp only [List.length_append]
    omega
  have hlenout : st.rwdOut.length =
      (writeIntro intro).length + (dataOf P sourceDirectory infos order).length
        + (directoryOf st.infosInOriginalOrder).length + (writeMetadata st.metadata).length := by
    rw [hout]; simp only [List.length_append]
  have hfl : file.length % 2 ^ 64 = file.length := Nat.mod_eq_of_lt (by omega)
  have hdo : st.metadata.footer.directoryOffset =
      (writeIntro intro).length + (dataOf P sourceDirectory infos order).length := by
    rw [hmeta]
    simp only [List.length_append]
    exact Nat.mod_eq_of_lt (by omega)
  refine ⟨info, file, _, hinfo, hfile, hfa, hnew, ?_, ?_, ?_, ?_, by omega, by omega, ?_⟩
  · simp only [placed]
    exact hfl
  · intro h0
    simp only [placed, hfl, h0]
    simp
  · intro hpos
    have hp : 0 < file.length % 2 ^ 64 := by rw [hfl]; exact hpos
    simp only [placed, if_pos hp]
    omega
  · intro hpos
    have hp : 0 < file.length % 2 ^ 64 := by rw [hfl]; exact hpos
    simp only [placed, if_pos hp]
    omega
  · rw [hmeta]

/-- Every pointer below the length of the directory has its place in the
order of the sort. -/
theorem IsOffsetOrder.split {infos : List FileInfo} {order : List Nat}
    (hord : IsOffsetOrder infos order) {i : Nat} (hi : i < infos.length) :
    ∃ l1 l2, order = l1 ++ i :: l2 :=
  List.append_of_mem ((hord.mem_iff i).2 hi)

set_option maxRecDepth 100000 in
/-- C17 as stated fails: packing `exampleArchive` from `longTree` succeeds,
the output parses, its metadata still records a file data length of 5, and
its first directory entry (`b`) has offset 4 and size 2. -/
theorem packed_archives_self_consistent_counterexample :
    (main plainPlatform infosInOffsetOrder Mode.pack longWorld).2 = .ok () ∧
      readMetadata longPacked = .ok (decodeMetadata (longPacked.drop 90)) ∧
      (decodeMetadata (longPacked.drop 90)).files.fileDataLength1 = 5 ∧
      forFile longPacked (decodeMetadata (longPacked.drop 90)) collect [] =
        ([decodeFileInfo longPacked 34, decodeFileInfo longPacked 62], .ok ()) ∧
      (decodeFileInfo longPacked 34).offsetFromStartOfFileData = 4 ∧
      (decodeFileInfo longPacked 34).size = 2 := by
  exact ⟨by rfl, by rfl, by rfl, by rfl, by rfl, by rfl⟩

/-- C17, amended.  Pack does not recompute `Files.fileDataLength1`: after a
successful pack the `Files` section of the output's metadata is the one of
the input, and the new `Footer.directoryOffset` is the end of the file data.
When `Files.fileDataOffset` is at most the size of the intro, every entry of
the output with a positive size satisfies `fileDataOffset +
offsetFromStartOfFileData + size ≤ directoryOffset` for the new
`directoryOffset`; so `offsetFromStartOfFileData + size ≤ fileDataLength1`
holds for these entries when the file data written ends at or before
`fileDataOffset + fileDataLength1`, and is not ensured when the source files
are longer.  (`hfit`: the output is a file, so its length fits a
`streamoff`.) -/
theorem packed_offsets_within_written_data (P : Platform) (sourceDirectory : Tree)
    (rwdFile : List Byte) (intro : IntroSection) (md : Metadata) (infos : List FileInfo)
    (order : List Nat) (st : PackState)
    (hmd : readMetadata rwdFile = .ok md)
    (hord : IsOffsetOrder infos order)
    (hpack : packWith P sourceDirectory intro md infos order = (st, .ok ()))
    (hfit : st.rwdOut.length < 2 ^ 63) :
    st.metadata.files = md.files ∧
      st.metadata.footer.directoryOffset =
        (writeIntro intro).length + (infos.map (sourceLength P sourceDirectory)).sum ∧
      (md.files.fileDataOffset ≤ (writeIntro intro).length →
        ∀ (i : Nat) (entry : FileInfo), st.infosInOriginalOrder[i]? = some entry →
          0 < entry.size →
          md.files.fileDataOffset + entry.offsetFromStartOfFileData + entry.size ≤
              st.metadata.footer.directoryOffset ∧
            (st.metadata.footer.directoryOffset ≤
                md.files.fileDataOffset + md.files.fileDataLength1 →
              entry.offsetFromStartOfFileData + entry.size ≤
                st.metadata.files.fileDataLength1)) := by
  obtain ⟨hlen, hmeta, hout, _, _⟩ := packWith_entry hpack hord.nodup
  have hfiles : st.metadata.files = md.files := by rw [hmeta]
  have hlenout : st.rwdOut.length =
      (writeIntro intro).length + (dataOf P sourceDirectory infos order).length
        + (directoryOf st.infosInOriginalOrder).length + (writeMetadata st.metadata).length := by
    rw [hout]; simp only [List.length_append]
  refine ⟨hfiles, ?_, ?_⟩
  · rw [hmeta]
    simp only [List.length_append]
    rw [Nat.mod_eq_of_lt (by omega), dataOf_length hord]
  · intro hfdo i entry hentry hpos
    have hi : i < infos.length := by rw [← hlen]; exact getElem?_lt hentry
    obtain ⟨l1, l2, hsplit⟩ := hord.split hi
    obtain ⟨info, file, new, _, _, _, hnew, hsize, _, _, hoff, hdo, _, _⟩ :=
      packWith_layout hmd hord hpack hfit hsplit
    rw [hentry] at hnew
    obtain rfl := Option.some.inj hnew
    have hfpos : 0 < file.length := by omega
    have hoff' := hoff hfpos
    rw [hfiles]
    omega

set_option maxRecDepth 100000 in
theorem packed_offsets_within_written_data_witness :
    packWith plainPlatform exampleTree (decodeIntro exampleArchive) exampleMetadata exampleInfos
        (infosInOffsetOrder exampleInfos) = (examplePacked, .ok ()) ∧
      examplePacked.metadata.files.fileDataLength1 = 5 ∧
      examplePacked.metadata.footer.directoryOffset = 33 ∧
      ∀ (i : Nat) (entry : FileInfo), examplePacked.infosInOriginalOrder[i]? = some entry →
        0 < entry.size →
        exampleMetadata.files.fileDataOffset + entry.offsetFromStartOfFileData + entry.size ≤
            examplePacked.metadata.footer.directoryOffset ∧
          (examplePacked.metadata.footer.directoryOffset ≤
              exampleMetadata.files.fileDataOffset + exampleMetadata.files.fileDataLength1 →
            entry.offsetFromStartOfFileData + entry.size ≤
              examplePacked.metadata.files.fileDataLength1) :=
  ⟨by rfl, by rfl, by rfl,
    (packed_offsets_within_written_data plainPlatform exampleTree exampleArchive
      (decodeIntro exampleArchive) exampleMetadata exampleInfos (infosInOffsetOrder exampleInfos)
      examplePacked (by rfl) (infosInOffsetOrder_isOffsetOrder exampleInfos) (by rfl)
      (by decide)).2.2 (by decide)⟩

/-- Every position of the file data written for `order` lies in the file of
one pointer of `order`. -/
theorem dataOf_index (P : Platform) (sourceDir : Tree) (infos : List FileInfo) :
    ∀ (order : List Nat) (q : Nat), q < (dataOf P sourceDir infos order).length →
      ∃ l1 k l2, order = l1 ++ k :: l2 ∧ (dataOf P sourceDir infos l1).length ≤ q ∧
        q < (dataOf P sourceDir infos l1).length + (fileAt P sourceDir infos k).length
  | [], q, h => by simp [dataOf] at h
  | i :: rest, q, h => by
    rw [dataOf_cons, List.length_append] at h
    by_cases hq : q < (fileAt P sourceDir infos i).length
    · exact ⟨[], i, rest, rfl, by simp [dataOf], by simpa [dataOf] using hq⟩
    · obtain ⟨l1, k, l2, hsplit, h1, h2⟩ :=
        dataOf_index P sourceDir infos rest (q - (fileAt P sourceDir infos i).length)
          (by omega)
      refine ⟨i :: l1, k, l2, by rw [hsplit]; rfl, ?_, ?_⟩
      · rw [dataOf_cons, List.length_append]; omega
      · rw [dataOf_cons, List.length_append]; omega

/-- Of two different members of a list, one comes before the other. -/
theorem split_of_two_mem {l : List Nat} {i j : Nat} {l1 l2 : List Nat}
    (hsplit : l = l1 ++ i :: l2) (hj : j ∈ l) (hij : i ≠ j) :
    (∃ m1 m2, l1 = m1 ++ j :: m2) ∨ (∃ m1 m2, l2 = m1 ++ j :: m2) := by
  rw [hsplit, List.mem_append, List.mem_cons] at hj
  rcases hj with h | h | h
  · exact Or.inl (List.append_of_mem h)
  · exact absurd h.symm hij
  · exact Or.inr (List.append_of_mem h)

set_option maxRecDepth 100000 in
/-- C19 as stated fails: packing `gapArchive`, whose `fileDataOffset` 27
is above the size 26 of its intro, writes `a` at position 26 with offset
`2^64 - 1`; the entry has size 1 and `fileDataOffset +
offsetFromStartOfFileData` is `2^64 + 26`, beyond the new directory offset
28. -/
theorem packed_data_contiguous_counterexample :
    packWith plainPlatform gapTree (decodeIntro gapArchive) gapMetadata gapInfos
        (infosInOffsetOrder gapInfos) = (gapPacked, .ok ()) ∧
      gapPacked.metadata.footer.directoryOffset = 28 ∧
      gapPacked.infosInOriginalOrder.map
          (fun e => (gapMetadata.files.fileDataOffset + e.offsetFromStartOfFileData, e.size)) =
        [(2 ^ 64 + 26, 1), (27, 1)] := by
  exact ⟨by rfl, by rfl, by rfl⟩

/-- C19, amended: positions are taken modulo 2^64.  After a successful
pack, with `start e = (fileDataOffset + e.offsetFromStartOfFileData) mod
2^64` for an entry `e` of the new directory: the ranges `[start e, start e +
e.size)` of two entries at different positions of the directory, both of
positive size, are disjoint; each such range lies between the end of the
intro and the new `Footer.directoryOffset`; and every position from the end
of the intro up to the new `Footer.directoryOffset` lies in the range of
an entry of positive size.  This holds for every order the sort may give.
(`hfit`: the output is a file, so its length fits a `streamoff`.) -/
theorem packed_data_contiguous (P : Platform) (sourceDirectory : Tree)
    (rwdFile : List Byte) (intro : IntroSection) (md : Metadata) (infos : List FileInfo)
    (order : List Nat) (st : PackState)
    (hmd : readMetadata rwdFile = .ok md)
    (hord : IsOffsetOrder infos order)
    (hpack : packWith P sourceDirectory intro md infos order = (st, .ok ()))
    (hfit : st.rwdOut.length < 2 ^ 63) :
    (∀ (i j : Nat) (a b : FileInfo), i ≠ j → st.infosInOriginalOrder[i]? = some a →
        st.infosInOriginalOrder[j]? = some b → 0 < a.size → 0 < b.size →
        (md.files.fileDataOffset + a.offsetFromStartOfFileData) % 2 ^ 64 + a.size ≤
            (md.files.fileDataOffset + b.offsetFromStartOfFileData) % 2 ^ 64 ∨
          (md.files.fileDataOffset + b.offsetFromStartOfFileData) % 2 ^ 64 + b.size ≤
            (md.files.fileDataOffset + a.offsetFromStartOfFileData) % 2 ^ 64) ∧
      (∀ (i : Nat) (a : FileInfo), st.infosInOriginalOrder[i]? = some a → 0 < a.size →
        (writeIntro intro).length ≤
            (md.files.fileDataOffset + a.offsetFromStartOfFileData) % 2 ^ 64 ∧
          (md.files.fileDataOffset + a.offsetFromStartOfFileData) % 2 ^ 64 + a.size ≤
            st.metadata.footer.directoryOffset) ∧
      (∀ p, (writeIntro intro).length ≤ p → p < st.metadata.footer.directoryOffset →
        ∃ (i : Nat) (a : FileInfo), st.infosInOriginalOrder[i]? = some a ∧ 0 < a.size ∧
          (md.files.fileDataOffset + a.offsetFromStartOfFileData) % 2 ^ 64 ≤ p ∧
          p < (md.files.fileDataOffset + a.offsetFromStartOfFileData) % 2 ^ 64 + a.size) := by
  obtain ⟨hlen, _, _, _, _⟩ := packWith_entry hpack hord.nodup
  refine ⟨?_, ?_, ?_⟩
  · intro i j a b hij ha hb hapos hbpos
    have hi : i < infos.length := by rw [← hlen]; exact getElem?_lt ha
    have hj : j < infos.length := by rw [← hlen]; exact getElem?_lt hb
    obtain ⟨l1, l2, hsplit⟩ := hord.split hi
    obtain ⟨_, fa, na, _, _, hfa, hna, hsa, _, hpa, _, _, _, _⟩ :=
      packWith_layout hmd hord hpack hfit hsplit
    rw [ha] at hna
    obtain rfl := Option.some.inj hna
    rcases split_of_two_mem hsplit ((hord.mem_iff j).2 hj) hij with ⟨m1, m2, h1⟩ | ⟨m1, m2, h2⟩
    · have hsplit2 : order = m1 ++ j :: (m2 ++ i :: l2) := by
        rw [hsplit, h1]; simp
      obtain ⟨_, fb, nb, _, _, hfb, hnb, hsb, _, hpb, _, _, _, _⟩ :=
        packWith_layout hmd hord hpack hfit hsplit2
      rw [hb] at hnb
      obtain rfl := Option.some.inj hnb
      have hd : (dataOf P sourceDirectory infos l1).length =
          (dataOf P sourceDirectory infos m1).length + fb.length
            + (dataOf P sourceDirectory infos m2).length := by
        rw [h1, dataOf_append, dataOf_cons, hfb]
        simp only [List.length_append]
        omega
      have h3 := hpa (by omega)
      have h4 := hpb (by omega)
      exact Or.inr (by omega)
    · have hsplit2 : order = (l1 ++ i :: m1) ++ j :: m2 := by
        rw [hsplit, h2]; simp
      obtain ⟨_, fb, nb, _, _, hfb, hnb, hsb, _, hpb, _, _, _, _⟩ :=
        packWith_layout hmd hord hpack hfit hsplit2
      rw [hb] at hnb
      obtain rfl := Option.some.inj hnb
      have hd : (dataOf P sourceDirectory infos (l1 ++ i :: m1)).length =
          (dataOf P sourceDirectory infos l1).length + fa.length
            + (dataOf P sourceDirectory infos m1).length := by
        rw [dataOf_append, dataOf_cons, hfa]
        simp only [List.length_append]
        omega
      have h3 := hpa (by omega)
      have h4 := hpb (by omega)
      exact Or.inl (by omega)
  · intro i a ha hapos
    have hi : i < infos.length := by rw [← hlen]; exact getElem?_lt ha
    obtain ⟨l1, l2, hsplit⟩ := hord.split hi
    obtain ⟨_, fa, na, _, _, _, hna, hsa, _, hpa, _, hdo, _, _⟩ :=
      packWith_layout hmd hord hpack hfit hsplit
    rw [ha] at hna
    obtain rfl := Option.some.inj hna
    have h3 := hpa (by omega)
    omega
  · intro p hp1 hp2
    obtain ⟨_, hmeta, hout, _, _⟩ := packWith_entry hpack hord.nodup
    have hlenout : st.rwdOut.length =
        (writeIntro intro).length + (dataOf P sourceDirectory infos order).length
          + (directoryOf st.infosInOriginalOrder).length
          + (writeMetadata st.metadata).length := by
      rw [hout]; simp only [List.length_append]
    have hdo : st.metadata.footer.directoryOffset =
        (writeIntro intro).length + (dataOf P sourceDirectory infos order).length := by
      rw [hmeta]
      simp only [List.length_append]
      exact Nat.mod_eq_of_lt (by omega)
    obtain ⟨l1, k, l2, hsplit, hq1, hq2⟩ :=
      dataOf_index P sourceDirectory infos order (p - (writeIntro intro).length) (by omega)
    obtain ⟨_, fk, nk, _, _, hfk, hnk, hsk, _, hpk, _, _, _, _⟩ :=
      packWith_layout hmd hord hpack hfit hsplit
    rw [hfk] at hq2
    have h3 := hpk (by omega)
    exact ⟨k, nk, hnk, by omega, by omega, by omega⟩

set_option maxRecDepth 100000 in
theorem packed_data_contiguous_witness :
    packWith plainPlatform gapTree (decodeIntro gapArchive) gapMetadata gapInfos
        (infosInOffsetOrder gapInfos) = (gapPacked, .ok ()) ∧
      (writeIntro (decodeIntro gapArchive)).length = 26 ∧
      gapPacked.metadata.footer.directoryOffset = 28 ∧
      gapPacked.infosInOriginalOrder.map
          (fun e => ((gapMetadata.files.fileDataOffset + e.offsetFromStartOfFileData) % 2 ^ 64,
            e.size)) = [(26, 1), (27, 1)] ∧
      ∀ p, (writeIntro (decodeIntro gapArchive)).length ≤ p →
        p < gapPacked.metadata.footer.directoryOffset →
        ∃ (i : Nat) (a : FileInfo), gapPacked.infosInOriginalOrder[i]? = some a ∧ 0 < a.size ∧
          (gapMetadata.files.fileDataOffset + a.offsetFromStartOfFileData) % 2 ^ 64 ≤ p ∧
          p < (gapMetadata.files.fileDataOffset + a.offsetFromStartOfFileData) % 2 ^ 64
            + a.size :=
  ⟨by rfl, by rfl, by rfl, by rfl,
    (packed_data_contiguous plainPlatform gapTree gapArchive (decodeIntro gapArchive)
      gapMetadata gapInfos (infosInOffsetOrder gapInfos) gapPacked (by rfl)
      (infosInOffsetOrder_isOffsetOrder gapInfos) (by rfl) (by decide)).2.2⟩

/-! ## C14: the paths of the files opened and created -/

theorem normalNames_cons (absolute : Bool) (kept : List (List Nat)) (name : List Nat)
    (names : List (List Nat)) :
    normalNames absolute kept (name :: names) =
      normalNames absolute (normalStep absolute kept name) names := rfl

theorem normalNames_append (absolute : Bool) (kept : List (List Nat))
    (xs ys : List (List Nat)) :
    normalNames absolute kept (xs ++ ys) =
      normalNames absolute (normalNames absolute kept xs) ys := by
  simp only [normalNames, List.foldl_append]

/-- A dot-dot that was kept is never removed. -/
theorem dotDot_mem_normalStep (absolute : Bool) {kept : List (List Nat)} (name : List Nat)
    (h : dotDot ∈ kept) : dotDot ∈ normalStep absolute kept name := by
  unfold normalStep
  by_cases h1 : name = [46]
  · rw [if_pos h1]; exact h
  · rw [if_neg h1]
    by_cases h2 : name = dotDot
    · rw [if_pos h2]
      cases kept with
      | nil => simp at h
      | cons top below =>
        by_cases h3 : top = dotDot
        · simp only [if_pos h3]
          exact List.mem_cons_self _ _
        · simp only [if_neg h3]
          rcases List.mem_cons.1 h with h4 | h4
          · exact absurd h4.symm h3
          · exact h4
    · rw [if_neg h2]
      exact List.mem_cons_of_mem _ h

theorem dotDot_mem_normalNames (absolute : Bool) :
    ∀ (names : List (List Nat)) {kept : List (List Nat)}, dotDot ∈ kept →
      dotDot ∈ normalNames absolute kept names
  | [], _, h => h
  | name :: rest, _, h => by
    rw [normalNames_cons]
    exact dotDot_mem_normalNames absolute rest (dotDot_mem_normalStep absolute name h)

/-- Names whose normal form has no dot-dot leave what was kept before them
in place. -/
theorem normalNames_above (absolute : Bool) (base : List (List Nat)) :
    ∀ (names : List (List Nat)) (kept : List (List Nat)),
      dotDot ∉ normalNames false kept names →
      normalNames absolute (kept ++ base) names = normalNames false kept names ++ base
  | [], _, _ => rfl
  | name :: rest, kept, h => by
    rw [normalNames_cons] at h ⊢
    have hstep : normalStep absolute (kept ++ base) name =
        normalStep false kept name ++ base := by
      unfold normalStep
      by_cases h1 : name = [46]
      · simp only [if_pos h1]
      · simp only [if_neg h1]
        by_cases h2 : name = dotDot
        · simp only [if_pos h2]
          cases kept with
          | nil =>
            exfalso
            apply h
            apply dotDot_mem_normalNames
            simp [normalStep, h2, dotDot]
          | cons top below =>
            by_cases h3 : top = dotDot
            · exfalso
              apply h
              apply dotDot_mem_normalNames
              simp [normalStep, h2, h3, dotDot]
            · simp only [List.cons_append, if_neg h3]
        · simp only [if_neg h2, List.cons_append]
    rw [hstep]
    exact normalNames_above absolute base rest _ h

set_option maxRecDepth 100000 in
/-- C14 as stated fails: with the target directory `/d`, unpacking
`escapeArchive`, whose entry is named `../x`, succeeds and creates the file
`/x`, and unpacking `rootedArchive`, whose entry is named `/x`, creates `/x`
as well; pack opens `/x` for these entries.  The resolved path `/x` does not
lie inside `/d`. -/
theorem paths_stay_inside_root_counterexample :
    (main (posixPlatform [47, 100]) infosInOffsetOrder Mode.unpack
        (World.initial escapeArchive)).2 = .ok () ∧
      (main (posixPlatform [47, 100]) infosInOffsetOrder Mode.unpack
        (World.initial escapeArchive)).1.directory [47, 120] = some [0xA1] ∧
      (main (posixPlatform [47, 100]) infosInOffsetOrder Mode.unpack
        (World.initial rootedArchive)).1.directory [47, 120] = some [0xA1] ∧
      (decodeFileInfo escapeArchive 27).filename = [46, 46, 47, 120] ∧
      (decodeFileInfo rootedArchive 27).filename = [47, 120] ∧
      sourceFile (posixPlatform [47, 100]) (Tree.empty.write [47, 120] [0x55])
        (decodeFileInfo escapeArchive 27) = some [0x55] ∧
      resolvedPath [47, 100] [46, 46, 47, 120] = { absolute := true, names := [[120]] } ∧
      resolvedPath [47, 100] [47, 120] = { absolute := true, names := [[120]] } ∧
      ¬ (resolvedPath [47, 100] [46, 46, 47, 120]).isInside [47, 100] := by
  refine ⟨by rfl, by rfl, by rfl, by rfl, by rfl, by rfl, by rfl, by rfl, ?_⟩
  rintro ⟨_, rest, h, _⟩
  have h1 : (resolvedPath [47, 100] [46, 46, 47, 120]).names = [[120]] := by rfl
  have h2 : (parsePath [47, 100]).lexically_normal.names = [[100]] := by rfl
  rw [h1, h2] at h
  simp at h

/-- C14, amended.  The path of a relative file name that does not climb
stays inside the given directory: when the file name of an entry has no root
directory and its own normal form has no dot-dot, the path pack opens and
unpack creates, `(directory / filename).lexically_normal()`, is the normal
form of the directory followed by the normal form of the file name, and so
lies inside the directory.  (On a platform whose only separator is `/`;
nothing in the program restricts other file names.) -/
theorem relative_paths_stay_inside_root (directory filename : List Nat)
    (hrel : (parsePath filename).absolute = false)
    (hno : dotDot ∉ (parsePath filename).lexically_normal.names) :
    (posixPlatform directory).resolve filename =
        some (resolvedPath directory filename).render ∧
      (resolvedPath directory filename).absolute = (parsePath directory).absolute ∧
      (resolvedPath directory filename).names =
        (parsePath directory).lexically_normal.names ++
          (parsePath filename).lexically_normal.names ∧
      (resolvedPath directory filename).isInside directory := by
  have hno' : dotDot ∉ normalNames false [] (parsePath filename).names := by
    intro hmem
    apply hno
    simp only [FsPath.lexically_normal, hrel, List.mem_reverse]
    exact hmem
  have habs : (resolvedPath directory filename).absolute = (parsePath directory).absolute := by
    simp only [resolvedPath, FsPath.append, hrel, FsPath.lexically_normal]
    rfl
  have hnames : (resolvedPath directory filename).names =
      (parsePath directory).lexically_normal.names ++
        (parsePath filename).lexically_normal.names := by
    have h := normalNames_above (parsePath directory).absolute
      (normalNames (parsePath directory).absolute [] (parsePath directory).names)
      (parsePath filename).names [] hno'
    simp only [List.nil_append] at h
    simp only [resolvedPath, FsPath.append, hrel, FsPath.lexically_normal]
    simp only [Bool.false_eq_true, if_false, normalNames_append, h, List.reverse_append]
  exact ⟨rfl, habs, hnames, habs, _, hnames, hno⟩

set_option maxRecDepth 100000 in
theorem relative_paths_stay_inside_root_witness :
    (parsePath [97, 47, 46, 47, 98]).lexically_normal =
        { absolute := false, names := [[97], [98]] } ∧
      (posixPlatform [47, 100]).resolve [97, 47, 46, 47, 98] =
        some [47, 100, 47, 97, 47, 98] ∧
      (resolvedPath [47, 100] [97, 47, 46, 47, 98]).isInside [47, 100] :=
  ⟨by rfl,
    (relative_paths_stay_inside_root [47, 100] [97, 47, 46, 47, 98] (by rfl)
      (by decide)).1.trans (by rfl),
    (relative_paths_stay_inside_root [47, 100] [97, 47, 46, 47, 98] (by rfl)
      (by decide)).2.2.2⟩

end RwdEdit
